import Mathlib

/-!
# OptionsParser: a shallow embedding of `Source/option_parser.c`

C strings are lists of characters with the terminating NUL left implicit, so
reading one position past the end of a string yields NUL.  Arrays with a
separate element count (`options`/`option_count`, `remainder`/`remainder_count`)
are lists; capacities and allocation are not modelled.  Pointers into the option
array are indices.  The handler callbacks are function pointers; a call through
one is recorded as a `Call` appended to a trace.  Flags are natural numbers with
the bit operations of the source.  `snprintf` into the 256-byte `error_value`
keeps 255 characters.  Every loop of the source is a function by recursion on a
bound on its iterations, computed from the loop variables where the loop is
entered (`parse_loop_fuel`, `parse_sub_options_loop_fuel` and
`parse_alias_loop_fuel` show that a larger bound gives the same result).
-/

set_option linter.unusedTactic false
set_option maxRecDepth 100000
set_option linter.unusedVariables false

namespace OptionsParser

/-! ## Flags (`option_parser.h`) -/

def OF_NONE : Nat := 0
def ___OF_ENCOUNTERED : Nat := 1
def OF_REQUIRED : Nat := 2
def OF_VALUE_REQUIRED : Nat := 4
def OF_VALUE_NOT_ALLOWED : Nat := 8
def OF_DUPLICATES_ALLOWED : Nat := 16

def PF_NONE : Nat := 0
def PF_ALLOW_REMAINDER : Nat := 1
def PF_ALWAYS_CHECK_FOR_ALIAS : Nat := 2
def PF_TREAT_DASH_AS_FULL_OPTION : Nat := 4
def PF_SETTABLE_FLAGS : Nat := 8

/-- The macro `check_flag(flags, flag)`: `((flags) & (flag)) == (flag)`. -/
def check_flag (flags flag : Nat) : Bool := (flags &&& flag) == flag

/-- The constant `ERROR_BUFFER_SIZE`. -/
def ERROR_BUFFER_SIZE : Nat := 256

inductive ParseError where
  | PE_NONE
  | PE_INVALID_NAME
  | PE_INVALID_ALIAS
  | PE_INVALID_NAME_TOKEN
  | PE_INVALID_ALIAS_TOKEN
  | PE_DUPLICATE
  | PE_REQUIRED_MISSING
  | PE_VALUE_INVALID
  | PE_VALUE_MISSING
  | PE_VALUE_GIVEN
  | PE_REMAINDER
  deriving DecidableEq, Repr

open ParseError

/-! ## Data model (`option_parser.h`) -/

structure ParseResult where
  error : ParseError
  error_value : List Char
  options_parsed : Nat
  deriving DecidableEq, Repr

structure OptionBase where
  name : List Char
  doc_string : List Char
  name_length : Nat
  alias_ : Int
  flags : Nat
  deriving DecidableEq, Repr

structure SubOption where
  base : OptionBase
  deriving DecidableEq, Repr

/-- The struct `OptionSubParser`; `handler` and `data` are opaque identifiers of
the callback and of the pointer handed to it. -/
structure OptionSubParser where
  options : List SubOption
  flags : Nat
  data : Nat
  handler : Nat
  deriving DecidableEq, Repr

/-- The struct `Option` of the header (renamed: `Option` is taken in Lean). -/
structure OptionDef where
  base : OptionBase
  sub_options : Option OptionSubParser
  deriving DecidableEq, Repr

structure OptionParser where
  options : List OptionDef
  flags : Nat
  remainder : List (List Char)
  data : Nat
  handler : Nat
  deriving DecidableEq, Repr

/-- One call `handler(name, alias, value, data)`; `value = none` is a NULL
value pointer. -/
structure Call where
  handler : Nat
  name : List Char
  alias_ : Int
  value : Option (List Char)
  data : Nat
  deriving DecidableEq, Repr

/-- What the parse functions read and write besides the registries: the
`ParseResult`, the shared cursor `*i` and the trace of handler calls. -/
structure Env where
  result : ParseResult
  i : Nat
  calls : List Call
  deriving DecidableEq, Repr

/-- The top-level registry together with the rest of the parse state. -/
structure World where
  parser : OptionParser
  env : Env
  deriving DecidableEq, Repr

/-! ## C library pieces -/

def NUL : Char := Char.ofNat 0

/-- The read `s[k]` of a C string: NUL at the terminator. -/
def char_at (s : List Char) (k : Nat) : Char := s.getD k NUL

/-- Whether `strncmp(s1, s2, n) == 0`. -/
def strncmp : List Char → List Char → Nat → Bool
  | _, _, 0 => true
  | [], [], _ + 1 => true
  | c1 :: r1, c2 :: r2, n + 1 => c1 == c2 && strncmp r1 r2 n
  | _, _, _ + 1 => false

/-- What `snprintf(buf, size, "%s", s)` leaves in `buf`: at most `size - 1`
characters. -/
def snprintf (size : Nat) (s : List Char) : List Char := s.take (size - 1)

/-- The format `"%s.%s"`. -/
def dotted (parent_name name : List Char) : List Char := parent_name ++ '.' :: name

/-- The conversion of a `char` to `int` (for the comparison with an alias). -/
def char_int (c : Char) : Int := (c.toNat : Int)

/-- The test `isalnum` in the C locale. -/
def isalnum (c : Char) : Bool := c.isAlphanum

/-! ## `option_parser.c` -/

def is_option_char (character : Char) : Bool := character != '=' && character != NUL

/-- The loop `while(is_option_char(s[count])) count++;` on the string `s`. -/
def count_option_chars : List Char → Nat
  | [] => 0
  | c :: cs => if is_option_char c then count_option_chars cs + 1 else 0

/-- The function `scan_for_name`: `none` stands for the result `-1`. -/
def scan_for_name (name : List Char) : List OptionBase → Option Nat
  | [] => none
  | o :: os =>
    if strncmp o.name name o.name_length then some 0
    else (scan_for_name name os).map (· + 1)

/-- The function `scan_for_alias`: `none` stands for the result `-1`. -/
def scan_for_alias (alias_ : Char) : List OptionBase → Option Nat
  | [] => none
  | o :: os =>
    if o.alias_ = char_int alias_ then some 0
    else (scan_for_alias alias_ os).map (· + 1)

/-- The function `option_encounter_is_valid`: the result and the option after the call. -/
def option_encounter_is_valid (o : OptionBase) : Bool × OptionBase :=
  if !check_flag o.flags OF_DUPLICATES_ALLOWED && check_flag o.flags ___OF_ENCOUNTERED then
    (false, o)
  else
    (true, { o with flags := o.flags ||| ___OF_ENCOUNTERED })

/-- The update `flags &= ~___OF_ENCOUNTERED`. -/
def clear_encountered (o : OptionBase) : OptionBase :=
  { o with flags := o.flags ^^^ (o.flags &&& ___OF_ENCOUNTERED) }

/-- Writing through the `OptionBase*` view of a `SubOption`. -/
def SubOption.with_base (o : SubOption) (b : OptionBase) : SubOption := { o with base := b }

/-- Writing through the `OptionBase*` view of an `Option`. -/
def OptionDef.with_base (o : OptionDef) (b : OptionBase) : OptionDef := { o with base := b }

/-- The function `verify_required_options`: the definition found (`none` for NULL) and the
array after the call.  The array is walked with a stride of `option_size`, here
the view `base` of an element and the write `with_base` through that view. -/
def verify_required_options {α : Type} (base : α → OptionBase) (with_base : α → OptionBase → α) :
    List α → Option OptionBase × List α
  | [] => (none, [])
  | o :: os =>
    if ((base o).flags &&& (___OF_ENCOUNTERED ||| OF_REQUIRED)) == OF_REQUIRED then
      (some (base o), o :: os)
    else
      let r := verify_required_options base with_base os
      (r.1, with_base o (clear_encountered (base o)) :: r.2)

/-- The two assignments `result->error = err; snprintf(result->error_value, ...)`. -/
def Env.fail (e : Env) (err : ParseError) (value : List Char) : Env :=
  { e with result := { e.result with error := err, error_value := value } }

/-- A call through a handler pointer. -/
def Env.call (e : Env) (c : Call) : Env := { e with calls := e.calls ++ [c] }

def World.fail (w : World) (err : ParseError) (value : List Char) : World :=
  { w with env := w.env.fail err value }

def World.call (w : World) (c : Call) : World := { w with env := w.env.call c }

/-- The statement `result->options_parsed++`. -/
def World.count_option (w : World) : World :=
  { w with env := { w.env with
    result := { w.env.result with options_parsed := w.env.result.options_parsed + 1 } } }

/-- The statement `parser->remainder[parser->remainder_count++] = argv[*i]`. -/
def World.push_remainder (w : World) (argv : List (List Char)) : World :=
  { w with parser := { w.parser with
    remainder := w.parser.remainder ++ [argv.getD w.env.i []] } }

/-- The block that ends a sub-option group in `parse_sub_options` (it occurs
three times there): `verify_required_options` on the sub-registry, and
`PE_REQUIRED_MISSING` with `"%s.%s"` when it finds a definition. -/
def sub_options_end (parent_name : List Char) (parser : OptionSubParser) (e : Env) :
    OptionSubParser × Env :=
  let r := verify_required_options SubOption.base SubOption.with_base parser.options
  let parser := { parser with options := r.2 }
  match r.1 with
  | some invalid =>
    (parser, e.fail PE_REQUIRED_MISSING
      (snprintf ERROR_BUFFER_SIZE (dotted parent_name invalid.name)))
  | none => (parser, e)

/-- The loop of `parse_sub_options`.  The first argument bounds the number of
iterations; every iteration that goes round again has done `(*i)++`, so
`argc - (*i + 1)` iterations are enough, and with none left the loop condition
`*i + 1 < argc` is false. -/
def parse_sub_options_loop (parent_name : List Char) (argv : List (List Char)) (argc : Nat) :
    Nat → OptionSubParser → Env → OptionSubParser × Env
  | 0, parser, e => sub_options_end parent_name parser e
  | fuel + 1, parser, e =>
    if e.i + 1 < argc then
      let option_string := argv.getD (e.i + 1) []
      let count := count_option_chars option_string
      if count = 0 then sub_options_end parent_name parser e
      else
        match scan_for_name option_string (parser.options.map SubOption.base) with
        | none => sub_options_end parent_name parser e
        | some option_index =>
          let e := { e with i := e.i + 1 }
          match parser.options[option_index]? with
          | none => (parser, e)
          | some option =>
            let r := option_encounter_is_valid option.base
            let parser :=
              { parser with options := parser.options.set option_index (option.with_base r.2) }
            let option := option.with_base r.2
            if !r.1 then
              (parser, e.fail PE_DUPLICATE
                (snprintf ERROR_BUFFER_SIZE (dotted parent_name option.base.name)))
            else if char_at option_string count = NUL then
              if check_flag option.base.flags OF_VALUE_REQUIRED then
                (parser, e.fail PE_VALUE_MISSING
                  (snprintf ERROR_BUFFER_SIZE (dotted parent_name option.base.name)))
              else
                parse_sub_options_loop parent_name argv argc fuel parser
                  (e.call ⟨parser.handler, option.base.name, option.base.alias_, none, parser.data⟩)
            else if char_at option_string count = '=' then
              if check_flag option.base.flags OF_VALUE_NOT_ALLOWED then
                (parser, e.fail PE_VALUE_GIVEN
                  (snprintf ERROR_BUFFER_SIZE (dotted parent_name option.base.name)))
              else if (option_string.drop (count + 1)).length = 0 then
                (parser, e.fail PE_VALUE_INVALID
                  (snprintf ERROR_BUFFER_SIZE (dotted parent_name option.base.name)))
              else
                parse_sub_options_loop parent_name argv argc fuel parser
                  (e.call ⟨parser.handler, option.base.name, option.base.alias_,
                    some (option_string.drop (count + 1)), parser.data⟩)
            else
              (parser, e.fail PE_INVALID_NAME_TOKEN
                (snprintf ERROR_BUFFER_SIZE (dotted parent_name option_string)))
    else sub_options_end parent_name parser e

/-- The function `parse_sub_options`: the sub-registry and the environment after the call. -/
def parse_sub_options (parser : OptionSubParser) (parent_name : List Char)
    (argv : List (List Char)) (argc : Nat) (e : Env) : OptionSubParser × Env :=
  parse_sub_options_loop parent_name argv argc (argc - (e.i + 1)) parser e

/-- The statement `if(option->sub_options != NULL) parse_sub_options(option->sub_options,
option->base.name, result, i, argv, argc);` for the option at `option_index`. -/
def enter_sub_options (argv : List (List Char)) (argc : Nat) (option_index : Nat)
    (option : OptionDef) (w : World) : World :=
  match option.sub_options with
  | none => w
  | some sub =>
    let r := parse_sub_options sub option.base.name argv argc w.env
    { parser := { w.parser with
        options := w.parser.options.set option_index { option with sub_options := some r.1 } },
      env := r.2 }

/-- The look-up at the start of `parse_name`: `scan_for_name`, and after a miss
on a name-segment of one character under `PF_ALWAYS_CHECK_FOR_ALIAS`,
`scan_for_alias` on that character. -/
def parse_name_lookup (flags : Nat) (bases : List OptionBase) (option_string : List Char)
    (start_index : Nat) : Option Nat :=
  let count := count_option_chars (option_string.drop start_index)
  let option_index := scan_for_name (option_string.drop start_index) bases
  if option_index = none ∧ count = 1 ∧ check_flag flags PF_ALWAYS_CHECK_FOR_ALIAS = true then
    scan_for_alias (char_at option_string start_index) bases
  else option_index

/-- The function `parse_name`. -/
def parse_name (argv : List (List Char)) (argc : Nat) (option_string : List Char)
    (start_index : Nat) (w : World) : World :=
  let count := count_option_chars (option_string.drop start_index)
  match parse_name_lookup w.parser.flags (w.parser.options.map OptionDef.base)
      option_string start_index with
  | none => w.fail PE_INVALID_NAME (snprintf ERROR_BUFFER_SIZE (option_string.drop start_index))
  | some option_index =>
    match w.parser.options[option_index]? with
    | none => w
    | some option =>
      let r := option_encounter_is_valid option.base
      let option := option.with_base r.2
      let w := { w with parser := { w.parser with
        options := w.parser.options.set option_index option } }
      if !r.1 then
        w.fail PE_DUPLICATE (snprintf ERROR_BUFFER_SIZE option.base.name)
      else if char_at option_string (start_index + count) = NUL then
        if check_flag option.base.flags OF_VALUE_REQUIRED then
          w.fail PE_VALUE_MISSING (snprintf ERROR_BUFFER_SIZE option.base.name)
        else
          enter_sub_options argv argc option_index option
            (w.call ⟨w.parser.handler, option.base.name, option.base.alias_, none, w.parser.data⟩)
      else if char_at option_string (start_index + count) = '=' then
        if check_flag option.base.flags OF_VALUE_NOT_ALLOWED then
          w.fail PE_VALUE_GIVEN (snprintf ERROR_BUFFER_SIZE option.base.name)
        else
          let start_index := start_index + (count + 1)
          if (option_string.drop start_index).length = 0 then
            w.fail PE_VALUE_INVALID (snprintf ERROR_BUFFER_SIZE option.base.name)
          else
            enter_sub_options argv argc option_index option
              (w.call ⟨w.parser.handler, option.base.name, option.base.alias_,
                some (option_string.drop start_index), w.parser.data⟩)
      else
        w.fail PE_INVALID_NAME_TOKEN
          (snprintf ERROR_BUFFER_SIZE (option_string.drop start_index))

/-- The `switch` after the loop of `parse_alias`. -/
def parse_alias_end (option_string : List Char) (start_index count : Nat) (w : World) : World :=
  if char_at option_string (start_index + count) = NUL then w
  else w.fail PE_INVALID_ALIAS_TOKEN (snprintf ERROR_BUFFER_SIZE option_string)

/-- The loop of `parse_alias`, on the locals `start_index` and `count`.  The
first argument bounds the number of iterations: `start_index + count` grows by
one with every iteration and an alphanumeric character is read there, so
`strlen(option_string) - (start_index + count)` iterations are enough, and with
none left the character read is the terminator. -/
def parse_alias_loop (argv : List (List Char)) (argc : Nat) (option_string : List Char) :
    Nat → Nat → Nat → World → World
  | 0, start_index, count, w => parse_alias_end option_string start_index count w
  | fuel + 1, start_index, count, w =>
    if isalnum (char_at option_string (start_index + count)) then
      match scan_for_alias (char_at option_string (start_index + count))
          (w.parser.options.map OptionDef.base) with
      | none => w.fail PE_INVALID_ALIAS [char_at option_string (start_index + count)]
      | some option_index =>
        match w.parser.options[option_index]? with
        | none => w
        | some option =>
          let r := option_encounter_is_valid option.base
          let option := option.with_base r.2
          let w := { w with parser := { w.parser with
            options := w.parser.options.set option_index option } }
          if !r.1 then
            w.fail PE_DUPLICATE (snprintf ERROR_BUFFER_SIZE option.base.name)
          else if check_flag option.base.flags OF_VALUE_REQUIRED then
            w.fail PE_VALUE_MISSING (snprintf ERROR_BUFFER_SIZE option.base.name)
          else if count = 0 ∧ check_flag w.parser.flags PF_SETTABLE_FLAGS = true ∧
              char_at option_string (start_index + 1) = '=' then
            if check_flag option.base.flags OF_VALUE_NOT_ALLOWED then
              w.fail PE_VALUE_GIVEN (snprintf ERROR_BUFFER_SIZE option.base.name)
            else
              let start_index := start_index + (count + 1)
              if (option_string.drop start_index).length = 0 then
                w.fail PE_VALUE_INVALID (snprintf ERROR_BUFFER_SIZE option.base.name)
              else
                parse_alias_loop argv argc option_string fuel start_index count
                  (enter_sub_options argv argc option_index option
                    (w.call ⟨w.parser.handler, option.base.name, option.base.alias_,
                      some (option_string.drop start_index), w.parser.data⟩))
          else
            let w := (w.call ⟨w.parser.handler, option.base.name, option.base.alias_, none,
              w.parser.data⟩).count_option
            parse_alias_loop argv argc option_string fuel start_index (count + 1)
              (enter_sub_options argv argc option_index option w)
    else parse_alias_end option_string start_index count w

/-- The function `parse_alias`. -/
def parse_alias (argv : List (List Char)) (argc : Nat) (option_string : List Char)
    (start_index : Nat) (w : World) : World :=
  parse_alias_loop argv argc option_string (option_string.length - start_index) start_index 0 w

/-- The function `parse_string`. -/
def parse_string (argv : List (List Char)) (argc : Nat) (option_string : List Char)
    (start_index : Nat) (w : World) : World :=
  if char_at option_string start_index = '-' then
    if char_at option_string (start_index + 1) = '-' then
      parse_name argv argc option_string (start_index + 2) w
    else if check_flag w.parser.flags PF_TREAT_DASH_AS_FULL_OPTION then
      parse_name argv argc option_string (start_index + 1) w
    else
      parse_alias argv argc option_string 1 w
  else if char_at option_string start_index = '/' then
    parse_name argv argc option_string (start_index + 1) w
  else if !check_flag w.parser.flags PF_ALLOW_REMAINDER then
    w.fail PE_REMAINDER (snprintf ERROR_BUFFER_SIZE option_string)
  else
    w.push_remainder argv

/-- The step `i++` of the loop of `oparser_parse`. -/
def next_token (w : World) : World := { w with env := { w.env with i := w.env.i + 1 } }

/-- The `for` loop of `oparser_parse`, entered at the test `i < argc`.  The
first argument bounds the number of iterations (`argc - i` are enough, as every
iteration ends with `i++`). -/
def parse_loop (argv : List (List Char)) (argc : Nat) : Nat → World → World
  | 0, w => w
  | fuel + 1, w =>
    if w.env.i < argc then
      let w := parse_string argv argc (argv.getD w.env.i []) 0 w
      if w.env.result.error ≠ PE_NONE then w
      else parse_loop argv argc fuel (next_token w)
    else w

/-- The last block of `oparser_parse`, after the loop. -/
def parse_end (w : World) : World :=
  let r := verify_required_options OptionDef.base OptionDef.with_base w.parser.options
  let w := { w with parser := { w.parser with options := r.2 } }
  match r.1 with
  | some invalid => w.fail PE_REQUIRED_MISSING (snprintf ERROR_BUFFER_SIZE invalid.name)
  | none => w

/-- The state in which the loop of `oparser_parse` is entered; `calls` are the
handler calls made before this parse. -/
def parse_start (parser : OptionParser) (calls : List Call) : World :=
  { parser := if parser.remainder.length > 0 then { parser with remainder := [] } else parser,
    env := { result := { error := PE_NONE, error_value := [], options_parsed := 0 },
             i := 1, calls := calls } }

/-- The function `oparser_parse`: the registry, the returned `ParseResult` and the handler
calls after the call. -/
def oparser_parse (parser : OptionParser) (argv : List (List Char)) (argc : Nat)
    (calls : List Call) : World :=
  let w := parse_loop argv argc (argc - 1) (parse_start parser calls)
  if w.env.result.error ≠ PE_NONE then w else parse_end w

/-- The function `oparser_remainder`: `none` for NULL (the count is then not written),
otherwise the collection and its count. -/
def oparser_remainder (parser : OptionParser) : Option (List (List Char) × Nat) :=
  if !check_flag parser.flags PF_ALLOW_REMAINDER then none
  else some (parser.remainder, parser.remainder.length)

/-! ## Construction (`oparser_init`, `oparser_add_option`, `osubparser_init`,
`osubparser_add_option`); allocation failure is not modelled -/

def verify_flags (flags : Nat) : Bool :=
  if check_flag flags (OF_VALUE_REQUIRED ||| OF_VALUE_NOT_ALLOWED) then false else true

def oparser_init (handler flags data : Nat) : OptionParser :=
  { options := [], flags := flags, remainder := [], data := data, handler := handler }

/-- The function `oparser_add_option`: the index of the new option (`none` for NULL) and the
registry after the call. -/
def oparser_add_option (parser : OptionParser) (option_name : List Char) (alias_ : Int)
    (flags : Nat) (doc_string : List Char) : Option Nat × OptionParser :=
  if !verify_flags flags then (none, parser)
  else
    (some parser.options.length,
      { parser with options := parser.options ++
          [{ base := { name := option_name, doc_string := doc_string,
                       name_length := option_name.length, alias_ := alias_, flags := flags },
             sub_options := none }] })

/-- The function `osubparser_init`: the option after the call, owning the new sub-registry. -/
def osubparser_init (option : OptionDef) (handler flags data : Nat) : OptionDef :=
  { option with
    sub_options := some { options := [], flags := flags, data := data, handler := handler } }

/-- The function `osubparser_add_option`: the index of the new sub-option (`none` for NULL)
and the sub-registry after the call. -/
def osubparser_add_option (parser : OptionSubParser) (option_name : List Char) (alias_ : Int)
    (flags : Nat) (doc_string : List Char) : Option Nat × OptionSubParser :=
  if !verify_flags flags then (none, parser)
  else
    (some parser.options.length,
      { parser with options := parser.options ++
          [{ base := { name := option_name, doc_string := doc_string,
                       name_length := option_name.length, alias_ := alias_, flags := flags } }] })

/-! ## The registries `simple_parser` and `advance_parser` of `Tests/test.c` (`parser_setup`)

The handlers `simple_handler`, `advance_handler` and `advance_subhandler` are
the identifiers 1, 2 and 3; the data pointer `simple_message` is 0. -/

def simple_registry : OptionParser :=
  let p := oparser_init 1 PF_ALWAYS_CHECK_FOR_ALIAS 0
  let p := (oparser_add_option p "name".toList (char_int 'n') OF_VALUE_REQUIRED
    "Sets the name".toList).2
  let p := (oparser_add_option p "time".toList (char_int 't') OF_VALUE_NOT_ALLOWED
    "Gets the time".toList).2
  (oparser_add_option p "any".toList (char_int 'a') OF_NONE "Gets or sets any value".toList).2

def advance_subregistry : OptionSubParser :=
  let s : OptionSubParser := { options := [], flags := PF_NONE, data := 0, handler := 3 }
  let s := (osubparser_add_option s "animal".toList (char_int 'a')
    (OF_REQUIRED ||| OF_VALUE_REQUIRED) "Sets the name of an animal".toList).2
  (osubparser_add_option s "tree".toList (char_int 't') OF_NONE "Sets the name of a tree".toList).2

def advance_registry : OptionParser :=
  let p := oparser_init 2 (PF_ALLOW_REMAINDER ||| PF_TREAT_DASH_AS_FULL_OPTION) 0
  let p := (oparser_add_option p "required".toList (char_int 'r') OF_REQUIRED
    "A required option".toList).2
  let p := (oparser_add_option p "duplicate".toList (char_int 'd') OF_DUPLICATES_ALLOWED
    "An option that allows duplicates".toList).2
  let p := (oparser_add_option p "sub".toList (char_int 's') OF_NONE
    "An option with suboptions".toList).2
  let attach := fun (o : OptionDef) =>
    { (osubparser_init o 3 PF_NONE 0) with sub_options := some advance_subregistry }
  { p with options := List.modify attach 2 p.options }

/-! ## Notions used to state the properties -/

/-- The states in which the loop of `oparser_parse parser argv argc` stands at
its test `i < argc`: the state at entry, and the state after `i++` whenever
`parse_string` has processed the token under the cursor without an error. -/
inductive Reaches (parser : OptionParser) (argv : List (List Char)) (argc : Nat)
    (calls : List Call) : World → Prop
  | start : Reaches parser argv argc calls (parse_start parser calls)
  | step (w : World) : Reaches parser argv argc calls w → w.env.i < argc →
      (parse_string argv argc (argv.getD w.env.i []) 0 w).env.result.error = PE_NONE →
      Reaches parser argv argc calls
        (next_token (parse_string argv argc (argv.getD w.env.i []) 0 w))

/-- The text `N` or `N=V` that follows the introducer of a long-form token. -/
def name_value (N : List Char) (V : Option (List Char)) : List Char :=
  match V with
  | some v => N ++ '=' :: v
  | none => N

/-- The encountered bit of a definition. -/
def encountered (o : OptionBase) : Bool := check_flag o.flags ___OF_ENCOUNTERED

/-- The definition with its encountered bit set (`flags |= ___OF_ENCOUNTERED`). -/
def OptionDef.mark (O : OptionDef) : OptionDef :=
  O.with_base { O.base with flags := O.base.flags ||| ___OF_ENCOUNTERED }

/-- The world in which the option at index `k`, read as `O`, has its encountered
bit set. -/
def World.mark (w : World) (k : Nat) (O : OptionDef) : World :=
  { w with parser := { w.parser with options := w.parser.options.set k O.mark } }

/-- The tail of `oparser_parse` after its loop: the early `return result` of a
failed iteration, or the last block. -/
def parse_finish (w : World) : World :=
  if w.env.result.error ≠ PE_NONE then w else parse_end w

/-- The value policy of `parse_name` and `parse_sub_options` for the definition
`o` and the value `V` of a token (`none`: the token has no `=`): with `=`, the
definition does not forbid a value and the value is not empty; without, the
definition does not require a value. -/
def value_accepted (o : OptionBase) : Option (List Char) → Prop
  | some v => check_flag o.flags OF_VALUE_NOT_ALLOWED = false ∧ v ≠ []
  | none => check_flag o.flags OF_VALUE_REQUIRED = false

instance (o : OptionBase) (V : Option (List Char)) : Decidable (value_accepted o V) := by
  cases V <;> unfold value_accepted <;> infer_instance

/-- The fields of the top-level registry that parsing only reads. -/
def OptionParser.fixed (p : OptionParser) : Nat × Nat × Nat := (p.flags, p.handler, p.data)

/-- An option name of 256 characters, one more than the error buffer holds. -/
def long_name : List Char := List.replicate 256 'a'

/-- A registry with the single option `long_name`, alias `n`, with the given flags. -/
def long_name_registry (flags : Nat) : OptionParser :=
  (oparser_add_option (oparser_init 1 PF_NONE 0) long_name (char_int 'n') flags []).2

/-- The trace `b` extends the trace `a`. -/
def Extends (a b : List Call) : Prop := ∃ l, b = a ++ l

/-- The definition that `parse_string` looks up first for a token: by
`parse_name` after `--`, after `/`, and after `-` under
`PF_TREAT_DASH_AS_FULL_OPTION`; otherwise by `parse_alias` for the first
character of the alias run. -/
def resolve_token (flags : Nat) (bases : List OptionBase) (option_string : List Char) :
    Option Nat :=
  if char_at option_string 0 = '-' then
    if char_at option_string 1 = '-' then parse_name_lookup flags bases option_string 2
    else if check_flag flags PF_TREAT_DASH_AS_FULL_OPTION then
      parse_name_lookup flags bases option_string 1
    else if isalnum (char_at option_string 1) then
      scan_for_alias (char_at option_string 1) bases
    else none
  else if char_at option_string 0 = '/' then parse_name_lookup flags bases option_string 1
  else none

/-- The introducers after which `parse_string` hands the text `rest` to
`parse_name`: `--`, `/`, and a single `-` under `PF_TREAT_DASH_AS_FULL_OPTION`
(when `rest` does not begin with another `-`). -/
def long_intro (flags : Nat) (intro rest : List Char) : Prop :=
  intro = ['-', '-'] ∨ intro = ['/'] ∨
    (intro = ['-'] ∧ check_flag flags PF_TREAT_DASH_AS_FULL_OPTION = true ∧ char_at rest 0 ≠ '-')

instance (flags : Nat) (intro rest : List Char) : Decidable (long_intro flags intro rest) := by
  unfold long_intro; infer_instance

/-- The definition is required and its encountered bit is clear. -/
def required_missing (o : OptionBase) : Bool :=
  check_flag o.flags OF_REQUIRED && !encountered o

/-- A token that `parse_string` treats as a non-option value: its first
character is neither `-` nor `/`. -/
def is_remainder_token (t : List Char) : Bool := char_at t 0 != '-' && char_at t 0 != '/'

/-- No definition of the list owns a sub-registry. -/
def no_sub_options (l : List OptionDef) : Prop := ∀ o ∈ l, o.sub_options = none

/-- The registry `advance_parser` of the tests without its option `sub`: allow-remainder
and dash-as-full-option, no sub-registry. -/
def plain_registry : OptionParser :=
  let p := oparser_init 2 (PF_ALLOW_REMAINDER ||| PF_TREAT_DASH_AS_FULL_OPTION) 0
  let p := (oparser_add_option p "required".toList (char_int 'r') OF_REQUIRED
    "A required option".toList).2
  (oparser_add_option p "duplicate".toList (char_int 'd') OF_DUPLICATES_ALLOWED
    "An option that allows duplicates".toList).2

/-- The sub-option with its encountered bit set. -/
def SubOption.mark (S : SubOption) : SubOption :=
  S.with_base { S.base with flags := S.base.flags ||| ___OF_ENCOUNTERED }

/-- The sub-registry in which the sub-option at index `j`, read as `S`, has its
encountered bit set. -/
def OptionSubParser.mark (sp : OptionSubParser) (j : Nat) (S : SubOption) : OptionSubParser :=
  { sp with options := sp.options.set j S.mark }

/-- The environment after `(*i)++` and a handler call. -/
def Env.consume (e : Env) (c : Call) : Env := { e with i := e.i + 1, calls := e.calls ++ [c] }

/-- The states of the loop of `parse_sub_options` (at its test `*i + 1 < argc`)
reached from `(sp0, e0)` by consuming accepted sub-option tokens: the next token
is `N` or `N=V` with a non-empty name-segment, `scan_for_name` finds the
sub-option `S`, `S` passes the duplicate check and the value policy, and the
loop goes round again after the handler call.  The list holds the indices of the
sub-options recognized so far, in order. -/
inductive SubReaches (argv : List (List Char)) (argc : Nat) (sp0 : OptionSubParser) (e0 : Env) :
    List Nat → OptionSubParser → Env → Prop
  | start : SubReaches argv argc sp0 e0 [] sp0 e0
  | step (js : List Nat) (sp : OptionSubParser) (e : Env) (N : List Char)
      (V : Option (List Char)) (j : Nat) (S : SubOption) :
      SubReaches argv argc sp0 e0 js sp e → e.i + 1 < argc →
      argv.getD (e.i + 1) [] = name_value N V → (∀ c ∈ N, c ≠ '=' ∧ c ≠ NUL) → N ≠ [] →
      scan_for_name (name_value N V) (sp.options.map SubOption.base) = some j →
      sp.options[j]? = some S →
      (encountered S.base = false ∨ check_flag S.base.flags OF_DUPLICATES_ALLOWED = true) →
      value_accepted S.base V →
      SubReaches argv argc sp0 e0 (js ++ [j]) (sp.mark j S)
        (e.consume ⟨sp.handler, S.base.name, S.base.alias_, V, sp.data⟩)

/-- The argument vector of `test_parser_sub_option`. -/
def sub_argv : List (List Char) :=
  ["prog".toList, "--required".toList, "--sub".toList, "animal=cow".toList, "tree".toList]

/-- The state of the loop of `oparser_parse advance_registry sub_argv 5` after
its first token, `--required`. -/
def sub_world : World :=
  next_token (parse_string sub_argv 5 (sub_argv.getD (parse_start advance_registry []).env.i [])
    0 (parse_start advance_registry []))

/-- A registry whose single option `long_name` owns a sub-registry with the
required sub-option `x`. -/
def long_sub_registry : OptionParser :=
  let p := long_name_registry OF_NONE
  let s : OptionSubParser := { options := [], flags := PF_NONE, data := 0, handler := 3 }
  let s := (osubparser_add_option s ['x'] (char_int 'x') OF_REQUIRED []).2
  let attach := fun (o : OptionDef) =>
    { (osubparser_init o 3 PF_NONE 0) with sub_options := some s }
  { p with options := List.modify attach 0 p.options }

/-- The registry `advance_parser` of the tests with the flags `PF_NONE`, so that
a single dash introduces an alias run. -/
def alias_sub_registry : OptionParser := { advance_registry with flags := PF_NONE }

/-- The errors by which the value policy rejects a recognized option. -/
def value_error (e : ParseError) : Prop :=
  e = PE_VALUE_MISSING ∨ e = PE_VALUE_GIVEN ∨ e = PE_VALUE_INVALID

/-- The option at index `k` has its encountered bit set. -/
def marked (w : World) (k : Nat) : Prop :=
  ∃ O, w.parser.options[k]? = some O ∧ encountered O.base = true

instance (w : World) (k : Nat) : Decidable (marked w k) := by
  unfold marked
  cases h : w.parser.options[k]? with
  | none => exact isFalse (by simp)
  | some O => exact decidable_of_iff (encountered O.base = true) (by simp)

/-- The states that the loop of `oparser_parse` reaches from the state `w1` by
processing further tokens without error. -/
inductive Later (argv : List (List Char)) (argc : Nat) (w1 : World) : World → Prop
  | refl : Later argv argc w1 w1
  | step (w : World) : Later argv argc w1 w → w.env.i < argc →
      (parse_string argv argc (argv.getD w.env.i []) 0 w).env.result.error = PE_NONE →
      Later argv argc w1 (next_token (parse_string argv argc (argv.getD w.env.i []) 0 w))

/-- The token under the cursor of `w` recognizes the option at index `k`:
processing it sets the option's encountered bit, which was clear. -/
def recognized_at (argv : List (List Char)) (argc : Nat) (w : World) (k : Nat) : Prop :=
  ¬ marked w k ∧ marked (parse_string argv argc (argv.getD w.env.i []) 0 w) k

/-- The option at index `k` was recognized in this pass of `oparser_parse` by a
token before the state `w`. -/
def recognized_before (parser : OptionParser) (argv : List (List Char)) (argc : Nat)
    (calls : List Call) (w : World) (k : Nat) : Prop :=
  ∃ w1, Reaches parser argv argc calls w1 ∧ w1.env.i < argc ∧
    (parse_string argv argc (argv.getD w1.env.i []) 0 w1).env.result.error = PE_NONE ∧
    recognized_at argv argc w1 k ∧
    Later argv argc (next_token (parse_string argv argc (argv.getD w1.env.i []) 0 w1)) w

/-- The registry `advance_parser` of the tests in which the option `sub` allows
duplicates. -/
def dup_sub_registry : OptionParser :=
  let mark_dup := fun (o : OptionDef) =>
    o.with_base { o.base with flags := OF_DUPLICATES_ALLOWED }
  { advance_registry with options := List.modify mark_dup 2 advance_registry.options }

/-- A registry with the single option `name`, alias `n`, and no option flags. -/
def name_only_registry : OptionParser :=
  (oparser_add_option (oparser_init 1 PF_NONE 0) "name".toList (char_int 'n') OF_NONE []).2

/-- The part of `parse_name` that follows the look-up, for the index
`option_index` that the look-up has produced: from
`Option* option = parser->options + option_index` to the end of the function. -/
def parse_name_found (argv : List (List Char)) (argc : Nat) (option_string : List Char)
    (start_index option_index : Nat) (w : World) : World :=
  let count := count_option_chars (option_string.drop start_index)
  match w.parser.options[option_index]? with
  | none => w
  | some option =>
    let r := option_encounter_is_valid option.base
    let option := option.with_base r.2
    let w := { w with parser := { w.parser with
      options := w.parser.options.set option_index option } }
    if !r.1 then
      w.fail PE_DUPLICATE (snprintf ERROR_BUFFER_SIZE option.base.name)
    else if char_at option_string (start_index + count) = NUL then
      if check_flag option.base.flags OF_VALUE_REQUIRED then
        w.fail PE_VALUE_MISSING (snprintf ERROR_BUFFER_SIZE option.base.name)
      else
        enter_sub_options argv argc option_index option
          (w.call ⟨w.parser.handler, option.base.name, option.base.alias_, none, w.parser.data⟩)
    else if char_at option_string (start_index + count) = '=' then
      if check_flag option.base.flags OF_VALUE_NOT_ALLOWED then
        w.fail PE_VALUE_GIVEN (snprintf ERROR_BUFFER_SIZE option.base.name)
      else
        let start_index := start_index + (count + 1)
        if (option_string.drop start_index).length = 0 then
          w.fail PE_VALUE_INVALID (snprintf ERROR_BUFFER_SIZE option.base.name)
        else
          enter_sub_options argv argc option_index option
            (w.call ⟨w.parser.handler, option.base.name, option.base.alias_,
              some (option_string.drop start_index), w.parser.data⟩)
    else
      w.fail PE_INVALID_NAME_TOKEN
        (snprintf ERROR_BUFFER_SIZE (option_string.drop start_index))

/-- The argument vectors `a` and `b` hold the same tokens from index `n` on. -/
def agree_from (n : Nat) (a b : List (List Char)) : Prop :=
  ∀ i, n ≤ i → a.getD i [] = b.getD i []

/-- A registry with the options `sub` and `x`, where `sub` owns a sub-registry
whose single sub-option is named `/x`. -/
def slash_sub_registry : OptionParser :=
  let p := oparser_init 2 PF_NONE 0
  let p := (oparser_add_option p "sub".toList (char_int 's') OF_NONE []).2
  let p := (oparser_add_option p "x".toList (char_int 'x') OF_NONE []).2
  let s : OptionSubParser := { options := [], flags := PF_NONE, data := 0, handler := 3 }
  let s := (osubparser_add_option s "/x".toList (char_int 'y') OF_NONE []).2
  let attach := fun (o : OptionDef) =>
    { (osubparser_init o 3 PF_NONE 0) with sub_options := some s }
  { p with options := List.modify attach 0 p.options }

/-- The states of the loop of `parse_alias` on the token `s`, entered with
`start_index = 1` in the state `w0`, at its test `isalnum(s[1 + count])`, that
are reached by recognizing the first `count` characters of the alias run: the
character under the loop index is alphanumeric, `scan_for_alias` finds the
option `O` for it, `O` passes the duplicate check and does not require a value,
the settable-flags branch is not taken, and the loop goes round again after the
handler call, `options_parsed++`, `O`'s sub-option group and `count++`.  The
list holds the indices of the options recognized so far, in order; its length
is `count`. -/
inductive AliasReaches (argv : List (List Char)) (argc : Nat) (s : List Char) (w0 : World) :
    List Nat → World → Prop
  | start : AliasReaches argv argc s w0 [] w0
  | step (ks : List Nat) (w : World) (k : Nat) (O : OptionDef) :
      AliasReaches argv argc s w0 ks w →
      isalnum (char_at s (1 + ks.length)) = true →
      scan_for_alias (char_at s (1 + ks.length)) (w.parser.options.map OptionDef.base) = some k →
      w.parser.options[k]? = some O →
      (encountered O.base = false ∨ check_flag O.base.flags OF_DUPLICATES_ALLOWED = true) →
      check_flag O.base.flags OF_VALUE_REQUIRED = false →
      ¬ (ks.length = 0 ∧ check_flag w.parser.flags PF_SETTABLE_FLAGS = true ∧
        char_at s 2 = '=') →
      AliasReaches argv argc s w0 (ks ++ [k])
        (enter_sub_options argv argc k O.mark
          ((w.mark k O).call
            ⟨w.parser.handler, O.base.name, O.base.alias_, none, w.parser.data⟩).count_option)

/-- The registry `plain_registry` with the flags `PF_NONE`, so that a single
dash introduces an alias run: `required` with the alias `r`, and `duplicate`
with the alias `d`, which allows duplicates. -/
def alias_run_registry : OptionParser := { plain_registry with flags := PF_NONE }

/-- A token of 256 characters: a dash, 254 times the alias `d`, and a plus sign. -/
def long_alias_token : List Char := '-' :: (List.replicate 254 'd' ++ ['+'])

/-- The registry `simple_parser` of the tests with the flags `PF_SETTABLE_FLAGS`
(dash-as-full-option unset). -/
def settable_registry : OptionParser := { simple_registry with flags := PF_SETTABLE_FLAGS }

/-- The function `oparser_get_error_string`: `none` for NULL, otherwise the text
that `sprintf` writes into the 512-byte buffer `error_string` (a template of at
most 44 characters and `error_value`, which is a 256-byte array and so holds at
most 255 characters).  The `default` case of the `switch` stands for values
outside the enumeration and has no counterpart here. -/
def oparser_get_error_string (result : ParseResult) : Option (List Char) :=
  match result.error with
  | PE_NONE => none
  | PE_INVALID_NAME => some ("Encountered invalid option: ".toList ++ result.error_value)
  | PE_INVALID_ALIAS =>
    some ("Encountered invalid option alias: ".toList ++ result.error_value)
  | PE_INVALID_NAME_TOKEN =>
    some ("Encountered invalid token in option: ".toList ++ result.error_value)
  | PE_INVALID_ALIAS_TOKEN =>
    some ("Encountered invalid token in alias list: ".toList ++ result.error_value)
  | PE_DUPLICATE =>
    some ("Encountered an invalid duplicate option: ".toList ++ result.error_value)
  | PE_REQUIRED_MISSING => some ("Missing required option: ".toList ++ result.error_value)
  | PE_VALUE_INVALID =>
    some ("Missing value after equals sign for option: ".toList ++ result.error_value)
  | PE_VALUE_MISSING => some ("Expected value for option: ".toList ++ result.error_value)
  | PE_VALUE_GIVEN => some ("Cannot set option: ".toList ++ result.error_value)
  | PE_REMAINDER => some ("Cannot accept non-option value: ".toList ++ result.error_value)

/-- The function `oparser_option_docstring`: `none` for NULL. -/
def oparser_option_docstring (parser : OptionParser) (option_name : List Char) :
    Option (List Char) :=
  match scan_for_name option_name (parser.options.map OptionDef.base) with
  | none => none
  | some option_index =>
    match parser.options[option_index]? with
    | none => none
    | some option => some option.base.doc_string

/-- The function `oparser_suboption_docstring`: `none` for NULL. -/
def oparser_suboption_docstring (parser : OptionParser) (option_name suboption_name : List Char) :
    Option (List Char) :=
  match scan_for_name option_name (parser.options.map OptionDef.base) with
  | none => none
  | some option_index =>
    match parser.options[option_index]? with
    | none => none
    | some option =>
      match option.sub_options with
      | none => none
      | some subparser =>
        match scan_for_name suboption_name (subparser.options.map SubOption.base) with
        | none => none
        | some option_index =>
          match subparser.options[option_index]? with
          | none => none
          | some suboption => some suboption.base.doc_string

/-- Every sub-option of the sub-registry has its encountered bit clear. -/
def sub_clear (sp : OptionSubParser) : Bool := sp.options.all (fun S => !encountered S.base)

/-- Every definition of the registry, top-level option or sub-option, has its
encountered bit clear. -/
def all_clear (parser : OptionParser) : Bool :=
  parser.options.all (fun O => !encountered O.base &&
    match O.sub_options with
    | none => true
    | some sp => sub_clear sp)

/-- The option with its encountered bit cleared (`flags &= ~___OF_ENCOUNTERED`). -/
def OptionDef.unmark (O : OptionDef) : OptionDef := O.with_base (clear_encountered O.base)

/-- The sub-option with its encountered bit cleared. -/
def SubOption.unmark (S : SubOption) : SubOption := S.with_base (clear_encountered S.base)

/-- The registries that a sequence of calls of `oparser_parse` leaves behind
when each of the calls has returned `PE_NONE`. -/
inductive AfterParses (p0 : OptionParser) : OptionParser → Prop
  | fresh : AfterParses p0 p0
  | call (p : OptionParser) (argv : List (List Char)) (argc : Nat) (calls : List Call) :
      AfterParses p0 p → (oparser_parse p argv argc calls).env.result.error = PE_NONE →
      AfterParses p0 (oparser_parse p argv argc calls).parser

/-- A registry with allow-remainder whose options `sub` (alias `s`) and `top`
(alias `t`) each own a sub-registry: `sub` with the sub-option `a`, `top` with
the sub-option `x`. -/
def two_sub_registry : OptionParser :=
  let p := oparser_init 2 PF_ALLOW_REMAINDER 0
  let p := (oparser_add_option p "sub".toList (char_int 's') OF_NONE []).2
  let p := (oparser_add_option p "top".toList (char_int 't') OF_NONE []).2
  let s1 : OptionSubParser := { options := [], flags := PF_NONE, data := 0, handler := 3 }
  let s1 := (osubparser_add_option s1 "a".toList (char_int 'a') OF_NONE []).2
  let s2 : OptionSubParser := { options := [], flags := PF_NONE, data := 0, handler := 4 }
  let s2 := (osubparser_add_option s2 "x".toList (char_int 'x') OF_NONE []).2
  let attach1 := fun (o : OptionDef) =>
    { (osubparser_init o 3 PF_NONE 0) with sub_options := some s1 }
  let attach2 := fun (o : OptionDef) =>
    { (osubparser_init o 4 PF_NONE 0) with sub_options := some s2 }
  let p := { p with options := List.modify attach1 0 p.options }
  { p with options := List.modify attach2 1 p.options }

/-- The result in `e` is an error of a sub-option group of the sub-registry `sp`
under the parent name `parent_name`: its context is `parent_name`, a dot and the
name of a sub-option `S` of `sp`, written with `snprintf`, where `S` is required
when the error is `PE_REQUIRED_MISSING`, and is the sub-option that the token
under the cursor resolves to when the error is `PE_DUPLICATE`,
`PE_VALUE_MISSING`, `PE_VALUE_GIVEN` or `PE_VALUE_INVALID`. -/
def sub_error_context (parent_name : List Char) (argv : List (List Char))
    (sp : OptionSubParser) (e : Env) : Prop :=
  ∃ j S, sp.options[j]? = some S ∧
    e.result.error_value = snprintf ERROR_BUFFER_SIZE (dotted parent_name S.base.name) ∧
    ((e.result.error = PE_REQUIRED_MISSING ∧ check_flag S.base.flags OF_REQUIRED = true) ∨
     ((e.result.error = PE_DUPLICATE ∨ value_error e.result.error) ∧
       scan_for_name (argv.getD e.i []) (sp.options.map SubOption.base) = some j))

/-- The handler call `handler(name, alias, NULL, data)` of the top-level registry
for its option at index `k` (none when there is no such option). -/
def option_call (parser : OptionParser) (k : Nat) : Option Call :=
  parser.options[k]?.map
    (fun O => ⟨parser.handler, O.base.name, O.base.alias_, none, parser.data⟩)

/-- What an accepted alias character never changes in an option: its name, its
alias and its sub-registry pointer. -/
def OptionDef.key (O : OptionDef) : List Char × Int × Option OptionSubParser :=
  (O.base.name, O.base.alias_, O.sub_options)

/-- The states in which the loop of `oparser_parse parser argv argc` stands at
its test `i < argc`, with the number of tokens dispatched so far: every
iteration counts one for the token under the cursor and one for each position
that the cursor has moved inside the iteration, which it does only by the
`(*i)++` with which `parse_sub_options` consumes a sub-option token. -/
inductive Dispatched (parser : OptionParser) (argv : List (List Char)) (argc : Nat)
    (calls : List Call) : Nat → World → Prop
  | start : Dispatched parser argv argc calls 0 (parse_start parser calls)
  | step (n : Nat) (w : World) : Dispatched parser argv argc calls n w → w.env.i < argc →
      (parse_string argv argc (argv.getD w.env.i []) 0 w).env.result.error = PE_NONE →
      Dispatched parser argv argc calls
        (n + 1 + ((parse_string argv argc (argv.getD w.env.i []) 0 w).env.i - w.env.i))
        (next_token (parse_string argv argc (argv.getD w.env.i []) 0 w))

/-! ## Flag arithmetic -/

theorem check_flag_one (f : Nat) : check_flag f 1 = f.testBit 0 := by
  have h := Nat.and_two_pow f 0
  simp only [pow_zero, mul_one] at h
  simp only [check_flag, h]
  cases f.testBit 0 <;> simp

theorem check_flag_two_pow (f k : Nat) : check_flag f (2 ^ k) = f.testBit k := by
  have h := Nat.and_two_pow f k
  simp only [check_flag, h]
  have hp : 0 < 2 ^ k := Nat.two_pow_pos k
  cases f.testBit k
  · simp; omega
  · simp

theorem check_flag_set_encountered (f : Nat) : check_flag (f ||| ___OF_ENCOUNTERED) ___OF_ENCOUNTERED = true := by
  have h := check_flag_two_pow (f ||| 1) 0
  simp only [pow_zero] at h
  simp [___OF_ENCOUNTERED, h]

theorem check_flag_set_other (f k : Nat) :
    check_flag (f ||| ___OF_ENCOUNTERED) (2 ^ (k + 1)) = check_flag f (2 ^ (k + 1)) := by
  rw [check_flag_two_pow, check_flag_two_pow]
  have h1 : (1 : Nat).testBit (k + 1) = false := by simp [Nat.testBit_succ]
  simp only [___OF_ENCOUNTERED, Nat.testBit_or, h1, Bool.or_false]

theorem check_flag_clear_encountered (f : Nat) :
    check_flag (f ^^^ (f &&& ___OF_ENCOUNTERED)) ___OF_ENCOUNTERED = false := by
  have h := check_flag_two_pow (f ^^^ (f &&& 1)) 0
  simp only [pow_zero] at h
  simp only [___OF_ENCOUNTERED, h, Nat.testBit_xor, Nat.testBit_and]
  cases f.testBit 0 <;> simp

theorem check_flag_clear_other (f k : Nat) :
    check_flag (f ^^^ (f &&& ___OF_ENCOUNTERED)) (2 ^ (k + 1)) = check_flag f (2 ^ (k + 1)) := by
  rw [check_flag_two_pow, check_flag_two_pow]
  have h1 : (1 : Nat).testBit (k + 1) = false := by simp [Nat.testBit_succ]
  simp only [___OF_ENCOUNTERED, Nat.testBit_xor, Nat.testBit_and, h1, Bool.and_false,
    Bool.xor_false]

theorem required_test (f : Nat) :
    ((f &&& (___OF_ENCOUNTERED ||| OF_REQUIRED)) == OF_REQUIRED) =
      (check_flag f OF_REQUIRED && !check_flag f ___OF_ENCOUNTERED) := by
  have h0 := check_flag_two_pow f 0
  have h1 := check_flag_two_pow f 1
  simp only [pow_zero, pow_one] at h0 h1
  simp only [___OF_ENCOUNTERED, OF_REQUIRED, h0, h1]
  have e : (1 ||| 2 : Nat) = 3 := by decide
  rw [e]
  have hb : ∀ i, (f &&& 3).testBit i = (f.testBit i && decide (i < 2)) := by
    intro i
    have := Nat.testBit_two_pow_sub_one 2 i
    simp only [Nat.testBit_and]
    norm_num at this
    rw [this]
  have h3 : f &&& 3 = (f.testBit 0).toNat + 2 * (f.testBit 1).toNat := by
    apply Nat.eq_of_testBit_eq
    intro i
    rw [hb]
    rcases i with _ | _ | i
    · cases f.testBit 0 <;> cases f.testBit 1 <;> simp
    · cases f.testBit 0 <;> cases f.testBit 1 <;> simp [Nat.testBit_succ]
    · cases f.testBit 0 <;> cases f.testBit 1 <;> simp [Nat.testBit_succ]
  rw [h3]
  cases f.testBit 0 <;> cases f.testBit 1 <;> simp

theorem check_flag_set_required (f : Nat) :
    check_flag (f ||| ___OF_ENCOUNTERED) OF_REQUIRED = check_flag f OF_REQUIRED := by
  simpa using check_flag_set_other f 0

theorem check_flag_set_value_required (f : Nat) :
    check_flag (f ||| ___OF_ENCOUNTERED) OF_VALUE_REQUIRED = check_flag f OF_VALUE_REQUIRED := by
  simpa using check_flag_set_other f 1

theorem check_flag_set_value_not_allowed (f : Nat) :
    check_flag (f ||| ___OF_ENCOUNTERED) OF_VALUE_NOT_ALLOWED =
      check_flag f OF_VALUE_NOT_ALLOWED := by
  simpa using check_flag_set_other f 2

theorem check_flag_set_duplicates_allowed (f : Nat) :
    check_flag (f ||| ___OF_ENCOUNTERED) OF_DUPLICATES_ALLOWED =
      check_flag f OF_DUPLICATES_ALLOWED := by
  simpa using check_flag_set_other f 3

/-! ## Strings -/

theorem char_at_nil (k : Nat) : char_at [] k = NUL := by simp [char_at]

theorem char_at_zero_cons (c : Char) (s : List Char) : char_at (c :: s) 0 = c := by
  simp [char_at]

theorem char_at_succ_cons (c : Char) (s : List Char) (k : Nat) :
    char_at (c :: s) (k + 1) = char_at s k := by
  simp [char_at]

theorem char_at_append_right (p s : List Char) (k : Nat) :
    char_at (p ++ s) (p.length + k) = char_at s k := by
  induction p with
  | nil => simp
  | cons c p ih =>
    have : (c :: p).length + k = (p.length + k) + 1 := by simp; omega
    rw [List.cons_append, this, char_at_succ_cons, ih]

theorem char_at_length (s : List Char) : char_at s s.length = NUL := by
  have := char_at_append_right s [] 0
  simpa [char_at_nil] using this

theorem count_option_chars_all (N : List Char) (h : ∀ c ∈ N, is_option_char c = true) :
    count_option_chars N = N.length := by
  induction N with
  | nil => rfl
  | cons c N ih =>
    have hc := h c (List.mem_cons_self c N)
    have := ih (fun d hd => h d (List.mem_cons_of_mem c hd))
    simp [count_option_chars, hc, this]

theorem count_option_chars_stop (N v : List Char) (h : ∀ c ∈ N, is_option_char c = true) :
    count_option_chars (N ++ '=' :: v) = N.length := by
  induction N with
  | nil => simp [count_option_chars, is_option_char]
  | cons c N ih =>
    have hc := h c (List.mem_cons_self c N)
    have := ih (fun d hd => h d (List.mem_cons_of_mem c hd))
    simp [count_option_chars, hc, this]

theorem count_name_value (N : List Char) (V : Option (List Char))
    (h : ∀ c ∈ N, is_option_char c = true) : count_option_chars (name_value N V) = N.length := by
  cases V with
  | none => exact count_option_chars_all N h
  | some v => exact count_option_chars_stop N v h

theorem parse_name_lookup_shift (flags : Nat) (bases : List OptionBase) (p s : List Char) :
    parse_name_lookup flags bases (p ++ s) p.length = parse_name_lookup flags bases s 0 := by
  have h := char_at_append_right p s 0
  simp only [Nat.add_zero] at h
  simp [parse_name_lookup, h]

theorem parse_name_shift (argv : List (List Char)) (argc : Nat) (p s : List Char) (w : World) :
    parse_name argv argc (p ++ s) p.length w = parse_name argv argc s 0 w := by
  have h : ∀ k, char_at (p ++ s) (p.length + k) = char_at s k := char_at_append_right p s
  have hd : ∀ k, List.drop (p.length + k) (p ++ s) = List.drop k s := by
    intro k; simp
  simp only [parse_name, parse_name_lookup_shift, h, hd, List.drop_left, List.drop_zero,
    Nat.zero_add]

/-- The definition after a successful `option_encounter_is_valid`. -/
theorem option_encounter_ok (o : OptionBase)
    (h : encountered o = false ∨ check_flag o.flags OF_DUPLICATES_ALLOWED = true) :
    option_encounter_is_valid o = (true, { o with flags := o.flags ||| ___OF_ENCOUNTERED }) := by
  unfold option_encounter_is_valid
  rcases h with h | h
  · simp [encountered] at h; simp [h]
  · simp [h]

theorem option_encounter_dup (o : OptionBase)
    (h1 : encountered o = true) (h2 : check_flag o.flags OF_DUPLICATES_ALLOWED = false) :
    option_encounter_is_valid o = (false, o) := by
  unfold option_encounter_is_valid
  simp [encountered] at h1; simp [h1, h2]

theorem parse_name_accept (argv : List (List Char)) (argc : Nat) (N : List Char)
    (V : Option (List Char)) (w : World) (k : Nat) (O : OptionDef)
    (hN : ∀ c ∈ N, is_option_char c = true)
    (hlook : parse_name_lookup w.parser.flags (w.parser.options.map OptionDef.base)
      (name_value N V) 0 = some k)
    (hO : w.parser.options[k]? = some O)
    (hdup : encountered O.base = false ∨ check_flag O.base.flags OF_DUPLICATES_ALLOWED = true)
    (hval : value_accepted O.base V) :
    parse_name argv argc (name_value N V) 0 w =
      enter_sub_options argv argc k O.mark
        ((w.mark k O).call ⟨w.parser.handler, O.base.name, O.base.alias_, V, w.parser.data⟩) := by
  have hc := count_name_value N V hN
  unfold parse_name World.mark OptionDef.mark
  simp only [hlook, hO, List.drop_zero, hc, option_encounter_ok O.base hdup, Nat.zero_add]
  cases V with
  | none =>
    simp only [name_value, value_accepted] at *
    simp [char_at_length, OptionDef.with_base, check_flag_set_value_required, hval]
  | some v =>
    simp only [name_value, value_accepted] at *
    have h1 : char_at (N ++ '=' :: v) N.length = '=' := by
      have := char_at_append_right N ('=' :: v) 0
      simpa [char_at_zero_cons] using this
    have h2 : ('=' : Char) ≠ NUL := by decide
    have h3 : List.drop (N.length + 1) (N ++ '=' :: v) = v := by simp
    simp [h1, h2, h3, OptionDef.with_base, check_flag_set_value_not_allowed, hval]

/-! ## The cursor only moves forward -/

theorem sub_options_end_i (parent_name : List Char) (parser : OptionSubParser) (e : Env) :
    (sub_options_end parent_name parser e).2.i = e.i := by
  unfold sub_options_end
  simp only
  split <;> simp [Env.fail]

theorem parse_sub_options_loop_i (parent_name : List Char) (argv : List (List Char))
    (argc fuel : Nat) (parser : OptionSubParser) (e : Env) :
    e.i ≤ (parse_sub_options_loop parent_name argv argc fuel parser e).2.i := by
  induction fuel generalizing parser e with
  | zero => simp [parse_sub_options_loop, sub_options_end_i]
  | succ fuel ih =>
    unfold parse_sub_options_loop
    simp only
    repeat' split
    all_goals first
      | (simp [sub_options_end_i]; done)
      | (simp [Env.fail]; done)
      | (refine le_trans ?_ (ih _ _); simp [Env.call])

theorem enter_sub_options_i (argv : List (List Char)) (argc k : Nat) (O : OptionDef)
    (w : World) : w.env.i ≤ (enter_sub_options argv argc k O w).env.i := by
  unfold enter_sub_options
  split
  · exact le_rfl
  · exact parse_sub_options_loop_i _ _ _ _ _ _

theorem parse_name_i (argv : List (List Char)) (argc : Nat) (s : List Char) (start : Nat)
    (w : World) : w.env.i ≤ (parse_name argv argc s start w).env.i := by
  unfold parse_name
  simp only
  repeat' split
  all_goals first
    | (simp [World.fail, Env.fail]; done)
    | (refine le_trans ?_ (enter_sub_options_i _ _ _ _ _); simp [World.call, Env.call])

theorem parse_alias_end_i (s : List Char) (start count : Nat) (w : World) :
    (parse_alias_end s start count w).env.i = w.env.i := by
  unfold parse_alias_end
  split <;> simp [World.fail, Env.fail]

theorem parse_alias_loop_i (argv : List (List Char)) (argc : Nat) (s : List Char)
    (fuel start count : Nat) (w : World) :
    w.env.i ≤ (parse_alias_loop argv argc s fuel start count w).env.i := by
  induction fuel generalizing start count w with
  | zero => simp [parse_alias_loop, parse_alias_end_i]
  | succ fuel ih =>
    unfold parse_alias_loop
    simp only
    repeat' split
    all_goals first
      | (simp [parse_alias_end_i]; done)
      | (simp [World.fail, Env.fail]; done)
      | (refine le_trans ?_ (ih _ _ _); refine le_trans ?_ (enter_sub_options_i _ _ _ _ _)
         simp [World.call, Env.call, World.count_option])

theorem parse_string_i (argv : List (List Char)) (argc : Nat) (s : List Char) (start : Nat)
    (w : World) : w.env.i ≤ (parse_string argv argc s start w).env.i := by
  unfold parse_string
  repeat' split
  all_goals first
    | exact parse_name_i _ _ _ _ _
    | exact parse_alias_loop_i _ _ _ _ _ _ _
    | (simp [World.fail, Env.fail, World.push_remainder]; done)

theorem parse_loop_fuel (argv : List (List Char)) (argc fuel fuel' : Nat) (w : World)
    (h : argc - w.env.i ≤ fuel) (h' : fuel ≤ fuel') :
    parse_loop argv argc fuel w = parse_loop argv argc fuel' w := by
  induction fuel generalizing fuel' w with
  | zero =>
    have hi : ¬ w.env.i < argc := by omega
    cases fuel' with
    | zero => rfl
    | succ f => simp [parse_loop, hi]
  | succ fuel ih =>
    obtain ⟨f, rfl⟩ : ∃ f, fuel' = f + 1 := ⟨fuel' - 1, by omega⟩
    unfold parse_loop
    split
    · simp only
      split
      · rfl
      · apply ih
        · have := parse_string_i argv argc (argv.getD w.env.i []) 0 w
          simp only [next_token]
          omega
        · omega
    · rfl

theorem reaches_error (parser : OptionParser) (argv : List (List Char)) (argc : Nat)
    (calls : List Call) (w : World) (h : Reaches parser argv argc calls w) :
    w.env.result.error = PE_NONE := by
  induction h with
  | start => rfl
  | step w _ _ he _ => simpa [next_token] using he

theorem reaches_loop (parser : OptionParser) (argv : List (List Char)) (argc : Nat)
    (calls : List Call) (w : World) (h : Reaches parser argv argc calls w) :
    oparser_parse parser argv argc calls = parse_finish (parse_loop argv argc (argc - w.env.i) w) := by
  induction h with
  | start => rfl
  | step w _ hi he ih =>
    rw [ih]
    obtain ⟨f, hf⟩ : ∃ f, argc - w.env.i = f + 1 := ⟨argc - w.env.i - 1, by omega⟩
    rw [hf]
    conv_lhs => unfold parse_loop
    simp only [hi, if_true, he, ne_eq, not_true_eq_false, if_false]
    congr 1
    symm
    apply parse_loop_fuel
    · exact le_rfl
    · have := parse_string_i argv argc (argv.getD w.env.i []) 0 w
      simp only [next_token]; omega

/-! ## What a parse never changes: the registry flags, handler and data -/

theorem enter_sub_options_fixed (argv : List (List Char)) (argc k : Nat) (O : OptionDef)
    (w : World) : (enter_sub_options argv argc k O w).parser.fixed = w.parser.fixed := by
  unfold enter_sub_options
  split <;> rfl

theorem parse_name_fixed (argv : List (List Char)) (argc : Nat) (s : List Char) (start : Nat)
    (w : World) : (parse_name argv argc s start w).parser.fixed = w.parser.fixed := by
  unfold parse_name
  simp only
  repeat' split
  all_goals first
    | rfl
    | (rw [enter_sub_options_fixed]; rfl)

theorem parse_alias_end_fixed (s : List Char) (start count : Nat) (w : World) :
    (parse_alias_end s start count w).parser.fixed = w.parser.fixed := by
  unfold parse_alias_end
  split <;> rfl

theorem parse_alias_loop_fixed (argv : List (List Char)) (argc : Nat) (s : List Char)
    (fuel start count : Nat) (w : World) :
    (parse_alias_loop argv argc s fuel start count w).parser.fixed = w.parser.fixed := by
  induction fuel generalizing start count w with
  | zero => simp [parse_alias_loop, parse_alias_end_fixed]
  | succ fuel ih =>
    unfold parse_alias_loop
    simp only
    repeat' split
    all_goals first
      | rfl
      | exact parse_alias_end_fixed _ _ _ _
      | (rw [ih, enter_sub_options_fixed]; rfl)

theorem parse_string_fixed (argv : List (List Char)) (argc : Nat) (s : List Char) (start : Nat)
    (w : World) : (parse_string argv argc s start w).parser.fixed = w.parser.fixed := by
  unfold parse_string
  repeat' split
  all_goals first
    | exact parse_name_fixed _ _ _ _ _
    | exact parse_alias_loop_fixed _ _ _ _ _ _ _
    | rfl

theorem reaches_fixed (parser : OptionParser) (argv : List (List Char)) (argc : Nat)
    (calls : List Call) (w : World) (h : Reaches parser argv argc calls w) :
    w.parser.fixed = parser.fixed := by
  induction h with
  | start => unfold parse_start; split <;> rfl
  | step w _ _ _ ih => rw [← ih, ← parse_string_fixed argv argc (argv.getD w.env.i []) 0 w]; rfl

theorem parse_string_long (argv : List (List Char)) (argc : Nat) (intro s : List Char)
    (w : World) (h : intro = ['-', '-'] ∨ intro = ['/']) :
    parse_string argv argc (intro ++ s) 0 w = parse_name argv argc s 0 w := by
  rcases h with rfl | rfl
  · have := parse_name_shift argv argc ['-', '-'] s w
    simp only [List.length_cons, List.length_nil, Nat.zero_add, Nat.reduceAdd] at this
    simp only [List.cons_append, List.nil_append] at this
    simp [parse_string, char_at, this]
  · have := parse_name_shift argv argc ['/'] s w
    simp only [List.length_cons, List.length_nil, Nat.zero_add, Nat.reduceAdd] at this
    simp only [List.cons_append, List.nil_append] at this
    simp [parse_string, char_at, this]

theorem reaches_fail (parser : OptionParser) (argv : List (List Char)) (argc : Nat)
    (calls : List Call) (w : World) (hr : Reaches parser argv argc calls w)
    (hi : w.env.i < argc)
    (he : (parse_string argv argc (argv.getD w.env.i []) 0 w).env.result.error ≠ PE_NONE) :
    oparser_parse parser argv argc calls = parse_string argv argc (argv.getD w.env.i []) 0 w := by
  rw [reaches_loop parser argv argc calls w hr]
  obtain ⟨f, hf⟩ : ∃ f, argc - w.env.i = f + 1 := ⟨argc - w.env.i - 1, by omega⟩
  rw [hf]
  unfold parse_loop
  simp only [hi, if_true, he, ne_eq, not_false_eq_true]
  rw [parse_finish, if_pos he]

theorem snprintf_short (s : List Char) (h : s.length < ERROR_BUFFER_SIZE) :
    snprintf ERROR_BUFFER_SIZE s = s := by
  unfold snprintf
  apply List.take_of_length_le
  omega

theorem parse_name_value_missing (argv : List (List Char)) (argc : Nat) (N : List Char)
    (w : World) (k : Nat) (O : OptionDef)
    (hN : ∀ c ∈ N, is_option_char c = true)
    (hlook : parse_name_lookup w.parser.flags (w.parser.options.map OptionDef.base) N 0 = some k)
    (hO : w.parser.options[k]? = some O)
    (hdup : encountered O.base = false ∨ check_flag O.base.flags OF_DUPLICATES_ALLOWED = true)
    (hreq : check_flag O.base.flags OF_VALUE_REQUIRED = true) :
    parse_name argv argc N 0 w =
      (w.mark k O).fail PE_VALUE_MISSING (snprintf ERROR_BUFFER_SIZE O.base.name) := by
  have hc := count_option_chars_all N hN
  unfold parse_name World.mark OptionDef.mark
  simp only [hlook, hO, List.drop_zero, hc, option_encounter_ok O.base hdup, Nat.zero_add]
  simp [char_at_length, OptionDef.with_base, check_flag_set_value_required, hreq]

theorem parse_name_value_given (argv : List (List Char)) (argc : Nat) (N v : List Char)
    (w : World) (k : Nat) (O : OptionDef)
    (hN : ∀ c ∈ N, is_option_char c = true)
    (hlook : parse_name_lookup w.parser.flags (w.parser.options.map OptionDef.base)
      (N ++ '=' :: v) 0 = some k)
    (hO : w.parser.options[k]? = some O)
    (hdup : encountered O.base = false ∨ check_flag O.base.flags OF_DUPLICATES_ALLOWED = true)
    (hforbid : check_flag O.base.flags OF_VALUE_NOT_ALLOWED = true) :
    parse_name argv argc (N ++ '=' :: v) 0 w =
      (w.mark k O).fail PE_VALUE_GIVEN (snprintf ERROR_BUFFER_SIZE O.base.name) := by
  have hc := count_option_chars_stop N v hN
  unfold parse_name World.mark OptionDef.mark
  simp only [hlook, hO, List.drop_zero, hc, option_encounter_ok O.base hdup, Nat.zero_add]
  have h1 : char_at (N ++ '=' :: v) N.length = '=' := by
    have := char_at_append_right N ('=' :: v) 0
    simpa [char_at_zero_cons] using this
  have h2 : ('=' : Char) ≠ NUL := by decide
  simp [h1, h2, OptionDef.with_base, check_flag_set_value_not_allowed, hforbid]

theorem parse_name_value_invalid (argv : List (List Char)) (argc : Nat) (N : List Char)
    (w : World) (k : Nat) (O : OptionDef)
    (hN : ∀ c ∈ N, is_option_char c = true)
    (hlook : parse_name_lookup w.parser.flags (w.parser.options.map OptionDef.base)
      (N ++ ['=']) 0 = some k)
    (hO : w.parser.options[k]? = some O)
    (hdup : encountered O.base = false ∨ check_flag O.base.flags OF_DUPLICATES_ALLOWED = true)
    (hforbid : check_flag O.base.flags OF_VALUE_NOT_ALLOWED = false) :
    parse_name argv argc (N ++ ['=']) 0 w =
      (w.mark k O).fail PE_VALUE_INVALID (snprintf ERROR_BUFFER_SIZE O.base.name) := by
  have hc := count_option_chars_stop N [] hN
  unfold parse_name World.mark OptionDef.mark
  simp only [hlook, hO, List.drop_zero, hc, option_encounter_ok O.base hdup, Nat.zero_add]
  have h1 : char_at (N ++ ['=']) N.length = '=' := by
    have := char_at_append_right N ['='] 0
    simpa [char_at_zero_cons] using this
  have h2 : ('=' : Char) ≠ NUL := by decide
  simp [h1, h2, OptionDef.with_base, check_flag_set_value_not_allowed, hforbid]

theorem is_option_char_of (N : List Char) (hN : ∀ c ∈ N, c ≠ '=' ∧ c ≠ NUL) :
    ∀ c ∈ N, is_option_char c = true := by
  intro c hc
  simp [is_option_char, hN c hc]

/-! ## Handler calls are only ever appended -/

theorem Extends.refl (a : List Call) : Extends a a := ⟨[], by simp⟩

theorem Extends.trans {a b c : List Call} (h1 : Extends a b) (h2 : Extends b c) :
    Extends a c := by
  obtain ⟨l1, rfl⟩ := h1
  obtain ⟨l2, rfl⟩ := h2
  exact ⟨l1 ++ l2, by simp⟩

theorem Extends.call (a : List Call) (c : Call) : Extends a (a ++ [c]) := ⟨[c], rfl⟩

theorem sub_options_end_calls (parent_name : List Char) (parser : OptionSubParser) (e : Env) :
    (sub_options_end parent_name parser e).2.calls = e.calls := by
  unfold sub_options_end
  simp only
  split <;> simp [Env.fail]

theorem parse_sub_options_loop_calls (parent_name : List Char) (argv : List (List Char))
    (argc fuel : Nat) (parser : OptionSubParser) (e : Env) :
    Extends e.calls (parse_sub_options_loop parent_name argv argc fuel parser e).2.calls := by
  induction fuel generalizing parser e with
  | zero => simp [parse_sub_options_loop, sub_options_end_calls, Extends.refl]
  | succ fuel ih =>
    unfold parse_sub_options_loop
    simp only
    repeat' split
    all_goals first
      | (simp [sub_options_end_calls, Extends.refl]; done)
      | (simp [Env.fail, Extends.refl]; done)
      | exact Extends.trans (Extends.call _ _) (ih _ _)

theorem enter_sub_options_calls (argv : List (List Char)) (argc k : Nat) (O : OptionDef)
    (w : World) : Extends w.env.calls (enter_sub_options argv argc k O w).env.calls := by
  unfold enter_sub_options
  split
  · exact Extends.refl _
  · exact parse_sub_options_loop_calls _ _ _ _ _ _

theorem parse_alias_end_calls (s : List Char) (start count : Nat) (w : World) :
    (parse_alias_end s start count w).env.calls = w.env.calls := by
  unfold parse_alias_end
  split <;> simp [World.fail, Env.fail]

theorem parse_alias_loop_calls (argv : List (List Char)) (argc : Nat) (s : List Char)
    (fuel start count : Nat) (w : World) :
    Extends w.env.calls (parse_alias_loop argv argc s fuel start count w).env.calls := by
  induction fuel generalizing start count w with
  | zero => simp [parse_alias_loop, parse_alias_end_calls, Extends.refl]
  | succ fuel ih =>
    unfold parse_alias_loop
    simp only
    repeat' split
    all_goals first
      | (simp [parse_alias_end_calls, Extends.refl]; done)
      | (simp [World.fail, Env.fail, Extends.refl]; done)
      | exact Extends.trans (Extends.trans (Extends.call _ _) (enter_sub_options_calls _ _ _ _ _))
          (ih _ _ _)

theorem parse_name_calls (argv : List (List Char)) (argc : Nat) (s : List Char) (start : Nat)
    (w : World) : Extends w.env.calls (parse_name argv argc s start w).env.calls := by
  unfold parse_name
  simp only
  repeat' split
  all_goals first
    | (simp [World.fail, Env.fail, Extends.refl]; done)
    | exact Extends.trans (Extends.call _ _) (enter_sub_options_calls _ _ _ _ _)

theorem parse_string_calls (argv : List (List Char)) (argc : Nat) (s : List Char) (start : Nat)
    (w : World) : Extends w.env.calls (parse_string argv argc s start w).env.calls := by
  unfold parse_string
  repeat' split
  all_goals first
    | exact parse_name_calls _ _ _ _ _
    | exact parse_alias_loop_calls _ _ _ _ _ _ _
    | (simp [World.fail, Env.fail, Extends.refl, World.push_remainder]; done)

theorem set_same {α : Type} (l : List α) (k : Nat) (x : α) (h : l[k]? = some x) :
    l.set k x = l := by
  induction l generalizing k with
  | nil => simp
  | cons a l ih =>
    cases k with
    | zero => simp at h; simp [h]
    | succ k => simp at h; simp [ih k h]

theorem extends_ne (a b : List Call) (c : Call) (h : Extends (a ++ [c]) b) : b ≠ a := by
  obtain ⟨l, rfl⟩ := h
  intro h
  have := congrArg List.length h
  simp at this

theorem char_at_drop (s : List Char) (start k : Nat) :
    char_at s (start + k) = char_at (s.drop start) k := by
  simp [char_at, List.getD_eq_getElem?_getD, List.getElem?_drop]

theorem char_after_segment_zero (s : List Char) :
    char_at s (count_option_chars s) = NUL ∨ char_at s (count_option_chars s) = '=' := by
  induction s with
  | nil => left; rfl
  | cons c cs ih =>
    unfold count_option_chars
    split
    · rw [char_at_succ_cons]; exact ih
    · rename_i h
      rw [char_at_zero_cons]
      simp only [is_option_char, Bool.and_eq_true, bne_iff_ne, ne_eq, not_and_or, not_not] at h
      rcases h with h | h
      · right; exact h
      · left; exact h

/-- The character on which the `switch` of `parse_name` branches is the
terminator or `=`: the `default` case is never taken. -/
theorem char_after_segment (s : List Char) (start : Nat) :
    char_at s (start + count_option_chars (s.drop start)) = NUL ∨
    char_at s (start + count_option_chars (s.drop start)) = '=' := by
  rw [char_at_drop]
  exact char_after_segment_zero _

theorem parse_name_duplicate (argv : List (List Char)) (argc : Nat) (s : List Char)
    (start : Nat) (w : World) (k : Nat) (O : OptionDef)
    (hlook : parse_name_lookup w.parser.flags (w.parser.options.map OptionDef.base) s start =
      some k)
    (hO : w.parser.options[k]? = some O)
    (henc : encountered O.base = true)
    (hdup : check_flag O.base.flags OF_DUPLICATES_ALLOWED = false) :
    parse_name argv argc s start w =
      w.fail PE_DUPLICATE (snprintf ERROR_BUFFER_SIZE O.base.name) := by
  have : O.with_base O.base = O := rfl
  unfold parse_name
  simp [hlook, hO, option_encounter_dup O.base henc hdup, this, set_same _ _ _ hO]

theorem parse_name_not_duplicate (argv : List (List Char)) (argc : Nat) (s : List Char)
    (start : Nat) (w : World) (k : Nat) (O : OptionDef)
    (hlook : parse_name_lookup w.parser.flags (w.parser.options.map OptionDef.base) s start =
      some k)
    (hO : w.parser.options[k]? = some O)
    (hdup : check_flag O.base.flags OF_DUPLICATES_ALLOWED = true) :
    (value_error (parse_name argv argc s start w).env.result.error ∧
      (parse_name argv argc s start w).env.calls = w.env.calls) ∨
    ∃ v, Extends (w.env.calls ++ [⟨w.parser.handler, O.base.name, O.base.alias_, v,
      w.parser.data⟩]) (parse_name argv argc s start w).env.calls := by
  have hseg := char_after_segment s start
  unfold parse_name
  simp only [hlook, hO, option_encounter_ok O.base (Or.inr hdup), Bool.not_true,
    Bool.false_eq_true, if_false]
  repeat' split
  all_goals first
    | (left; simp [World.fail, Env.fail, value_error]; done)
    | (right; exact ⟨_, enter_sub_options_calls _ _ _ _ _⟩)
    | (exfalso; rcases hseg with h | h <;> contradiction)

theorem parse_alias_duplicate (argv : List (List Char)) (argc : Nat) (s : List Char)
    (w : World) (k : Nat) (O : OptionDef)
    (hal : isalnum (char_at s 1) = true)
    (hlook : scan_for_alias (char_at s 1) (w.parser.options.map OptionDef.base) = some k)
    (hO : w.parser.options[k]? = some O)
    (henc : encountered O.base = true)
    (hdup : check_flag O.base.flags OF_DUPLICATES_ALLOWED = false) :
    parse_alias argv argc s 1 w =
      w.fail PE_DUPLICATE (snprintf ERROR_BUFFER_SIZE O.base.name) := by
  have hlen : 1 < s.length := by
    by_contra hc
    have : char_at s 1 = NUL := by
      simp only [char_at]
      rw [List.getD_eq_default]
      omega
    rw [this] at hal
    exact absurd hal (by decide)
  obtain ⟨f, hf⟩ : ∃ f, s.length - 1 = f + 1 := ⟨s.length - 2, by omega⟩
  unfold parse_alias
  rw [hf]
  unfold parse_alias_loop
  have : O.with_base O.base = O := rfl
  simp [hal, hlook, hO, option_encounter_dup O.base henc hdup, this, set_same _ _ _ hO]

theorem parse_alias_not_duplicate (argv : List (List Char)) (argc : Nat) (s : List Char)
    (w : World) (k : Nat) (O : OptionDef)
    (hal : isalnum (char_at s 1) = true)
    (hlook : scan_for_alias (char_at s 1) (w.parser.options.map OptionDef.base) = some k)
    (hO : w.parser.options[k]? = some O)
    (hdup : check_flag O.base.flags OF_DUPLICATES_ALLOWED = true) :
    (value_error (parse_alias argv argc s 1 w).env.result.error ∧
      (parse_alias argv argc s 1 w).env.calls = w.env.calls) ∨
    ∃ v, Extends (w.env.calls ++ [⟨w.parser.handler, O.base.name, O.base.alias_, v,
      w.parser.data⟩]) (parse_alias argv argc s 1 w).env.calls := by
  have hlen : 1 < s.length := by
    by_contra hc
    have : char_at s 1 = NUL := by
      simp only [char_at]
      rw [List.getD_eq_default]
      omega
    rw [this] at hal
    exact absurd hal (by decide)
  obtain ⟨f, hf⟩ : ∃ f, s.length - 1 = f + 1 := ⟨s.length - 2, by omega⟩
  unfold parse_alias
  rw [hf]
  unfold parse_alias_loop
  simp only [Nat.add_zero, hal, if_true, hlook, hO, option_encounter_ok O.base (Or.inr hdup),
    Bool.not_true, Bool.false_eq_true, if_false]
  repeat' split
  all_goals first
    | (left; simp [World.fail, Env.fail, value_error]; done)
    | (right; exact ⟨_, Extends.trans (enter_sub_options_calls _ _ _ _ _)
        (parse_alias_loop_calls _ _ _ _ _ _ _)⟩)

theorem parse_string_intro (argv : List (List Char)) (argc : Nat) (intro s : List Char)
    (w : World) (h : long_intro w.parser.flags intro s) :
    parse_string argv argc (intro ++ s) 0 w = parse_name argv argc s 0 w := by
  rcases h with h | h | ⟨rfl, hf, hs⟩
  · exact parse_string_long argv argc intro s w (Or.inl h)
  · exact parse_string_long argv argc intro s w (Or.inr h)
  · have := parse_name_shift argv argc ['-'] s w
    simp only [List.length_cons, List.length_nil, Nat.zero_add, List.cons_append,
      List.nil_append] at this
    have h1 : char_at ('-' :: s) 1 = char_at s 0 := char_at_succ_cons _ _ _
    simp [parse_string, char_at_zero_cons, h1, hs, hf, this]

theorem resolve_token_intro (flags : Nat) (bases : List OptionBase) (intro s : List Char)
    (h : long_intro flags intro s) :
    resolve_token flags bases (intro ++ s) = parse_name_lookup flags bases s 0 := by
  rcases h with rfl | rfl | ⟨rfl, hf, hs⟩
  · have := parse_name_lookup_shift flags bases ['-', '-'] s
    simp only [List.length_cons, List.length_nil, Nat.zero_add, List.cons_append,
      List.nil_append, Nat.reduceAdd] at this
    simp [resolve_token, char_at, this]
  · have := parse_name_lookup_shift flags bases ['/'] s
    simp only [List.length_cons, List.length_nil, Nat.zero_add, List.cons_append,
      List.nil_append] at this
    simp [resolve_token, char_at, this]
  · have := parse_name_lookup_shift flags bases ['-'] s
    simp only [List.length_cons, List.length_nil, Nat.zero_add, List.cons_append,
      List.nil_append] at this
    have h1 : char_at ('-' :: s) 1 = char_at s 0 := char_at_succ_cons _ _ _
    simp [resolve_token, char_at_zero_cons, h1, hs, hf, this]

/-- The token resolves to the encountered option `O` without duplicates-allowed:
`parse_string` records `PE_DUPLICATE` and changes nothing else. -/
theorem parse_string_duplicate (argv : List (List Char)) (argc : Nat) (tok : List Char)
    (w : World) (k : Nat) (O : OptionDef)
    (hres : resolve_token w.parser.flags (w.parser.options.map OptionDef.base) tok = some k)
    (hO : w.parser.options[k]? = some O)
    (henc : encountered O.base = true)
    (hdup : check_flag O.base.flags OF_DUPLICATES_ALLOWED = false) :
    parse_string argv argc tok 0 w =
      w.fail PE_DUPLICATE (snprintf ERROR_BUFFER_SIZE O.base.name) := by
  unfold resolve_token at hres
  unfold parse_string
  simp only [Nat.zero_add] at *
  split at hres
  · rw [if_pos (by assumption)]
    split at hres
    · rw [if_pos (by assumption)]
      exact parse_name_duplicate argv argc tok 2 w k O hres hO henc hdup
    · rw [if_neg (by assumption)]
      split at hres
      · rw [if_pos (by assumption)]
        exact parse_name_duplicate argv argc tok 1 w k O hres hO henc hdup
      · rw [if_neg (by assumption)]
        split at hres
        · exact parse_alias_duplicate argv argc tok w k O (by assumption) hres hO henc hdup
        · exact absurd hres (by simp)
  · rw [if_neg (by assumption)]
    split at hres
    · rw [if_pos (by assumption)]
      exact parse_name_duplicate argv argc tok 1 w k O hres hO henc hdup
    · exact absurd hres (by simp)

/-- The token resolves to the option `O` with duplicates-allowed: `parse_string`
either rejects it by the value policy, without a handler call, or calls the
handler for `O`. -/
theorem parse_string_not_duplicate (argv : List (List Char)) (argc : Nat) (tok : List Char)
    (w : World) (k : Nat) (O : OptionDef)
    (hres : resolve_token w.parser.flags (w.parser.options.map OptionDef.base) tok = some k)
    (hO : w.parser.options[k]? = some O)
    (hdup : check_flag O.base.flags OF_DUPLICATES_ALLOWED = true) :
    (value_error (parse_string argv argc tok 0 w).env.result.error ∧
      (parse_string argv argc tok 0 w).env.calls = w.env.calls) ∨
    ∃ v, Extends (w.env.calls ++ [⟨w.parser.handler, O.base.name, O.base.alias_, v,
      w.parser.data⟩]) (parse_string argv argc tok 0 w).env.calls := by
  unfold resolve_token at hres
  unfold parse_string
  simp only [Nat.zero_add] at *
  split at hres
  · rw [if_pos (by assumption)]
    split at hres
    · rw [if_pos (by assumption)]
      exact parse_name_not_duplicate argv argc tok 2 w k O hres hO hdup
    · rw [if_neg (by assumption)]
      split at hres
      · rw [if_pos (by assumption)]
        exact parse_name_not_duplicate argv argc tok 1 w k O hres hO hdup
      · rw [if_neg (by assumption)]
        split at hres
        · exact parse_alias_not_duplicate argv argc tok w k O (by assumption) hres hO hdup
        · exact absurd hres (by simp)
  · rw [if_neg (by assumption)]
    split at hres
    · rw [if_pos (by assumption)]
      exact parse_name_not_duplicate argv argc tok 1 w k O hres hO hdup
    · exact absurd hres (by simp)

/-- The duplicate rule for a token that resolves to an option whose encountered
bit is set. -/
theorem duplicate_rule_marked (parser : OptionParser) (argv : List (List Char)) (argc : Nat)
    (calls : List Call) (w : World) (k : Nat) (O : OptionDef)
    (hr : Reaches parser argv argc calls w) (hi : w.env.i < argc)
    (hres : resolve_token w.parser.flags (w.parser.options.map OptionDef.base)
      (argv.getD w.env.i []) = some k)
    (hO : w.parser.options[k]? = some O)
    (henc : encountered O.base = true) :
    (((parse_string argv argc (argv.getD w.env.i []) 0 w).env.result.error = PE_DUPLICATE ∧
        (parse_string argv argc (argv.getD w.env.i []) 0 w).env.calls = w.env.calls) ↔
      check_flag O.base.flags OF_DUPLICATES_ALLOWED = false) ∧
    (check_flag O.base.flags OF_DUPLICATES_ALLOWED = false →
      (oparser_parse parser argv argc calls).env.result.error = PE_DUPLICATE ∧
      (oparser_parse parser argv argc calls).env.result.error_value = O.base.name.take 255 ∧
      (O.base.name.length < 256 →
        (oparser_parse parser argv argc calls).env.result.error_value = O.base.name) ∧
      (oparser_parse parser argv argc calls).env.calls = w.env.calls ∧
      (oparser_parse parser argv argc calls).parser.options = w.parser.options) ∧
    (check_flag O.base.flags OF_DUPLICATES_ALLOWED = true →
      (value_error (parse_string argv argc (argv.getD w.env.i []) 0 w).env.result.error ∧
        (parse_string argv argc (argv.getD w.env.i []) 0 w).env.calls = w.env.calls) ∨
      ∃ v rest, (parse_string argv argc (argv.getD w.env.i []) 0 w).env.calls =
        w.env.calls ++ ⟨parser.handler, O.base.name, O.base.alias_, v, parser.data⟩ :: rest) ∧
    (check_flag O.base.flags OF_DUPLICATES_ALLOWED = true →
      ∀ (intro N : List Char) (V : Option (List Char)),
        argv.getD w.env.i [] = intro ++ name_value N V →
        long_intro w.parser.flags intro (name_value N V) →
        (∀ c ∈ N, c ≠ '=' ∧ c ≠ NUL) → value_accepted O.base V →
        (∃ rest, (parse_string argv argc (argv.getD w.env.i []) 0 w).env.calls =
          w.env.calls ++ ⟨parser.handler, O.base.name, O.base.alias_, V, parser.data⟩ :: rest) ∧
        (O.sub_options = none →
          (parse_string argv argc (argv.getD w.env.i []) 0 w).env.result.error = PE_NONE ∧
          (parse_string argv argc (argv.getD w.env.i []) 0 w).env.calls =
            w.env.calls ++ [⟨parser.handler, O.base.name, O.base.alias_, V, parser.data⟩])) := by
  have hfix := reaches_fixed parser argv argc calls w hr
  simp only [OptionParser.fixed, Prod.mk.injEq] at hfix
  have herr := reaches_error parser argv argc calls w hr
  refine ⟨⟨?_, ?_⟩, ?_, ?_, ?_⟩
  · rintro ⟨h1, h2⟩
    by_contra hd
    have hd' : check_flag O.base.flags OF_DUPLICATES_ALLOWED = true := by
      simpa using hd
    rcases parse_string_not_duplicate argv argc _ w k O hres hO hd' with h | ⟨v, h⟩
    · rw [h1] at h
      rcases h.1 with h | h | h <;> exact absurd h (by decide)
    · exact extends_ne _ _ _ h h2
  · intro hd
    rw [parse_string_duplicate argv argc _ w k O hres hO henc hd]
    exact ⟨rfl, rfl⟩
  · intro hd
    have hstep := parse_string_duplicate argv argc _ w k O hres hO henc hd
    have hp := reaches_fail parser argv argc calls w hr hi
      (by rw [hstep]; simp [World.fail, Env.fail])
    rw [hp, hstep]
    exact ⟨rfl, rfl, fun hlen => snprintf_short _ hlen, rfl, rfl⟩
  · intro hd
    rcases parse_string_not_duplicate argv argc _ w k O hres hO hd with h | ⟨v, l, h⟩
    · exact Or.inl h
    · right
      refine ⟨v, l, ?_⟩
      rw [h, hfix.2.1, hfix.2.2]
      simp
  · intro hd intro N V htok hin hN hval
    have hlook : parse_name_lookup w.parser.flags (w.parser.options.map OptionDef.base)
        (name_value N V) 0 = some k := by
      rw [← resolve_token_intro _ _ intro _ hin, ← htok]; exact hres
    have hstep : parse_string argv argc (argv.getD w.env.i []) 0 w =
        enter_sub_options argv argc k O.mark
          ((w.mark k O).call ⟨parser.handler, O.base.name, O.base.alias_, V, parser.data⟩) := by
      rw [htok, parse_string_intro argv argc intro _ w hin,
        parse_name_accept argv argc N V w k O (is_option_char_of N hN) hlook hO (Or.inr hd) hval,
        hfix.2.1, hfix.2.2]
    rw [hstep]
    constructor
    · obtain ⟨l, hl⟩ := enter_sub_options_calls argv argc k O.mark
        ((w.mark k O).call ⟨parser.handler, O.base.name, O.base.alias_, V, parser.data⟩)
      refine ⟨l, ?_⟩
      rw [hl]
      simp [World.call, Env.call, World.mark]
    · intro hsub
      simp [enter_sub_options, OptionDef.mark, OptionDef.with_base, hsub, World.call, Env.call,
        World.mark, herr]

/-! ## Required-option verification -/

theorem verify_required_options_found {α : Type} (base : α → OptionBase)
    (with_base : α → OptionBase → α) (l : List α) :
    (verify_required_options base with_base l).1 =
      (l.find? (fun o => required_missing (base o))).map base := by
  induction l with
  | nil => rfl
  | cons o os ih =>
    unfold verify_required_options
    rw [required_test]
    by_cases h : required_missing (base o) = true
    · have h' := h
      simp only [required_missing, encountered] at h'
      simp [h', List.find?, h]
    · have h' := h
      simp only [required_missing, encountered] at h'
      simp only [h', List.find?, h]
      simpa using ih

theorem reaches_done (parser : OptionParser) (argv : List (List Char)) (argc : Nat)
    (calls : List Call) (w : World) (hr : Reaches parser argv argc calls w)
    (hdone : ¬ w.env.i < argc) :
    oparser_parse parser argv argc calls = parse_end w := by
  rw [reaches_loop parser argv argc calls w hr]
  have h0 : argc - w.env.i = 0 := by omega
  rw [h0]
  have herr := reaches_error parser argv argc calls w hr
  simp [parse_loop, parse_finish, herr]

theorem parse_end_none (w : World) (herr : w.env.result.error = PE_NONE)
    (h : w.parser.options.find? (fun o => required_missing o.base) = none) :
    (parse_end w).env = w.env := by
  unfold parse_end
  simp only [verify_required_options_found, h, Option.map_none']

theorem parse_end_some (w : World) (o : OptionDef)
    (h : w.parser.options.find? (fun o => required_missing o.base) = some o) :
    (parse_end w).env = w.env.fail PE_REQUIRED_MISSING (snprintf ERROR_BUFFER_SIZE o.base.name) := by
  unfold parse_end
  simp only [verify_required_options_found, h, Option.map_some']
  rfl

/-! ## A preservation principle for `parse_string` -/

theorem scan_for_name_lt (name : List Char) (l : List OptionBase) (k : Nat)
    (h : scan_for_name name l = some k) : k < l.length := by
  induction l generalizing k with
  | nil => simp [scan_for_name] at h
  | cons o os ih =>
    unfold scan_for_name at h
    split at h
    · simp at h; subst h; simp
    · cases hs : scan_for_name name os with
      | none => simp [hs] at h
      | some j =>
        simp [hs] at h
        subst h
        have := ih j hs
        simp; omega

theorem scan_for_alias_lt (c : Char) (l : List OptionBase) (k : Nat)
    (h : scan_for_alias c l = some k) : k < l.length := by
  induction l generalizing k with
  | nil => simp [scan_for_alias] at h
  | cons o os ih =>
    unfold scan_for_alias at h
    split at h
    · simp at h; subst h; simp
    · cases hs : scan_for_alias c os with
      | none => simp [hs] at h
      | some j =>
        simp [hs] at h
        subst h
        have := ih j hs
        simp; omega

theorem option_encounter_cases (o : OptionBase) :
    option_encounter_is_valid o = (false, o) ∨
    option_encounter_is_valid o = (true, { o with flags := o.flags ||| ___OF_ENCOUNTERED }) := by
  unfold option_encounter_is_valid
  split
  · exact Or.inl rfl
  · exact Or.inr rfl

theorem mark_call_get (w : World) (k : Nat) (O : OptionDef) (c : Call)
    (hO : w.parser.options[k]? = some O) :
    ((w.mark k O).call c).parser.options[k]? = some O.mark := by
  have hk : k < w.parser.options.length := by
    by_contra h
    rw [List.getElem?_eq_none (by omega)] at hO
    exact absurd hO (by simp)
  simp [World.mark, World.call, hk]

theorem mark_call_count_get (w : World) (k : Nat) (O : OptionDef) (c : Call)
    (hO : w.parser.options[k]? = some O) :
    ((w.mark k O).call c).count_option.parser.options[k]? = some O.mark :=
  mark_call_get w k O c hO

theorem parse_name_preserves (P : World → Prop) (argv : List (List Char)) (argc : Nat)
    (hfail : ∀ w e v, P w → P (w.fail e v))
    (hmark : ∀ w k O, P w → w.parser.options[k]? = some O → P (w.mark k O))
    (hcall : ∀ w c, P w → P (w.call c))
    (hsub : ∀ w k O, P w → w.parser.options[k]? = some O →
      P (enter_sub_options argv argc k O w))
    (s : List Char) (start : Nat) (w : World) (hw : P w) :
    P (parse_name argv argc s start w) := by
  unfold parse_name
  simp only
  split
  · exact hfail _ _ _ hw
  · split
    · exact hw
    · rename_i k _ _ O hO
      rcases option_encounter_cases O.base with h | h
      · have e : O.with_base O.base = O := rfl
        simp only [h, e, set_same _ _ _ hO]
        exact hfail _ _ _ hw
      · simp only [h]
        have hm := hmark w k O hw hO
        repeat' split
        all_goals first
          | exact hfail _ _ _ hm
          | exact hsub _ k _ (hcall _ _ hm) (mark_call_get w k O _ hO)

theorem parse_alias_end_preserves (P : World → Prop)
    (hfail : ∀ w e v, P w → P (w.fail e v))
    (s : List Char) (start count : Nat) (w : World) (hw : P w) :
    P (parse_alias_end s start count w) := by
  unfold parse_alias_end
  split
  · exact hw
  · exact hfail _ _ _ hw

theorem parse_alias_loop_preserves (P : World → Prop) (argv : List (List Char)) (argc : Nat)
    (hfail : ∀ w e v, P w → P (w.fail e v))
    (hmark : ∀ w k O, P w → w.parser.options[k]? = some O → P (w.mark k O))
    (hcall : ∀ w c, P w → P (w.call c))
    (hcount : ∀ w, P w → P w.count_option)
    (hsub : ∀ w k O, P w → w.parser.options[k]? = some O →
      P (enter_sub_options argv argc k O w))
    (s : List Char) (fuel start count : Nat) (w : World) (hw : P w) :
    P (parse_alias_loop argv argc s fuel start count w) := by
  induction fuel generalizing start count w with
  | zero => exact parse_alias_end_preserves P hfail s start count w hw
  | succ fuel ih =>
    unfold parse_alias_loop
    simp only
    split
    · split
      · exact hfail _ _ _ hw
      · split
        · exact hw
        · rename_i k _ _ O hO
          rcases option_encounter_cases O.base with h | h
          · have e : O.with_base O.base = O := rfl
            simp only [h, e, set_same _ _ _ hO]
            exact hfail _ _ _ hw
          · simp only [h]
            have hm := hmark w k O hw hO
            repeat' split
            all_goals first
              | exact hfail _ _ _ hm
              | exact ih _ _ _ (hsub _ k _ (hcall _ _ hm) (mark_call_get w k O _ hO))
              | exact ih _ _ _ (hsub _ k _ (hcount _ (hcall _ _ hm))
                  (mark_call_count_get w k O _ hO))
    · exact parse_alias_end_preserves P hfail s start count w hw

theorem parse_string_preserves (P : World → Prop) (argv : List (List Char)) (argc : Nat)
    (hfail : ∀ w e v, P w → P (w.fail e v))
    (hmark : ∀ w k O, P w → w.parser.options[k]? = some O → P (w.mark k O))
    (hcall : ∀ w c, P w → P (w.call c))
    (hcount : ∀ w, P w → P w.count_option)
    (hsub : ∀ w k O, P w → w.parser.options[k]? = some O →
      P (enter_sub_options argv argc k O w))
    (s : List Char) (start : Nat) (w : World)
    (hrem : is_remainder_token (s.drop start) = true →
      check_flag w.parser.flags PF_ALLOW_REMAINDER = true → P (w.push_remainder argv))
    (hw : P w) :
    P (parse_string argv argc s start w) := by
  unfold parse_string
  split
  · split
    · exact parse_name_preserves P argv argc hfail hmark hcall hsub _ _ w hw
    · split
      · exact parse_name_preserves P argv argc hfail hmark hcall hsub _ _ w hw
      · exact parse_alias_loop_preserves P argv argc hfail hmark hcall hcount hsub _ _ _ _ w hw
  · split
    · exact parse_name_preserves P argv argc hfail hmark hcall hsub _ _ w hw
    · split
      · exact hfail _ _ _ hw
      · rename_i h1 h2 h3
        apply hrem
        · have : char_at (List.drop start s) 0 = char_at s start := by
            simp [char_at, List.getD_eq_getElem?_getD, List.getElem?_drop]
          simp [is_remainder_token, this, h1, h2]
        · simpa using h3

/-! ## Remainder collection -/

theorem enter_sub_options_none (argv : List (List Char)) (argc k : Nat) (O : OptionDef)
    (w : World) (h : O.sub_options = none) : enter_sub_options argv argc k O w = w := by
  simp [enter_sub_options, h]

theorem no_sub_options_get (l : List OptionDef) (k : Nat) (O : OptionDef)
    (h : no_sub_options l) (hO : l[k]? = some O) : O.sub_options = none :=
  h O (List.getElem?_mem hO)

theorem no_sub_options_mark (l : List OptionDef) (k : Nat) (O : OptionDef)
    (h : no_sub_options l) (hO : l[k]? = some O) : no_sub_options (l.set k O.mark) := by
  intro o ho
  rcases List.mem_or_eq_of_mem_set ho with h1 | h1
  · exact h o h1
  · rw [h1]; exact no_sub_options_get l k O h hO

/-- An option-shaped token on a registry without sub-registries: the remainder
and the cursor stay as they are. -/
theorem parse_string_option_token (argv : List (List Char)) (argc : Nat) (tok : List Char)
    (w : World) (htok : is_remainder_token tok = false)
    (hns : no_sub_options w.parser.options) :
    no_sub_options (parse_string argv argc tok 0 w).parser.options ∧
    (parse_string argv argc tok 0 w).parser.remainder = w.parser.remainder ∧
    (parse_string argv argc tok 0 w).env.i = w.env.i := by
  apply parse_string_preserves
    (fun w' => no_sub_options w'.parser.options ∧ w'.parser.remainder = w.parser.remainder ∧
      w'.env.i = w.env.i)
  · intro w' e v h; exact h
  · intro w' k O h hO
    exact ⟨no_sub_options_mark _ k O h.1 hO, h.2⟩
  · intro w' c h; exact h
  · intro w' h; exact h
  · intro w' k O h hO
    rw [enter_sub_options_none _ _ _ _ _ (no_sub_options_get _ k O h.1 hO)]
    exact h
  · intro h
    rw [List.drop_zero, htok] at h
    exact absurd h (by decide)
  · exact ⟨hns, rfl, rfl⟩

theorem parse_string_remainder_token (argv : List (List Char)) (argc : Nat) (tok : List Char)
    (w : World) (htok : is_remainder_token tok = true)
    (hflag : check_flag w.parser.flags PF_ALLOW_REMAINDER = true) :
    parse_string argv argc tok 0 w = w.push_remainder argv := by
  simp only [is_remainder_token, Bool.and_eq_true, bne_iff_ne, ne_eq] at htok
  simp [parse_string, htok.1, htok.2, hflag]

/-- The tokens `argv[1..argc-1]` that `parse_string` treats as non-option values. -/
theorem remainder_invariant (parser : OptionParser) (argv : List (List Char)) (argc : Nat)
    (calls : List Call) (w : World) (hr : Reaches parser argv argc calls w)
    (hlen : argc ≤ argv.length)
    (hflag : check_flag parser.flags PF_ALLOW_REMAINDER = true)
    (hns : no_sub_options parser.options) :
    no_sub_options w.parser.options ∧
    w.parser.remainder = ((argv.take w.env.i).drop 1).filter is_remainder_token ∧
    1 ≤ w.env.i ∧ (w.env.i ≤ argc ∨ w.env.i = 1) := by
  induction hr with
  | start =>
    refine ⟨?_, ?_, le_rfl, Or.inr rfl⟩
    · unfold parse_start; split <;> exact hns
    · have h1 : (parse_start parser calls).parser.remainder = [] := by
        unfold parse_start
        split
        · rfl
        · rename_i h
          simp only [gt_iff_lt, not_lt, Nat.le_zero] at h
          exact List.eq_nil_of_length_eq_zero h
      rw [h1]
      cases argv <;> simp [parse_start]
  | step w hr hi he ih =>
    obtain ⟨h1, h2, h3, h4⟩ := ih
    have hfix := reaches_fixed parser argv argc calls w hr
    simp only [OptionParser.fixed, Prod.mk.injEq] at hfix
    have hil : w.env.i < argv.length := by omega
    have htake : (List.take (w.env.i + 1) argv).drop 1 =
        (List.take w.env.i argv).drop 1 ++ [argv.getD w.env.i []] := by
      rw [List.take_succ, List.drop_append_of_le_length (by simp; omega)]
      simp [List.getD_eq_getElem?_getD, List.getElem?_eq_getElem hil]
    cases ht : is_remainder_token (argv.getD w.env.i []) with
    | false =>
      obtain ⟨g1, g2, g3⟩ := parse_string_option_token argv argc _ w ht h1
      refine ⟨g1, ?_, ?_, ?_⟩
      · simp only [next_token, g2, g3, htake, List.filter_append, h2, List.filter_cons,
          List.filter_nil, ht, Bool.false_eq_true, if_false, List.append_nil]
      · simp only [next_token, g3]; omega
      · simp only [next_token, g3]; omega
    | true =>
      rw [parse_string_remainder_token argv argc _ w ht (by rw [hfix.1]; exact hflag)]
      refine ⟨h1, ?_, ?_, ?_⟩
      · simp only [next_token, World.push_remainder, htake, List.filter_append, h2,
          List.filter_cons, List.filter_nil, ht, if_true]
      · simp only [next_token, World.push_remainder]; omega
      · simp only [next_token, World.push_remainder]; omega

theorem parse_end_remainder (w : World) :
    (parse_end w).parser.remainder = w.parser.remainder ∧
    (parse_end w).parser.flags = w.parser.flags := by
  unfold parse_end
  simp only
  split <;> exact ⟨rfl, rfl⟩

theorem enter_sub_options_remainder (argv : List (List Char)) (argc k : Nat) (O : OptionDef)
    (w : World) : (enter_sub_options argv argc k O w).parser.remainder = w.parser.remainder := by
  unfold enter_sub_options
  split <;> rfl

/-- Without allow-remainder the remainder collection stays empty throughout the
loop of `oparser_parse`. -/
theorem remainder_stays_empty (parser : OptionParser) (argv : List (List Char)) (argc : Nat)
    (calls : List Call) (w : World) (hr : Reaches parser argv argc calls w)
    (hflag : check_flag parser.flags PF_ALLOW_REMAINDER = false) :
    w.parser.remainder = [] := by
  induction hr with
  | start =>
    unfold parse_start
    split
    · rfl
    · rename_i h
      simp only [gt_iff_lt, not_lt, Nat.le_zero] at h
      exact List.eq_nil_of_length_eq_zero h
  | step w hr hi he ih =>
    have hfix := reaches_fixed parser argv argc calls w hr
    simp only [OptionParser.fixed, Prod.mk.injEq] at hfix
    have : (parse_string argv argc (argv.getD w.env.i []) 0 w).parser.remainder = [] := by
      apply parse_string_preserves (fun w' => w'.parser.remainder = [])
      · intro w' e v h; exact h
      · intro w' k O h hO; exact h
      · intro w' c h; exact h
      · intro w' h; exact h
      · intro w' k O h hO
        rw [enter_sub_options_remainder]; exact h
      · intro _ h
        rw [hfix.1, hflag] at h
        exact absurd h (by decide)
      · exact ih
    simpa [next_token] using this

/-! ## Sub-option groups -/

/-- One round of the loop of `parse_sub_options` on an accepted sub-option token. -/
theorem parse_sub_options_step (sp : OptionSubParser) (parent_name : List Char)
    (argv : List (List Char)) (argc : Nat) (e : Env) (N : List Char) (V : Option (List Char))
    (j : Nat) (S : SubOption)
    (hi : e.i + 1 < argc)
    (htok : argv.getD (e.i + 1) [] = name_value N V)
    (hN : ∀ c ∈ N, c ≠ '=' ∧ c ≠ NUL) (hne : N ≠ [])
    (hscan : scan_for_name (name_value N V) (sp.options.map SubOption.base) = some j)
    (hS : sp.options[j]? = some S)
    (hdup : encountered S.base = false ∨ check_flag S.base.flags OF_DUPLICATES_ALLOWED = true)
    (hval : value_accepted S.base V) :
    parse_sub_options sp parent_name argv argc e =
      parse_sub_options (sp.mark j S) parent_name argv argc
        (e.consume ⟨sp.handler, S.base.name, S.base.alias_, V, sp.data⟩) := by
  have hN' := is_option_char_of N hN
  have hc := count_name_value N V hN'
  have hc0 : N.length ≠ 0 := by
    intro h; exact hne (List.eq_nil_of_length_eq_zero h)
  obtain ⟨f, hf⟩ : ∃ f, argc - (e.i + 1) = f + 1 := ⟨argc - (e.i + 1) - 1, by omega⟩
  have hf' : argc - (e.i + 1 + 1) = f := by omega
  unfold parse_sub_options
  simp only [Env.consume, hf, hf']
  conv_lhs => unfold parse_sub_options_loop
  simp only [hi, if_true, htok, hc, hc0, if_false, hscan, hS, option_encounter_ok S.base hdup,
    Bool.not_true, Bool.false_eq_true]
  cases V with
  | none =>
    simp only [name_value, value_accepted] at *
    simp [char_at_length, SubOption.with_base, check_flag_set_value_required, hval,
      OptionSubParser.mark, SubOption.mark, Env.call]
  | some v =>
    simp only [name_value, value_accepted] at *
    have h1 : char_at (N ++ '=' :: v) N.length = '=' := by
      have := char_at_append_right N ('=' :: v) 0
      simpa [char_at_zero_cons] using this
    have h2 : ('=' : Char) ≠ NUL := by decide
    have h3 : List.drop (N.length + 1) (N ++ '=' :: v) = v := by simp
    simp [h1, h2, h3, SubOption.with_base, check_flag_set_value_not_allowed, hval,
      OptionSubParser.mark, SubOption.mark, Env.call]

theorem sub_reaches_eq (parent_name : List Char) (argv : List (List Char)) (argc : Nat)
    (sp0 : OptionSubParser) (e0 : Env) (js : List Nat) (sp : OptionSubParser) (e : Env)
    (h : SubReaches argv argc sp0 e0 js sp e) :
    parse_sub_options sp0 parent_name argv argc e0 = parse_sub_options sp parent_name argv argc e := by
  induction h with
  | start => rfl
  | step js sp e N V j S _ hi htok hN hne hscan hS hdup hval ih =>
    rw [ih]
    exact parse_sub_options_step sp parent_name argv argc e N V j S hi htok hN hne hscan hS hdup hval

/-- The end of a sub-option group: the next token is missing, has an empty
name-segment or matches no sub-option. -/
theorem parse_sub_options_stop (sp : OptionSubParser) (parent_name : List Char)
    (argv : List (List Char)) (argc : Nat) (e : Env)
    (hend : ¬ e.i + 1 < argc ∨ count_option_chars (argv.getD (e.i + 1) []) = 0 ∨
      scan_for_name (argv.getD (e.i + 1) []) (sp.options.map SubOption.base) = none) :
    parse_sub_options sp parent_name argv argc e = sub_options_end parent_name sp e := by
  unfold parse_sub_options
  by_cases hi : e.i + 1 < argc
  · obtain ⟨f, hf⟩ : ∃ f, argc - (e.i + 1) = f + 1 := ⟨argc - (e.i + 1) - 1, by omega⟩
    rw [hf]
    unfold parse_sub_options_loop
    simp only [hi, if_true]
    rcases hend with h | h | h
    · exact absurd hi h
    · rw [if_pos h]
    · by_cases hc : count_option_chars (argv.getD (e.i + 1) []) = 0
      · rw [if_pos hc]
      · rw [if_neg hc]
        simp only [h]
  · have hf : argc - (e.i + 1) = 0 := by omega
    rw [hf]
    rfl

theorem sub_options_end_missing (parent_name : List Char) (sp : OptionSubParser) (e : Env)
    (S : SubOption)
    (h : sp.options.find? (fun o => required_missing o.base) = some S) :
    (sub_options_end parent_name sp e).2 =
      e.fail PE_REQUIRED_MISSING (snprintf ERROR_BUFFER_SIZE (dotted parent_name S.base.name)) := by
  unfold sub_options_end
  simp only [verify_required_options_found, h, Option.map_some']

theorem sub_options_end_error (parent_name : List Char) (parser : OptionSubParser) (e : Env)
    (h : e.result.error ≠ PE_REMAINDER) :
    (sub_options_end parent_name parser e).2.result.error ≠ PE_REMAINDER := by
  unfold sub_options_end
  simp only
  split
  · simp [Env.fail]
  · exact h

theorem parse_sub_options_loop_error (parent_name : List Char) (argv : List (List Char))
    (argc fuel : Nat) (parser : OptionSubParser) (e : Env)
    (h : e.result.error ≠ PE_REMAINDER) :
    (parse_sub_options_loop parent_name argv argc fuel parser e).2.result.error ≠
      PE_REMAINDER := by
  induction fuel generalizing parser e with
  | zero => exact sub_options_end_error parent_name parser e h
  | succ fuel ih =>
    unfold parse_sub_options_loop
    simp only
    repeat' split
    all_goals first
      | exact sub_options_end_error parent_name parser e h
      | (simp [Env.fail]; done)
      | exact h
      | (apply ih; exact h)

theorem sub_reaches_frame (argv : List (List Char)) (argc : Nat)
    (sp0 : OptionSubParser) (e0 : Env) (js : List Nat) (sp : OptionSubParser) (e : Env)
    (h : SubReaches argv argc sp0 e0 js sp e) :
    sp.handler = sp0.handler ∧ sp.data = sp0.data ∧ Extends e0.calls e.calls ∧
    e.result = e0.result ∧ e0.i ≤ e.i := by
  induction h with
  | start => exact ⟨rfl, rfl, Extends.refl _, rfl, le_rfl⟩
  | step js sp e N V j S _ hi htok hN hne hscan hS hdup hval ih =>
    obtain ⟨h1, h2, h3, h4, h5⟩ := ih
    refine ⟨h1, h2, Extends.trans h3 (Extends.call _ _), h4, ?_⟩
    simp only [Env.consume]; omega

theorem snprintf_dotted_short (a b : List Char) (h : a.length + 1 + b.length < 256) :
    snprintf ERROR_BUFFER_SIZE (dotted a b) = a ++ '.' :: b := by
  unfold dotted
  apply snprintf_short
  simp [ERROR_BUFFER_SIZE]
  omega

/-! ## The two ways in which `oparser_parse` ends -/

theorem parse_loop_outcome (parser : OptionParser) (argv : List (List Char)) (argc : Nat)
    (calls : List Call) (fuel : Nat) (w : World) (hr : Reaches parser argv argc calls w)
    (hfuel : argc - w.env.i ≤ fuel) :
    (∃ w', Reaches parser argv argc calls w' ∧ ¬ w'.env.i < argc) ∨
    (∃ w', Reaches parser argv argc calls w' ∧ w'.env.i < argc ∧
      (parse_string argv argc (argv.getD w'.env.i []) 0 w').env.result.error ≠ PE_NONE) := by
  induction fuel generalizing w with
  | zero => exact Or.inl ⟨w, hr, by omega⟩
  | succ fuel ih =>
    by_cases hi : w.env.i < argc
    · by_cases he : (parse_string argv argc (argv.getD w.env.i []) 0 w).env.result.error = PE_NONE
      · apply ih _ (Reaches.step w hr hi he)
        have := parse_string_i argv argc (argv.getD w.env.i []) 0 w
        simp only [next_token]
        omega
      · exact Or.inr ⟨w, hr, hi, he⟩
    · exact Or.inl ⟨w, hr, hi⟩

/-- Every run of `oparser_parse` ends in one of two ways: its loop gets through
all tokens without error and the last block runs on the state `w` reached, or
the token under the cursor in some reached state `w` records an error, which is
returned at once. -/
theorem parse_outcome (parser : OptionParser) (argv : List (List Char)) (argc : Nat)
    (calls : List Call) :
    (∃ w, Reaches parser argv argc calls w ∧ ¬ w.env.i < argc ∧
      oparser_parse parser argv argc calls = parse_end w) ∨
    (∃ w, Reaches parser argv argc calls w ∧ w.env.i < argc ∧
      (parse_string argv argc (argv.getD w.env.i []) 0 w).env.result.error ≠ PE_NONE ∧
      oparser_parse parser argv argc calls = parse_string argv argc (argv.getD w.env.i []) 0 w) := by
  rcases parse_loop_outcome parser argv argc calls (argc - 1) _ Reaches.start
      (by simp [parse_start]) with ⟨w, hr, hd⟩ | ⟨w, hr, hi, he⟩
  · exact Or.inl ⟨w, hr, hd, reaches_done parser argv argc calls w hr hd⟩
  · exact Or.inr ⟨w, hr, hi, he, reaches_fail parser argv argc calls w hr hi he⟩

/-! ## A recognized option keeps its encountered bit for the rest of the pass -/

theorem encountered_mark (O : OptionDef) : encountered O.mark.base = true := by
  simp [encountered, OptionDef.mark, OptionDef.with_base, check_flag_set_encountered]

theorem marked_mark (w : World) (k k' : Nat) (O : OptionDef) (h : marked w k)
    (hO : w.parser.options[k']? = some O) : marked (w.mark k' O) k := by
  obtain ⟨O1, h1, h2⟩ := h
  by_cases hk : k' = k
  · subst hk
    have hlt : k' < w.parser.options.length := by
      by_contra hc
      rw [List.getElem?_eq_none (by omega)] at hO
      exact absurd hO (by simp)
    exact ⟨O.mark, by simp [World.mark, hlt], encountered_mark O⟩
  · exact ⟨O1, by simp [World.mark, List.getElem?_set_ne hk, h1], h2⟩

theorem marked_enter (argv : List (List Char)) (argc : Nat) (w : World) (k k' : Nat)
    (O : OptionDef) (h : marked w k) (hO : w.parser.options[k']? = some O) :
    marked (enter_sub_options argv argc k' O w) k := by
  obtain ⟨O1, h1, h2⟩ := h
  unfold enter_sub_options
  split
  · exact ⟨O1, h1, h2⟩
  · by_cases hk : k' = k
    · subst hk
      have hlt : k' < w.parser.options.length := by
        by_contra hc
        rw [List.getElem?_eq_none (by omega)] at hO
        exact absurd hO (by simp)
      rw [h1] at hO
      simp only [Option.some.injEq] at hO
      subst hO
      rename_i sub hsub
      exact ⟨{ O1 with sub_options := some (parse_sub_options sub O1.base.name argv argc w.env).1 },
        by simp [hlt], h2⟩
    · exact ⟨O1, by simp [List.getElem?_set_ne hk, h1], h2⟩

/-- Processing a token never clears an encountered bit of the top-level registry. -/
theorem marked_parse_string (argv : List (List Char)) (argc : Nat) (tok : List Char)
    (w : World) (k : Nat) (h : marked w k) : marked (parse_string argv argc tok 0 w) k := by
  apply parse_string_preserves (fun w' => marked w' k)
  · intro w' e v h; exact h
  · intro w' k' O h hO; exact marked_mark w' k k' O h hO
  · intro w' c h; exact h
  · intro w' h; exact h
  · intro w' k' O h hO; exact marked_enter argv argc w' k k' O h hO
  · intro _ _; exact h
  · exact h

theorem marked_parse_alias_loop (argv : List (List Char)) (argc : Nat) (s : List Char)
    (fuel start count : Nat) (w : World) (k : Nat) (h : marked w k) :
    marked (parse_alias_loop argv argc s fuel start count w) k := by
  apply parse_alias_loop_preserves (fun w' => marked w' k)
  · intro w' e v h; exact h
  · intro w' k' O h hO; exact marked_mark w' k k' O h hO
  · intro w' c h; exact h
  · intro w' h; exact h
  · intro w' k' O h hO; exact marked_enter argv argc w' k k' O h hO
  · exact h

theorem marked_mark_call (w : World) (k : Nat) (O : OptionDef) (c : Call)
    (hO : w.parser.options[k]? = some O) : marked ((w.mark k O).call c) k :=
  ⟨O.mark, mark_call_get w k O c hO, encountered_mark O⟩

theorem marked_mark_call_count (w : World) (k : Nat) (O : OptionDef) (c : Call)
    (hO : w.parser.options[k]? = some O) : marked ((w.mark k O).call c).count_option k :=
  marked_mark_call w k O c hO

theorem parse_name_marks (argv : List (List Char)) (argc : Nat) (s : List Char)
    (start : Nat) (w : World) (k : Nat) (O : OptionDef)
    (hlook : parse_name_lookup w.parser.flags (w.parser.options.map OptionDef.base) s start =
      some k)
    (hO : w.parser.options[k]? = some O) :
    (parse_name argv argc s start w).env.result.error = PE_NONE →
    marked (parse_name argv argc s start w) k := by
  unfold parse_name
  simp only [hlook, hO]
  rcases option_encounter_cases O.base with h | h
  · simp only [h]
    intro he
    simp [World.fail, Env.fail] at he
  · simp only [h, Bool.not_true, Bool.false_eq_true, if_false]
    repeat' split
    all_goals first
      | (intro he; simp [World.fail, Env.fail] at he; done)
      | (intro _; exact marked_enter argv argc _ k k _ (marked_mark_call w k O _ hO)
          (mark_call_get w k O _ hO))

theorem parse_alias_marks (argv : List (List Char)) (argc : Nat) (s : List Char)
    (w : World) (k : Nat) (O : OptionDef)
    (hal : isalnum (char_at s 1) = true)
    (hlook : scan_for_alias (char_at s 1) (w.parser.options.map OptionDef.base) = some k)
    (hO : w.parser.options[k]? = some O) :
    (parse_alias argv argc s 1 w).env.result.error = PE_NONE →
    marked (parse_alias argv argc s 1 w) k := by
  have hlen : 1 < s.length := by
    by_contra hc
    have : char_at s 1 = NUL := by
      simp only [char_at]
      rw [List.getD_eq_default]
      omega
    rw [this] at hal
    exact absurd hal (by decide)
  obtain ⟨f, hf⟩ : ∃ f, s.length - 1 = f + 1 := ⟨s.length - 2, by omega⟩
  unfold parse_alias
  rw [hf]
  unfold parse_alias_loop
  simp only [Nat.add_zero, hal, if_true, hlook, hO]
  rcases option_encounter_cases O.base with h | h
  · simp only [h]
    intro he
    simp [World.fail, Env.fail] at he
  · simp only [h, Bool.not_true, Bool.false_eq_true, if_false]
    repeat' split
    all_goals first
      | (intro he; simp [World.fail, Env.fail] at he; done)
      | (intro _; exact marked_parse_alias_loop argv argc s _ _ _ _ k
          (marked_enter argv argc _ k k _ (marked_mark_call w k O _ hO)
            (mark_call_get w k O _ hO)))
      | (intro _; exact marked_parse_alias_loop argv argc s _ _ _ _ k
          (marked_enter argv argc _ k k _ (marked_mark_call_count w k O _ hO)
            (mark_call_count_get w k O _ hO)))

/-- A token that resolves to the option at index `k` and is processed without
error leaves that option's encountered bit set. -/
theorem recognized_marks (argv : List (List Char)) (argc : Nat) (tok : List Char)
    (w : World) (k : Nat) (O : OptionDef)
    (hres : resolve_token w.parser.flags (w.parser.options.map OptionDef.base) tok = some k)
    (hO : w.parser.options[k]? = some O)
    (he : (parse_string argv argc tok 0 w).env.result.error = PE_NONE) :
    marked (parse_string argv argc tok 0 w) k := by
  revert he
  unfold resolve_token at hres
  unfold parse_string
  simp only [Nat.zero_add] at *
  split at hres
  · rw [if_pos (by assumption)]
    split at hres
    · rw [if_pos (by assumption)]
      exact parse_name_marks argv argc tok 2 w k O hres hO
    · rw [if_neg (by assumption)]
      split at hres
      · rw [if_pos (by assumption)]
        exact parse_name_marks argv argc tok 1 w k O hres hO
      · rw [if_neg (by assumption)]
        split at hres
        · exact parse_alias_marks argv argc tok w k O (by assumption) hres hO
        · exact absurd hres (by simp)
  · rw [if_neg (by assumption)]
    split at hres
    · rw [if_pos (by assumption)]
      exact parse_name_marks argv argc tok 1 w k O hres hO
    · exact absurd hres (by simp)

theorem later_marked (argv : List (List Char)) (argc : Nat) (w1 w : World) (k : Nat)
    (h : Later argv argc w1 w) (hm : marked w1 k) : marked w k := by
  induction h with
  | refl => exact hm
  | step w _ _ _ ih => exact marked_parse_string argv argc _ w k ih

theorem later_reaches (parser : OptionParser) (argv : List (List Char)) (argc : Nat)
    (calls : List Call) (w1 w : World) (h : Later argv argc w1 w)
    (hr : Reaches parser argv argc calls w1) : Reaches parser argv argc calls w := by
  induction h with
  | refl => exact hr
  | step w _ hi he ih => exact Reaches.step w ih hi he

/-- An option recognized earlier in the pass has its encountered bit set. -/
theorem recognized_before_marked (parser : OptionParser) (argv : List (List Char))
    (argc : Nat) (calls : List Call) (w : World) (k : Nat)
    (h : recognized_before parser argv argc calls w k) : marked w k := by
  obtain ⟨w1, _, _, _, hrec, hl⟩ := h
  exact later_marked argv argc _ w k hl hrec.2

/-- In a pass that starts with all encountered bits clear, a set bit means that
the option was recognized earlier in the pass. -/
theorem marked_recognized_before (parser : OptionParser) (argv : List (List Char))
    (argc : Nat) (calls : List Call) (w : World) (k : Nat)
    (hr : Reaches parser argv argc calls w)
    (hclean : ∀ o ∈ parser.options, encountered o.base = false)
    (hm : marked w k) : recognized_before parser argv argc calls w k := by
  induction hr with
  | start =>
    obtain ⟨O, h1, h2⟩ := hm
    have hopts : (parse_start parser calls).parser.options = parser.options := by
      unfold parse_start; split <;> rfl
    rw [hopts] at h1
    rw [hclean O (List.getElem?_mem h1)] at h2
    exact absurd h2 (by decide)
  | step w0 hr0 hi he ih =>
    by_cases h0 : marked w0 k
    · obtain ⟨w1, a1, a2, a3, a4, a5⟩ := ih h0
      exact ⟨w1, a1, a2, a3, a4, Later.step w0 a5 hi he⟩
    · exact ⟨w0, hr0, hi, he, ⟨h0, hm⟩, Later.refl⟩

theorem parse_name_lookup_lt (flags : Nat) (bases : List OptionBase) (s : List Char)
    (start k : Nat) (h : parse_name_lookup flags bases s start = some k) : k < bases.length := by
  unfold parse_name_lookup at h
  simp only at h
  split at h
  · exact scan_for_alias_lt _ _ _ h
  · exact scan_for_name_lt _ _ _ h

theorem resolve_token_lt (flags : Nat) (bases : List OptionBase) (tok : List Char) (k : Nat)
    (h : resolve_token flags bases tok = some k) : k < bases.length := by
  unfold resolve_token at h
  repeat' split at h
  all_goals first
    | exact parse_name_lookup_lt _ _ _ _ _ h
    | exact scan_for_alias_lt _ _ _ h
    | exact absurd h (by simp)

theorem recognized_before_later (parser : OptionParser) (argv : List (List Char))
    (argc : Nat) (calls : List Call) (w w' : World) (k : Nat)
    (h : recognized_before parser argv argc calls w k) (hl : Later argv argc w w') :
    recognized_before parser argv argc calls w' k := by
  induction hl with
  | refl => exact h
  | step w2 _ hi he ih =>
    obtain ⟨w1, a1, a2, a3, a4, a5⟩ := ih
    exact ⟨w1, a1, a2, a3, a4, Later.step w2 a5 hi he⟩

/-- In a pass that starts with all encountered bits clear, an option to which a
token resolves, the token being processed without error, counts as recognized
from then on. -/
theorem resolved_recognized (parser : OptionParser) (argv : List (List Char))
    (argc : Nat) (calls : List Call) (w1 : World) (k : Nat)
    (hclean : ∀ o ∈ parser.options, encountered o.base = false)
    (hr : Reaches parser argv argc calls w1) (hi : w1.env.i < argc)
    (hres : resolve_token w1.parser.flags (w1.parser.options.map OptionDef.base)
      (argv.getD w1.env.i []) = some k)
    (he : (parse_string argv argc (argv.getD w1.env.i []) 0 w1).env.result.error = PE_NONE) :
    recognized_before parser argv argc calls
      (next_token (parse_string argv argc (argv.getD w1.env.i []) 0 w1)) k := by
  have hlt := resolve_token_lt _ _ _ _ hres
  simp only [List.length_map] at hlt
  have hm := recognized_marks argv argc _ w1 k _ hres (List.getElem?_eq_getElem hlt) he
  exact marked_recognized_before parser argv argc calls _ k (Reaches.step w1 hr hi he) hclean hm

/-! ## Which sub-options a group has recognized -/

theorem find?_first {α : Type} (p : α → Bool) (l : List α) (j : Nat) (x : α)
    (hx : l[j]? = some x) (hp : p x = true)
    (hfirst : ∀ j' y, j' < j → l[j']? = some y → p y = false) :
    l.find? p = some x := by
  induction l generalizing j with
  | nil => simp at hx
  | cons a l ih =>
    cases j with
    | zero =>
      simp only [List.getElem?_cons_zero, Option.some.injEq] at hx
      subst hx
      simp [List.find?, hp]
    | succ j =>
      have ha : p a = false := hfirst 0 a (by omega) (by simp)
      simp only [List.find?, ha]
      apply ih j
      · simpa using hx
      · intro j' y hj' hy
        exact hfirst (j' + 1) y (by omega) (by simpa using hy)

/-- The definitions of a sub-registry in a state of the group: names and the
required flag are those at entry, and an encountered bit is set exactly when it
was set at entry or the sub-option was recognized in the group. -/
theorem sub_reaches_bits (argv : List (List Char)) (argc : Nat)
    (sp0 : OptionSubParser) (e0 : Env) (js : List Nat) (sp : OptionSubParser) (e : Env)
    (h : SubReaches argv argc sp0 e0 js sp e) :
    sp.options.length = sp0.options.length ∧
    ∀ j S, sp.options[j]? = some S → ∃ S0, sp0.options[j]? = some S0 ∧
      S.base.name = S0.base.name ∧
      check_flag S.base.flags OF_REQUIRED = check_flag S0.base.flags OF_REQUIRED ∧
      (encountered S.base = true ↔ (encountered S0.base = true ∨ j ∈ js)) := by
  induction h with
  | start =>
    refine ⟨rfl, ?_⟩
    intro j S hS
    exact ⟨S, hS, rfl, rfl, by simp⟩
  | step js sp e N V j' S' _ hi htok hN hne hscan hS' hdup hval ih =>
    obtain ⟨hl, hb⟩ := ih
    refine ⟨by simp [OptionSubParser.mark, hl], ?_⟩
    intro j S hS
    by_cases hj : j' = j
    · subst hj
      have hlt : j' < sp.options.length := by
        by_contra hc
        rw [List.getElem?_eq_none (by omega)] at hS'
        exact absurd hS' (by simp)
      simp only [OptionSubParser.mark, List.getElem?_set_self hlt, Option.some.injEq] at hS
      subst hS
      obtain ⟨S0, h0, h1, h2, h3⟩ := hb j' S' hS'
      refine ⟨S0, h0, h1, ?_, ?_⟩
      · rw [← h2]
        exact check_flag_set_required _
      · simp [encountered, SubOption.mark, SubOption.with_base, check_flag_set_encountered]
    · simp only [OptionSubParser.mark, List.getElem?_set_ne hj] at hS
      obtain ⟨S0, h0, h1, h2, h3⟩ := hb j S hS
      refine ⟨S0, h0, h1, h2, ?_⟩
      rw [h3]
      simp only [List.mem_append, List.mem_singleton]
      constructor
      · rintro (h | h)
        · exact Or.inl h
        · exact Or.inr (Or.inl h)
      · rintro (h | h | h)
        · exact Or.inl h
        · exact Or.inr h
        · exact absurd h.symm hj

/-- In a group entered with clear encountered bits, the first required
sub-option that the group has not recognized is the one that
`verify_required_options` finds. -/
theorem sub_reaches_missing (argv : List (List Char)) (argc : Nat)
    (sp0 : OptionSubParser) (e0 : Env) (js : List Nat) (sp : OptionSubParser) (e : Env)
    (j : Nat) (S0 : SubOption)
    (h : SubReaches argv argc sp0 e0 js sp e)
    (hclean : ∀ s ∈ sp0.options, encountered s.base = false)
    (hS0 : sp0.options[j]? = some S0)
    (hreq : check_flag S0.base.flags OF_REQUIRED = true)
    (hnot : j ∉ js)
    (hfirst : ∀ j' S', j' < j → sp0.options[j']? = some S' →
      check_flag S'.base.flags OF_REQUIRED = true → j' ∈ js) :
    ∃ S, sp.options.find? (fun o => required_missing o.base) = some S ∧
      S.base.name = S0.base.name := by
  obtain ⟨hl, hb⟩ := sub_reaches_bits argv argc sp0 e0 js sp e h
  have hlt : j < sp.options.length := by
    rw [hl]
    by_contra hc
    rw [List.getElem?_eq_none (by omega)] at hS0
    exact absurd hS0 (by simp)
  obtain ⟨S0', h0, h1, h2, h3⟩ := hb j sp.options[j] (List.getElem?_eq_getElem hlt)
  rw [hS0] at h0
  simp only [Option.some.injEq] at h0
  subst h0
  refine ⟨sp.options[j], ?_, h1⟩
  apply find?_first _ _ j _ (List.getElem?_eq_getElem hlt)
  · have hne : ¬ encountered sp.options[j].base = true := by
      rw [h3]
      rintro (h | h)
      · rw [hclean S0 (List.getElem?_mem hS0)] at h
        exact absurd h (by decide)
      · exact hnot h
    simp only [required_missing, h2, hreq, Bool.true_and, Bool.not_eq_true']
    simpa using hne
  · intro j' y hj' hy
    obtain ⟨y0, g0, g1, g2, g3⟩ := hb j' y hy
    by_cases hr : check_flag y0.base.flags OF_REQUIRED = true
    · have : encountered y.base = true := g3.mpr (Or.inr (hfirst j' y0 hj' g0 hr))
      simp [required_missing, this]
    · simp only [required_missing, g2]
      simp [hr]

/-! ## The iteration bounds are enough -/

/-- More iterations than `argc - (*i + 1)` do not change what the loop of
`parse_sub_options` computes: the bound given by `parse_sub_options` never cuts
the loop short. -/
theorem parse_sub_options_loop_fuel (parent_name : List Char) (argv : List (List Char))
    (argc fuel fuel' : Nat) (parser : OptionSubParser) (e : Env)
    (h : argc - (e.i + 1) ≤ fuel) (h' : fuel ≤ fuel') :
    parse_sub_options_loop parent_name argv argc fuel parser e =
      parse_sub_options_loop parent_name argv argc fuel' parser e := by
  induction fuel generalizing fuel' parser e with
  | zero =>
    have hi : ¬ e.i + 1 < argc := by omega
    cases fuel' with
    | zero => rfl
    | succ f => simp [parse_sub_options_loop, hi]
  | succ fuel ih =>
    obtain ⟨f, rfl⟩ : ∃ f, fuel' = f + 1 := ⟨fuel' - 1, by omega⟩
    unfold parse_sub_options_loop
    simp only
    repeat' split
    all_goals first
      | rfl
      | (apply ih
         · simp only [Env.call]; omega
         · omega)

theorem isalnum_lt (s : List Char) (k : Nat) (h : isalnum (char_at s k) = true) :
    k < s.length := by
  by_contra hc
  have : char_at s k = NUL := by
    simp only [char_at]
    rw [List.getD_eq_default]
    omega
  rw [this] at h
  exact absurd h (by decide)

/-- More iterations than `strlen(option_string) - (start_index + count)` do not
change what the loop of `parse_alias` computes. -/
theorem parse_alias_loop_fuel (argv : List (List Char)) (argc : Nat) (s : List Char)
    (fuel fuel' start count : Nat) (w : World)
    (h : s.length - (start + count) ≤ fuel) (h' : fuel ≤ fuel') :
    parse_alias_loop argv argc s fuel start count w =
      parse_alias_loop argv argc s fuel' start count w := by
  induction fuel generalizing fuel' start count w with
  | zero =>
    have hi : ¬ isalnum (char_at s (start + count)) = true := by
      intro hc
      have := isalnum_lt s _ hc
      omega
    cases fuel' with
    | zero => rfl
    | succ f => simp [parse_alias_loop, hi]
  | succ fuel ih =>
    obtain ⟨f, rfl⟩ : ∃ f, fuel' = f + 1 := ⟨fuel' - 1, by omega⟩
    unfold parse_alias_loop
    simp only
    split
    · rename_i hal
      have hlt := isalnum_lt s _ hal
      repeat' split
      all_goals first
        | rfl
        | (apply ih
           · omega
           · omega)
    · rfl

/-! ## Name look-up -/

/-- The comparison `strncmp(name, cand, strlen(name)) == 0` holds exactly when
the first `strlen(name)` characters of `cand` are `name`. -/
theorem strncmp_iff_take (name cand : List Char) :
    strncmp name cand name.length = true ↔ cand.take name.length = name := by
  induction name generalizing cand with
  | nil => cases cand <;> simp [strncmp]
  | cons c cs ih =>
    cases cand with
    | nil => simp [strncmp]
    | cons d ds =>
      simp only [strncmp, List.length_cons, List.take_succ_cons, Bool.and_eq_true, beq_iff_eq,
        List.cons.injEq, ih]
      constructor
      · rintro ⟨h1, h2⟩; exact ⟨h1.symm, h2⟩
      · rintro ⟨h1, h2⟩; exact ⟨h1.symm, h2⟩

/-- The result of `scan_for_name` is the first index whose stored name is the
beginning of the candidate text. -/
theorem scan_for_name_some_iff (cand : List Char) (bases : List OptionBase)
    (hlen : ∀ o ∈ bases, o.name_length = o.name.length) (k : Nat) :
    scan_for_name cand bases = some k ↔
      (∃ o, bases[k]? = some o ∧ cand.take o.name.length = o.name) ∧
      ∀ j, j < k → ∀ o, bases[j]? = some o → cand.take o.name.length ≠ o.name := by
  induction bases generalizing k with
  | nil => simp [scan_for_name]
  | cons o os ih =>
    have ho : o.name_length = o.name.length := hlen o (List.mem_cons_self _ _)
    have hos : ∀ o' ∈ os, o'.name_length = o'.name.length :=
      fun o' h => hlen o' (List.mem_cons_of_mem _ h)
    unfold scan_for_name
    rw [ho]
    by_cases hm : strncmp o.name cand o.name.length = true
    · have hm' := (strncmp_iff_take o.name cand).1 hm
      rw [if_pos hm]
      constructor
      · intro h
        have hk : k = 0 := by simpa using h.symm
        subst hk
        exact ⟨⟨o, List.getElem?_cons_zero, hm'⟩, fun j hj => absurd hj (Nat.not_lt_zero j)⟩
      · rintro ⟨_, h2⟩
        cases k with
        | zero => rfl
        | succ k' => exact absurd hm' (h2 0 (Nat.succ_pos _) o List.getElem?_cons_zero)
    · have hm' : cand.take o.name.length ≠ o.name :=
        fun h => hm ((strncmp_iff_take o.name cand).2 h)
      rw [if_neg hm]
      cases k with
      | zero =>
        constructor
        · intro h
          simp at h
        · rintro ⟨⟨o', h1, h2⟩, _⟩
          simp only [List.getElem?_cons_zero, Option.some.injEq] at h1
          subst h1
          exact absurd h2 hm'
      | succ k' =>
        simp only [Option.map_eq_some', Nat.add_right_cancel_iff, exists_eq_right,
          List.getElem?_cons_succ]
        rw [ih hos k']
        constructor
        · rintro ⟨h1, h2⟩
          refine ⟨h1, ?_⟩
          intro j hj o' hj'
          cases j with
          | zero =>
            simp only [List.getElem?_cons_zero, Option.some.injEq] at hj'
            subst hj'
            exact hm'
          | succ j' =>
            simp only [List.getElem?_cons_succ] at hj'
            exact h2 j' (Nat.lt_of_succ_lt_succ hj) o' hj'
        · rintro ⟨h1, h2⟩
          refine ⟨h1, ?_⟩
          intro j hj o' hj'
          exact h2 (j + 1) (Nat.succ_lt_succ hj) o' (by simpa using hj')

/-- A look-up without result makes `parse_name` fail with `PE_INVALID_NAME` on
the text after the introducer. -/
theorem parse_name_invalid (argv : List (List Char)) (argc : Nat) (s : List Char)
    (start : Nat) (w : World)
    (hlook : parse_name_lookup w.parser.flags (w.parser.options.map OptionDef.base) s start =
      none) :
    parse_name argv argc s start w =
      w.fail PE_INVALID_NAME (snprintf ERROR_BUFFER_SIZE (s.drop start)) := by
  unfold parse_name
  simp only [hlook]

/-- The function `parse_name` is its look-up followed by `parse_name_found`. -/
theorem parse_name_eq_found (argv : List (List Char)) (argc : Nat) (s : List Char)
    (start : Nat) (w : World) :
    parse_name argv argc s start w =
      match parse_name_lookup w.parser.flags (w.parser.options.map OptionDef.base) s start with
      | none => w.fail PE_INVALID_NAME (snprintf ERROR_BUFFER_SIZE (s.drop start))
      | some k => parse_name_found argv argc s start k w := by
  rfl

/-- A hit of `scan_for_name` is the result of the look-up of `parse_name`. -/
theorem parse_name_lookup_name (flags : Nat) (bases : List OptionBase) (s : List Char)
    (start k : Nat) (h : scan_for_name (s.drop start) bases = some k) :
    parse_name_lookup flags bases s start = some k := by
  unfold parse_name_lookup
  simp [h]

/-- After a miss of `scan_for_name` on a name-segment of one character, the
look-up of `parse_name` is `scan_for_alias` on that character under
`PF_ALWAYS_CHECK_FOR_ALIAS`, and has no result without that flag. -/
theorem parse_name_lookup_alias (flags : Nat) (bases : List OptionBase) (c : Char)
    (V : Option (List Char)) (hc : c ≠ '=' ∧ c ≠ NUL)
    (h : scan_for_name (name_value [c] V) bases = none) :
    parse_name_lookup flags bases (name_value [c] V) 0 =
      if check_flag flags PF_ALWAYS_CHECK_FOR_ALIAS = true then scan_for_alias c bases
      else none := by
  have hN : ∀ x ∈ [c], is_option_char x = true :=
    is_option_char_of [c] (by intro x hx; rw [List.mem_singleton] at hx; subst hx; exact hc)
  have hc0 : char_at (name_value [c] V) 0 = c := by cases V <;> rfl
  unfold parse_name_lookup
  simp only [List.drop_zero, count_name_value [c] V hN, h, hc0, List.length_singleton, true_and]

/-! ## The parse functions read the argument vector only from the cursor on -/

theorem agree_from_mono (n m : Nat) (a b : List (List Char)) (hnm : n ≤ m)
    (h : agree_from n a b) : agree_from m a b :=
  fun i hi => h i (le_trans hnm hi)

theorem parse_sub_options_loop_congr (parent_name : List Char) (a b : List (List Char))
    (argc fuel : Nat) (parser : OptionSubParser) (e : Env) (h : agree_from (e.i + 1) a b) :
    parse_sub_options_loop parent_name a argc fuel parser e =
      parse_sub_options_loop parent_name b argc fuel parser e := by
  induction fuel generalizing parser e with
  | zero => rfl
  | succ fuel ih =>
    unfold parse_sub_options_loop
    simp only [h (e.i + 1) (le_refl _)]
    repeat' split
    all_goals first
      | rfl
      | (apply ih
         exact agree_from_mono _ _ a b (by simp only [Env.call]; omega) h)

theorem enter_sub_options_congr (a b : List (List Char)) (argc k : Nat) (O : OptionDef)
    (w : World) (h : agree_from (w.env.i + 1) a b) :
    enter_sub_options a argc k O w = enter_sub_options b argc k O w := by
  unfold enter_sub_options parse_sub_options
  split
  · rfl
  · rw [parse_sub_options_loop_congr _ a b _ _ _ _ h]

theorem parse_name_congr (a b : List (List Char)) (argc : Nat) (s : List Char) (start : Nat)
    (w : World) (h : agree_from (w.env.i + 1) a b) :
    parse_name a argc s start w = parse_name b argc s start w := by
  unfold parse_name
  simp only
  repeat' split
  all_goals first
    | rfl
    | exact enter_sub_options_congr a b _ _ _ _ h

theorem parse_alias_loop_congr (a b : List (List Char)) (argc : Nat) (s : List Char)
    (fuel start count : Nat) (w : World) (h : agree_from (w.env.i + 1) a b) :
    parse_alias_loop a argc s fuel start count w =
      parse_alias_loop b argc s fuel start count w := by
  induction fuel generalizing start count w with
  | zero => rfl
  | succ fuel ih =>
    unfold parse_alias_loop
    simp only
    repeat' split
    all_goals first
      | rfl
      | (refine Eq.trans (ih _ _ _ ?_) (congrArg _ (enter_sub_options_congr a b _ _ _ _ h))
         refine agree_from_mono _ _ a b (Nat.succ_le_succ ?_) h
         refine le_trans ?_ (enter_sub_options_i _ _ _ _ _)
         exact le_refl _)

theorem parse_string_congr (a b : List (List Char)) (argc : Nat) (s : List Char) (start : Nat)
    (w : World) (h : agree_from w.env.i a b) :
    parse_string a argc s start w = parse_string b argc s start w := by
  have h1 : agree_from (w.env.i + 1) a b := agree_from_mono _ _ a b (Nat.le_succ _) h
  unfold parse_string parse_alias
  repeat' split
  all_goals first
    | rfl
    | exact parse_name_congr a b _ _ _ _ h1
    | exact parse_alias_loop_congr a b _ _ _ _ _ _ h1
    | (unfold World.push_remainder; rw [h w.env.i (le_refl _)])

theorem parse_loop_congr (a b : List (List Char)) (argc fuel : Nat) (w : World)
    (h : agree_from w.env.i a b) :
    parse_loop a argc fuel w = parse_loop b argc fuel w := by
  induction fuel generalizing w with
  | zero => rfl
  | succ fuel ih =>
    unfold parse_loop
    rw [h w.env.i (le_refl _), parse_string_congr a b argc _ 0 w h]
    split
    · simp only
      split
      · rfl
      · apply ih
        refine agree_from_mono _ _ a b ?_ h
        exact le_trans (parse_string_i b argc _ 0 w) (Nat.le_succ _)
    · rfl

/-- Two argument vectors that differ only at the cursor, where each holds a
long-form introducer followed by the same text, have the same parse outcome. -/
theorem parse_loop_intro (a b : List (List Char)) (argc : Nat) (w : World)
    (intro1 intro2 s : List Char)
    (h1 : long_intro w.parser.flags intro1 s) (h2 : long_intro w.parser.flags intro2 s)
    (ha : a.getD w.env.i [] = intro1 ++ s) (hb : b.getD w.env.i [] = intro2 ++ s)
    (h : agree_from (w.env.i + 1) a b) (fuel : Nat) :
    parse_loop a argc fuel w = parse_loop b argc fuel w := by
  cases fuel with
  | zero => rfl
  | succ fuel =>
    have hstep : parse_string a argc (a.getD w.env.i []) 0 w =
        parse_string b argc (b.getD w.env.i []) 0 w := by
      rw [ha, hb, parse_string_intro a argc intro1 s w h1, parse_string_intro b argc intro2 s w h2]
      exact parse_name_congr a b argc s 0 w h
    unfold parse_loop
    rw [hstep]
    split
    · simp only
      split
      · rfl
      · apply parse_loop_congr
        refine agree_from_mono _ _ a b ?_ h
        exact Nat.succ_le_succ (parse_string_i b argc _ 0 w)
    · rfl

/-! ## Alias runs -/

/-- A single dash that is not followed by another one starts an alias run when
`PF_TREAT_DASH_AS_FULL_OPTION` is unset. -/
theorem parse_string_alias (argv : List (List Char)) (argc : Nat) (s : List Char) (w : World)
    (h0 : char_at s 0 = '-') (h1 : char_at s 1 ≠ '-')
    (hflag : check_flag w.parser.flags PF_TREAT_DASH_AS_FULL_OPTION = false) :
    parse_string argv argc s 0 w = parse_alias argv argc s 1 w := by
  unfold parse_string
  simp only [Nat.zero_add, h0, if_true, h1, if_false, hflag, Bool.false_eq_true]

theorem isalnum_ne_dash (c : Char) (h : isalnum c = true) : c ≠ '-' := by
  intro hc
  subst hc
  exact absurd h (by decide)

/-- One turn of the loop of `parse_alias` on an accepted character. -/
theorem parse_alias_loop_step (argv : List (List Char)) (argc : Nat) (s : List Char)
    (f n : Nat) (w : World) (k : Nat) (O : OptionDef)
    (hal : isalnum (char_at s (1 + n)) = true)
    (hscan : scan_for_alias (char_at s (1 + n)) (w.parser.options.map OptionDef.base) = some k)
    (hO : w.parser.options[k]? = some O)
    (hdup : encountered O.base = false ∨ check_flag O.base.flags OF_DUPLICATES_ALLOWED = true)
    (hreq : check_flag O.base.flags OF_VALUE_REQUIRED = false)
    (hset : ¬ (n = 0 ∧ check_flag w.parser.flags PF_SETTABLE_FLAGS = true ∧
      char_at s 2 = '=')) :
    parse_alias_loop argv argc s (f + 1) 1 n w =
      parse_alias_loop argv argc s f 1 (n + 1)
        (enter_sub_options argv argc k O.mark
          ((w.mark k O).call
            ⟨w.parser.handler, O.base.name, O.base.alias_, none, w.parser.data⟩).count_option) := by
  conv_lhs => unfold parse_alias_loop
  simp only [hal, if_true, hscan, hO, option_encounter_ok O.base hdup, Bool.not_true,
    Bool.false_eq_true, if_false, OptionDef.with_base, check_flag_set_value_required, hreq]
  rw [if_neg hset]
  rfl

/-- The loop of `parse_alias` at an alphanumeric character that is no alias. -/
theorem parse_alias_loop_miss (argv : List (List Char)) (argc : Nat) (s : List Char)
    (f start n : Nat) (w : World)
    (hal : isalnum (char_at s (start + n)) = true)
    (hscan : scan_for_alias (char_at s (start + n)) (w.parser.options.map OptionDef.base) =
      none) :
    parse_alias_loop argv argc s (f + 1) start n w =
      w.fail PE_INVALID_ALIAS [char_at s (start + n)] := by
  conv_lhs => unfold parse_alias_loop
  simp only [hal, if_true, hscan]

/-- The loop of `parse_alias` at a character that is not alphanumeric. -/
theorem parse_alias_loop_stop (argv : List (List Char)) (argc : Nat) (s : List Char)
    (fuel start n : Nat) (w : World)
    (hal : isalnum (char_at s (start + n)) = false) :
    parse_alias_loop argv argc s fuel start n w = parse_alias_end s start n w := by
  cases fuel with
  | zero => rfl
  | succ f =>
    conv_lhs => unfold parse_alias_loop
    simp only [hal, Bool.false_eq_true, if_false]

/-- The function `parse_alias` has come to the state of an alias run. -/
theorem alias_reaches_loop (argv : List (List Char)) (argc : Nat) (s : List Char)
    (w0 : World) (ks : List Nat) (w : World) (h : AliasReaches argv argc s w0 ks w) :
    parse_alias argv argc s 1 w0 =
      parse_alias_loop argv argc s (s.length - (1 + ks.length)) 1 ks.length w := by
  induction h with
  | start => rfl
  | step ks w k O hprev hal hscan hO hdup hreq hset ih =>
    have hlt := isalnum_lt s _ hal
    obtain ⟨f, hf⟩ : ∃ f, s.length - (1 + ks.length) = f + 1 :=
      ⟨s.length - (1 + ks.length) - 1, by omega⟩
    have hf' : s.length - (1 + (ks ++ [k]).length) = f := by
      simp only [List.length_append, List.length_singleton]; omega
    rw [ih, hf, hf', parse_alias_loop_step argv argc s f ks.length w k O hal hscan hO hdup hreq
      hset]
    simp only [List.length_append, List.length_singleton]

/-- A non-empty alias run starts with an alphanumeric character. -/
theorem alias_reaches_first (argv : List (List Char)) (argc : Nat) (s : List Char)
    (w0 : World) (ks : List Nat) (w : World) (h : AliasReaches argv argc s w0 ks w)
    (hne : ks ≠ []) : isalnum (char_at s 1) = true := by
  induction h with
  | start => exact absurd rfl hne
  | step ks w k O hprev hal hscan hO hdup hreq hset ih =>
    cases ks with
    | nil => exact hal
    | cons a l => exact ih (by simp)

/-! ## The error `PE_INVALID_NAME_TOKEN` and the count `options_parsed` -/

theorem sub_options_end_not_name_token (parent_name : List Char) (parser : OptionSubParser)
    (e : Env) (h : e.result.error ≠ PE_INVALID_NAME_TOKEN) :
    (sub_options_end parent_name parser e).2.result.error ≠ PE_INVALID_NAME_TOKEN := by
  unfold sub_options_end
  simp only
  split
  · simp [Env.fail]
  · exact h

theorem parse_sub_options_loop_not_name_token (parent_name : List Char)
    (argv : List (List Char)) (argc fuel : Nat) (parser : OptionSubParser) (e : Env)
    (h : e.result.error ≠ PE_INVALID_NAME_TOKEN) :
    (parse_sub_options_loop parent_name argv argc fuel parser e).2.result.error ≠
      PE_INVALID_NAME_TOKEN := by
  induction fuel generalizing parser e with
  | zero => exact sub_options_end_not_name_token parent_name parser e h
  | succ fuel ih =>
    unfold parse_sub_options_loop
    simp only
    repeat' split
    all_goals first
      | exact sub_options_end_not_name_token parent_name parser e h
      | (exfalso
         rcases char_after_segment_zero (argv.getD (e.i + 1) []) with h1 | h1 <;> contradiction)
      | (simp [Env.fail]; done)
      | exact h
      | (apply ih; exact h)

theorem enter_sub_options_not_name_token (argv : List (List Char)) (argc k : Nat)
    (O : OptionDef) (w : World) (h : w.env.result.error ≠ PE_INVALID_NAME_TOKEN) :
    (enter_sub_options argv argc k O w).env.result.error ≠ PE_INVALID_NAME_TOKEN := by
  unfold enter_sub_options
  split
  · exact h
  · exact parse_sub_options_loop_not_name_token _ _ _ _ _ _ h

theorem parse_name_not_name_token (argv : List (List Char)) (argc : Nat) (s : List Char)
    (start : Nat) (w : World) (h : w.env.result.error ≠ PE_INVALID_NAME_TOKEN) :
    (parse_name argv argc s start w).env.result.error ≠ PE_INVALID_NAME_TOKEN := by
  unfold parse_name
  simp only
  repeat' split
  all_goals first
    | exact h
    | (exfalso
       rcases char_after_segment s start with h1 | h1 <;> contradiction)
    | (simp [World.fail, Env.fail]; done)
    | exact enter_sub_options_not_name_token _ _ _ _ _ h

theorem parse_alias_loop_not_name_token (argv : List (List Char)) (argc : Nat) (s : List Char)
    (fuel start count : Nat) (w : World) (h : w.env.result.error ≠ PE_INVALID_NAME_TOKEN) :
    (parse_alias_loop argv argc s fuel start count w).env.result.error ≠
      PE_INVALID_NAME_TOKEN := by
  have hend : ∀ start count (w : World), w.env.result.error ≠ PE_INVALID_NAME_TOKEN →
      (parse_alias_end s start count w).env.result.error ≠ PE_INVALID_NAME_TOKEN := by
    intro start count w h
    unfold parse_alias_end
    split
    · exact h
    · simp [World.fail, Env.fail]
  induction fuel generalizing start count w with
  | zero => exact hend _ _ _ h
  | succ fuel ih =>
    unfold parse_alias_loop
    simp only
    repeat' split
    all_goals first
      | exact hend _ _ _ h
      | exact h
      | (simp [World.fail, Env.fail]; done)
      | exact ih _ _ _ (enter_sub_options_not_name_token _ _ _ _ _ h)

theorem parse_string_not_name_token (argv : List (List Char)) (argc : Nat) (s : List Char)
    (start : Nat) (w : World) (h : w.env.result.error ≠ PE_INVALID_NAME_TOKEN) :
    (parse_string argv argc s start w).env.result.error ≠ PE_INVALID_NAME_TOKEN := by
  unfold parse_string parse_alias
  repeat' split
  all_goals first
    | exact parse_name_not_name_token _ _ _ _ _ h
    | exact parse_alias_loop_not_name_token _ _ _ _ _ _ _ h
    | (simp [World.fail, Env.fail]; done)
    | exact h

theorem parse_loop_not_name_token (argv : List (List Char)) (argc fuel : Nat) (w : World)
    (h : w.env.result.error ≠ PE_INVALID_NAME_TOKEN) :
    (parse_loop argv argc fuel w).env.result.error ≠ PE_INVALID_NAME_TOKEN := by
  induction fuel generalizing w with
  | zero => exact h
  | succ fuel ih =>
    unfold parse_loop
    simp only
    repeat' split
    all_goals first
      | exact h
      | exact parse_string_not_name_token _ _ _ _ _ h
      | exact ih _ (parse_string_not_name_token _ _ _ _ _ h)

/-- No parse ends with `PE_INVALID_NAME_TOKEN`. -/
theorem oparser_parse_not_name_token (parser : OptionParser) (argv : List (List Char))
    (argc : Nat) (calls : List Call) :
    (oparser_parse parser argv argc calls).env.result.error ≠ PE_INVALID_NAME_TOKEN := by
  have h := parse_loop_not_name_token argv argc (argc - 1) (parse_start parser calls)
    (by simp [parse_start])
  unfold oparser_parse
  simp only
  split
  · exact h
  · unfold parse_end
    simp only
    split
    · simp [World.fail, Env.fail]
    · exact h

theorem sub_options_end_options_parsed (parent_name : List Char) (parser : OptionSubParser)
    (e : Env) :
    (sub_options_end parent_name parser e).2.result.options_parsed = e.result.options_parsed := by
  unfold sub_options_end
  simp only
  split <;> rfl

theorem parse_sub_options_loop_options_parsed (parent_name : List Char)
    (argv : List (List Char)) (argc fuel : Nat) (parser : OptionSubParser) (e : Env) :
    (parse_sub_options_loop parent_name argv argc fuel parser e).2.result.options_parsed =
      e.result.options_parsed := by
  induction fuel generalizing parser e with
  | zero => exact sub_options_end_options_parsed parent_name parser e
  | succ fuel ih =>
    unfold parse_sub_options_loop
    simp only
    repeat' split
    all_goals first
      | exact sub_options_end_options_parsed parent_name parser e
      | rfl
      | (rw [ih]; rfl)

theorem enter_sub_options_options_parsed (argv : List (List Char)) (argc k : Nat)
    (O : OptionDef) (w : World) :
    (enter_sub_options argv argc k O w).env.result.options_parsed =
      w.env.result.options_parsed := by
  unfold enter_sub_options
  split
  · rfl
  · exact parse_sub_options_loop_options_parsed _ _ _ _ _ _

/-- The function `parse_name` leaves `options_parsed` as it is. -/
theorem parse_name_options_parsed (argv : List (List Char)) (argc : Nat) (s : List Char)
    (start : Nat) (w : World) :
    (parse_name argv argc s start w).env.result.options_parsed =
      w.env.result.options_parsed := by
  unfold parse_name
  simp only
  repeat' split
  all_goals first
    | rfl
    | (rw [enter_sub_options_options_parsed]; rfl)

/-- The settable-flags branch of `parse_alias` on a token `-c=V`: the handler
gets the text from the equals sign on, and the function ends in the `default`
case of its final `switch`. -/
theorem parse_alias_settable (argv : List (List Char)) (argc : Nat) (c : Char) (V : List Char)
    (w : World) (k : Nat) (O : OptionDef)
    (hset : check_flag w.parser.flags PF_SETTABLE_FLAGS = true)
    (hal : isalnum c = true)
    (hscan : scan_for_alias c (w.parser.options.map OptionDef.base) = some k)
    (hO : w.parser.options[k]? = some O)
    (hdup : encountered O.base = false ∨ check_flag O.base.flags OF_DUPLICATES_ALLOWED = true)
    (hreq : check_flag O.base.flags OF_VALUE_REQUIRED = false)
    (hforbid : check_flag O.base.flags OF_VALUE_NOT_ALLOWED = false) :
    parse_alias argv argc ('-' :: c :: '=' :: V) 1 w =
      (enter_sub_options argv argc k O.mark
        ((w.mark k O).call
          ⟨w.parser.handler, O.base.name, O.base.alias_, some ('=' :: V), w.parser.data⟩)).fail
        PE_INVALID_ALIAS_TOKEN (snprintf ERROR_BUFFER_SIZE ('-' :: c :: '=' :: V)) := by
  have h1 : char_at ('-' :: c :: '=' :: V) (1 + 0) = c := rfl
  have h2 : char_at ('-' :: c :: '=' :: V) (1 + 1) = '=' := rfl
  have h3 : char_at ('-' :: c :: '=' :: V) (1 + (0 + 1) + 0) = '=' := rfl
  have hlen : ('-' :: c :: '=' :: V).length - 1 = (V.length + 1) + 1 := by
    simp only [List.length_cons]; omega
  unfold parse_alias
  rw [hlen]
  conv_lhs => unfold parse_alias_loop
  simp only [h1, h2, hal, if_true, hscan, hO, option_encounter_ok O.base hdup, Bool.not_true,
    Bool.false_eq_true, if_false, OptionDef.with_base, check_flag_set_value_required, hreq,
    check_flag_set_value_not_allowed, hforbid, hset, true_and]
  have h4 : ¬ (List.drop (1 + (0 + 1)) ('-' :: c :: '=' :: V)).length = 0 := by
    simp
  rw [if_neg h4, parse_alias_loop_stop argv argc _ _ _ 0 _ (by rw [h3]; decide)]
  unfold parse_alias_end
  rw [h3, if_neg (by decide)]
  rfl

/-! ## Construction, accessors and messages -/

/-- A flag test is a test of every bit of the flag. -/
theorem check_flag_iff (f g : Nat) :
    check_flag f g = true ↔ ∀ i, g.testBit i = true → f.testBit i = true := by
  simp only [check_flag, beq_iff_eq]
  constructor
  · intro h i hi
    have := congrArg (fun n => n.testBit i) h
    simp only [Nat.testBit_and, hi, Bool.and_true] at this
    exact this
  · intro h
    apply Nat.eq_of_testBit_eq
    intro i
    rw [Nat.testBit_and]
    cases hg : g.testBit i
    · simp
    · simp [h i hg]

theorem check_flag_or (f a b : Nat) :
    check_flag f (a ||| b) = (check_flag f a && check_flag f b) := by
  rw [Bool.eq_iff_iff, Bool.and_eq_true, check_flag_iff, check_flag_iff, check_flag_iff]
  simp only [Nat.testBit_or, Bool.or_eq_true]
  constructor
  · intro h
    exact ⟨fun i hi => h i (Or.inl hi), fun i hi => h i (Or.inr hi)⟩
  · rintro ⟨h1, h2⟩ i (hi | hi)
    · exact h1 i hi
    · exact h2 i hi

/-- The function `verify_flags` rejects exactly the flags that hold both value policies. -/
theorem verify_flags_iff (flags : Nat) :
    verify_flags flags = false ↔
      (check_flag flags OF_VALUE_REQUIRED = true ∧ check_flag flags OF_VALUE_NOT_ALLOWED = true) := by
  unfold verify_flags
  rw [check_flag_or]
  cases check_flag flags OF_VALUE_REQUIRED <;> cases check_flag flags OF_VALUE_NOT_ALLOWED <;>
    simp

/-- A parse leaves the flags of the registry as they are. -/
theorem oparser_parse_flags (parser : OptionParser) (argv : List (List Char)) (argc : Nat)
    (calls : List Call) : (oparser_parse parser argv argc calls).parser.flags = parser.flags := by
  rcases parse_outcome parser argv argc calls with ⟨w, hr, _, he⟩ | ⟨w, hr, _, _, he⟩
  · have hfix := reaches_fixed parser argv argc calls w hr
    simp only [OptionParser.fixed, Prod.mk.injEq] at hfix
    rw [he, (parse_end_remainder w).2, hfix.1]
  · have hfix := reaches_fixed parser argv argc calls w hr
    have hs := parse_string_fixed argv argc (argv.getD w.env.i []) 0 w
    simp only [OptionParser.fixed, Prod.mk.injEq] at hfix hs
    rw [he, hs.1, hfix.1]

/-- The result of `scan_for_name` is `-1` exactly when no stored name is the
beginning of the candidate text. -/
theorem scan_for_name_none_iff (cand : List Char) (bases : List OptionBase)
    (hlen : ∀ o ∈ bases, o.name_length = o.name.length) :
    scan_for_name cand bases = none ↔ ∀ o ∈ bases, cand.take o.name.length ≠ o.name := by
  induction bases with
  | nil => simp [scan_for_name]
  | cons o os ih =>
    have ho : o.name_length = o.name.length := hlen o (List.mem_cons_self _ _)
    have hos : ∀ o' ∈ os, o'.name_length = o'.name.length :=
      fun o' h => hlen o' (List.mem_cons_of_mem _ h)
    unfold scan_for_name
    rw [ho]
    by_cases hm : strncmp o.name cand o.name.length = true
    · have hm' := (strncmp_iff_take o.name cand).1 hm
      rw [if_pos hm]
      simp only [List.mem_cons, forall_eq_or_imp]
      constructor
      · intro h
        cases h
      · rintro ⟨h, _⟩
        exact absurd hm' h
    · have hm' : cand.take o.name.length ≠ o.name :=
        fun h => hm ((strncmp_iff_take o.name cand).2 h)
      rw [if_neg hm]
      simp only [Option.map_eq_none', List.mem_cons, forall_eq_or_imp, ih hos]
      exact ⟨fun h => ⟨hm', h⟩, fun h => h.2⟩

/-! ## The remainder collection is emptied at the start of a parse -/

/-- The loop of `oparser_parse` is entered with an empty remainder collection and
otherwise the registry as given. -/
theorem parse_start_eq (parser : OptionParser) (calls : List Call) :
    parse_start parser calls =
      { parser := { parser with remainder := [] },
        env := { result := { error := PE_NONE, error_value := [], options_parsed := 0 },
                 i := 1, calls := calls } } := by
  unfold parse_start
  by_cases h : parser.remainder.length > 0
  · simp only [h, if_true]
  · have h0 : parser.remainder = [] := by
      cases hr : parser.remainder with
      | nil => rfl
      | cons a l => rw [hr] at h; simp at h
    simp only [h, if_false]
    congr 1
    cases parser
    simp only at h0
    subst h0
    rfl

/-- The function `parse_string` adds at most the token under the cursor to the
remainder collection, and only a token that begins with neither `-` nor `/`. -/
theorem parse_string_remainder_cases (argv : List (List Char)) (argc : Nat) (s : List Char)
    (w : World) :
    (parse_string argv argc s 0 w).parser.remainder = w.parser.remainder ∨
    ((parse_string argv argc s 0 w).parser.remainder =
        w.parser.remainder ++ [argv.getD w.env.i []] ∧
      is_remainder_token s = true) := by
  apply parse_string_preserves
    (fun w' => w'.parser.remainder = w.parser.remainder ∨
      (w'.parser.remainder = w.parser.remainder ++ [argv.getD w.env.i []] ∧
        is_remainder_token s = true)) argv argc
  · intro w1 e v h; exact h
  · intro w1 k O h _; exact h
  · intro w1 c h; exact h
  · intro w1 h; exact h
  · intro w1 k O h _
    rw [enter_sub_options_remainder]; exact h
  · intro h1 _
    right
    exact ⟨rfl, by simpa using h1⟩
  · left; rfl

theorem reaches_cursor_pos (parser : OptionParser) (argv : List (List Char)) (argc : Nat)
    (calls : List Call) (w : World) (hr : Reaches parser argv argc calls w) : 1 ≤ w.env.i := by
  induction hr with
  | start => rw [parse_start_eq]
  | step w _ _ _ ih =>
    exact le_trans ih (le_trans (parse_string_i argv argc _ 0 w) (Nat.le_succ _))

/-- Every token of the remainder collection was taken from the argument vector
of this parse, from a position before the cursor. -/
theorem reaches_remainder (parser : OptionParser) (argv : List (List Char)) (argc : Nat)
    (calls : List Call) (w : World) (hr : Reaches parser argv argc calls w) :
    ∀ t ∈ w.parser.remainder, ∃ i, 1 ≤ i ∧ i < argc ∧ i < w.env.i ∧ t = argv.getD i [] ∧
      is_remainder_token t = true := by
  induction hr with
  | start =>
    rw [parse_start_eq]
    intro t ht
    simp at ht
  | step w hr hi _ ih =>
    intro t ht
    have hmono : w.env.i <
        (next_token (parse_string argv argc (argv.getD w.env.i []) 0 w)).env.i :=
      Nat.lt_succ_of_le (parse_string_i argv argc _ 0 w)
    have hrem : (next_token (parse_string argv argc (argv.getD w.env.i []) 0 w)).parser.remainder
        = (parse_string argv argc (argv.getD w.env.i []) 0 w).parser.remainder := rfl
    rw [hrem] at ht
    rcases parse_string_remainder_cases argv argc (argv.getD w.env.i []) w with h | ⟨h, htok⟩
    · rw [h] at ht
      obtain ⟨i, h1, h2, h3, h4⟩ := ih t ht
      exact ⟨i, h1, h2, lt_trans h3 hmono, h4⟩
    · rw [h, List.mem_append, List.mem_singleton] at ht
      rcases ht with ht | ht
      · obtain ⟨i, h1, h2, h3, h4⟩ := ih t ht
        exact ⟨i, h1, h2, lt_trans h3 hmono, h4⟩
      · exact ⟨w.env.i, reaches_cursor_pos parser argv argc calls w hr, hi, hmono, ht,
          by rw [ht]; exact htok⟩

/-- Every token of the remainder collection after a parse was taken from the
argument vector of that parse. -/
theorem oparser_parse_remainder (parser : OptionParser) (argv : List (List Char)) (argc : Nat)
    (calls : List Call) :
    ∀ t ∈ (oparser_parse parser argv argc calls).parser.remainder,
      ∃ i, 1 ≤ i ∧ i < argc ∧ t = argv.getD i [] ∧ is_remainder_token t = true := by
  intro t ht
  rcases parse_outcome parser argv argc calls with ⟨w, hr, _, he⟩ | ⟨w, hr, hi, _, he⟩
  · rw [he, (parse_end_remainder w).1] at ht
    obtain ⟨i, h1, h2, _, h4⟩ := reaches_remainder parser argv argc calls w hr t ht
    exact ⟨i, h1, h2, h4⟩
  · rw [he] at ht
    rcases parse_string_remainder_cases argv argc (argv.getD w.env.i []) w with h | ⟨h, htok⟩
    · rw [h] at ht
      obtain ⟨i, h1, h2, _, h4⟩ := reaches_remainder parser argv argc calls w hr t ht
      exact ⟨i, h1, h2, h4⟩
    · rw [h, List.mem_append, List.mem_singleton] at ht
      rcases ht with ht | ht
      · obtain ⟨i, h1, h2, _, h4⟩ := reaches_remainder parser argv argc calls w hr t ht
        exact ⟨i, h1, h2, h4⟩
      · exact ⟨w.env.i, reaches_cursor_pos parser argv argc calls w hr, hi, ht,
          by rw [ht]; exact htok⟩

/-- A parse does not depend on the remainder collection of the registry it is
given. -/
theorem oparser_parse_start (p q : OptionParser) (argv : List (List Char)) (argc : Nat)
    (calls : List Call) (hopt : p.options = q.options) (hfix : p.fixed = q.fixed) :
    oparser_parse p argv argc calls = oparser_parse q argv argc calls := by
  have h : parse_start p calls = parse_start q calls := by
    rw [parse_start_eq, parse_start_eq]
    simp only [OptionParser.fixed, Prod.mk.injEq] at hfix
    cases p
    cases q
    simp only at hopt hfix
    obtain ⟨h1, h2, h3⟩ := hfix
    subst hopt h1 h2 h3
    rfl
  unfold oparser_parse
  rw [h]

/-! ## A second preservation principle: failures record an error -/

theorem parse_name_preserves_err (P : World → Prop) (argv : List (List Char)) (argc : Nat)
    (hfail : ∀ w e v, e ≠ PE_NONE → P w → P (w.fail e v))
    (hmark : ∀ w k O, P w → w.parser.options[k]? = some O → P (w.mark k O))
    (hcall : ∀ w c, P w → P (w.call c))
    (hsub : ∀ w k O, P w → w.parser.options[k]? = some O →
      P (enter_sub_options argv argc k O w))
    (s : List Char) (start : Nat) (w : World) (hw : P w) :
    P (parse_name argv argc s start w) := by
  unfold parse_name
  simp only
  split
  · exact hfail _ _ _ (by decide) hw
  · split
    · exact hw
    · rename_i k _ _ O hO
      rcases option_encounter_cases O.base with h | h
      · have e : O.with_base O.base = O := rfl
        simp only [h, e, set_same _ _ _ hO]
        exact hfail _ _ _ (by decide) hw
      · simp only [h]
        have hm := hmark w k O hw hO
        repeat' split
        all_goals first
          | exact hfail _ _ _ (by decide) hm
          | exact hsub _ k _ (hcall _ _ hm) (mark_call_get w k O _ hO)

theorem parse_alias_loop_preserves_err (P : World → Prop) (argv : List (List Char))
    (argc : Nat)
    (hfail : ∀ w e v, e ≠ PE_NONE → P w → P (w.fail e v))
    (hmark : ∀ w k O, P w → w.parser.options[k]? = some O → P (w.mark k O))
    (hcall : ∀ w c, P w → P (w.call c))
    (hcount : ∀ w, P w → P w.count_option)
    (hsub : ∀ w k O, P w → w.parser.options[k]? = some O →
      P (enter_sub_options argv argc k O w))
    (s : List Char) (fuel start count : Nat) (w : World) (hw : P w) :
    P (parse_alias_loop argv argc s fuel start count w) := by
  have hend : ∀ start count (w : World), P w → P (parse_alias_end s start count w) := by
    intro start count w hw
    unfold parse_alias_end
    split
    · exact hw
    · exact hfail _ _ _ (by decide) hw
  induction fuel generalizing start count w with
  | zero => exact hend _ _ _ hw
  | succ fuel ih =>
    unfold parse_alias_loop
    simp only
    split
    · split
      · exact hfail _ _ _ (by decide) hw
      · split
        · exact hw
        · rename_i k _ _ O hO
          rcases option_encounter_cases O.base with h | h
          · have e : O.with_base O.base = O := rfl
            simp only [h, e, set_same _ _ _ hO]
            exact hfail _ _ _ (by decide) hw
          · simp only [h]
            have hm := hmark w k O hw hO
            repeat' split
            all_goals first
              | exact hfail _ _ _ (by decide) hm
              | exact ih _ _ _ (hsub _ k _ (hcall _ _ hm) (mark_call_get w k O _ hO))
              | exact ih _ _ _ (hsub _ k _ (hcount _ (hcall _ _ hm))
                  (mark_call_count_get w k O _ hO))
    · exact hend _ _ _ hw

theorem parse_string_preserves_err (P : World → Prop) (argv : List (List Char)) (argc : Nat)
    (hfail : ∀ w e v, e ≠ PE_NONE → P w → P (w.fail e v))
    (hmark : ∀ w k O, P w → w.parser.options[k]? = some O → P (w.mark k O))
    (hcall : ∀ w c, P w → P (w.call c))
    (hcount : ∀ w, P w → P w.count_option)
    (hsub : ∀ w k O, P w → w.parser.options[k]? = some O →
      P (enter_sub_options argv argc k O w))
    (hrem : ∀ w, P w → P (w.push_remainder argv))
    (s : List Char) (start : Nat) (w : World) (hw : P w) :
    P (parse_string argv argc s start w) := by
  unfold parse_string parse_alias
  repeat' split
  all_goals first
    | exact parse_name_preserves_err P argv argc hfail hmark hcall hsub _ _ w hw
    | exact parse_alias_loop_preserves_err P argv argc hfail hmark hcall hcount hsub _ _ _ _ w hw
    | exact hfail _ _ _ (by decide) hw
    | exact hrem _ hw

/-! ## A recorded error is never taken back -/

theorem sub_options_end_sticky (parent_name : List Char) (parser : OptionSubParser) (e : Env)
    (h : e.result.error ≠ PE_NONE) :
    (sub_options_end parent_name parser e).2.result.error ≠ PE_NONE := by
  unfold sub_options_end
  simp only
  split
  · simp [Env.fail]
  · exact h

theorem parse_sub_options_loop_sticky (parent_name : List Char) (argv : List (List Char))
    (argc fuel : Nat) (parser : OptionSubParser) (e : Env) (h : e.result.error ≠ PE_NONE) :
    (parse_sub_options_loop parent_name argv argc fuel parser e).2.result.error ≠ PE_NONE := by
  induction fuel generalizing parser e with
  | zero => exact sub_options_end_sticky parent_name parser e h
  | succ fuel ih =>
    unfold parse_sub_options_loop
    simp only
    repeat' split
    all_goals first
      | exact sub_options_end_sticky parent_name parser e h
      | (simp [Env.fail]; done)
      | exact h
      | (apply ih; exact h)

theorem enter_sub_options_sticky (argv : List (List Char)) (argc k : Nat) (O : OptionDef)
    (w : World) (h : w.env.result.error ≠ PE_NONE) :
    (enter_sub_options argv argc k O w).env.result.error ≠ PE_NONE := by
  unfold enter_sub_options
  split
  · exact h
  · exact parse_sub_options_loop_sticky _ _ _ _ _ _ h

theorem parse_string_sticky (argv : List (List Char)) (argc : Nat) (s : List Char)
    (start : Nat) (w : World) (h : w.env.result.error ≠ PE_NONE) :
    (parse_string argv argc s start w).env.result.error ≠ PE_NONE := by
  apply parse_string_preserves_err (fun w' => w'.env.result.error ≠ PE_NONE) argv argc
  · intro w1 e v he _; exact he
  · intro w1 k O h1 _; exact h1
  · intro w1 c h1; exact h1
  · intro w1 h1; exact h1
  · intro w1 k O h1 _; exact enter_sub_options_sticky _ _ _ _ _ h1
  · intro w1 h1; exact h1
  · exact h

/-! ## A successful parse leaves the registry as it found it -/

theorem clear_bit_idem (f : Nat) (h : check_flag f ___OF_ENCOUNTERED = false) :
    f ^^^ (f &&& ___OF_ENCOUNTERED) = f := by
  have h0 := check_flag_one f
  simp only [___OF_ENCOUNTERED] at h
  rw [h] at h0
  apply Nat.eq_of_testBit_eq
  intro i
  simp only [___OF_ENCOUNTERED, Nat.testBit_xor, Nat.testBit_and]
  cases i with
  | zero => simp [← h0]
  | succ i =>
    have h1 : (1 : Nat).testBit (i + 1) = false := by simp [Nat.testBit_succ]
    simp [h1]

theorem clear_bit_set (f : Nat) :
    (f ||| ___OF_ENCOUNTERED) ^^^ ((f ||| ___OF_ENCOUNTERED) &&& ___OF_ENCOUNTERED) =
      f ^^^ (f &&& ___OF_ENCOUNTERED) := by
  apply Nat.eq_of_testBit_eq
  intro i
  simp only [___OF_ENCOUNTERED, Nat.testBit_xor, Nat.testBit_and, Nat.testBit_or]
  cases i with
  | zero => cases f.testBit 0 <;> simp
  | succ i =>
    have h1 : (1 : Nat).testBit (i + 1) = false := by simp [Nat.testBit_succ]
    simp [h1]

theorem clear_encountered_of_clear (o : OptionBase) (h : encountered o = false) :
    clear_encountered o = o := by
  unfold clear_encountered
  rw [clear_bit_idem o.flags h]

/-- Clearing the bit after `option_encounter_is_valid` gives what clearing it
before gives. -/
theorem clear_encountered_valid (o : OptionBase) :
    clear_encountered (option_encounter_is_valid o).2 = clear_encountered o := by
  rcases option_encounter_cases o with h | h
  · rw [h]
  · rw [h]
    simp only [clear_encountered, clear_bit_set]

theorem verify_required_options_none {α : Type} (base : α → OptionBase)
    (with_base : α → OptionBase → α) (l : List α)
    (h : (verify_required_options base with_base l).1 = none) :
    (verify_required_options base with_base l).2 =
      l.map (fun o => with_base o (clear_encountered (base o))) := by
  induction l with
  | nil => rfl
  | cons o os ih =>
    unfold verify_required_options at h ⊢
    split at h
    · simp at h
    · rename_i hc
      simp only [hc, if_false, Bool.false_eq_true] at h ⊢
      simp only [List.map_cons, ih h]

theorem map_set_same {α β : Type} (f : α → β) (l : List α) (k : Nat) (x y : α)
    (hx : l[k]? = some x) (hf : f y = f x) : (l.set k y).map f = l.map f := by
  rw [List.map_set, hf]
  exact set_same _ _ _ (by rw [List.getElem?_map, hx]; rfl)

theorem sub_clear_unmark (sp : OptionSubParser) (h : sub_clear sp = true) :
    sp.options.map SubOption.unmark = sp.options := by
  unfold sub_clear at h
  rw [List.all_eq_true] at h
  conv_rhs => rw [← List.map_id sp.options]
  apply List.map_congr_left
  intro S hS
  have := h S hS
  simp only [Bool.not_eq_true'] at this
  simp only [SubOption.unmark, SubOption.with_base, clear_encountered_of_clear _ this, id]

theorem sub_options_end_restores (parent_name : List Char) (sp0 sp : OptionSubParser) (e : Env)
    (hopt : sp.options.map SubOption.unmark = sp0.options)
    (hflags : sp.flags = sp0.flags) (hdata : sp.data = sp0.data)
    (hhandler : sp.handler = sp0.handler) :
    (sub_options_end parent_name sp e).2.result.error = PE_NONE →
    (sub_options_end parent_name sp e).1 = sp0 := by
  unfold sub_options_end
  simp only
  split
  · intro h; simp [Env.fail] at h
  · rename_i hnone
    intro _
    rw [verify_required_options_none _ _ _ hnone]
    cases sp0
    cases sp
    simp only at hopt hflags hdata hhandler
    subst hflags hdata hhandler
    simp only [OptionSubParser.mk.injEq, and_true]
    exact hopt

/-- A sub-option group that ends without an error leaves its sub-registry with
every encountered bit cleared. -/
theorem parse_sub_options_loop_restores (parent_name : List Char) (argv : List (List Char))
    (argc fuel : Nat) (sp0 sp : OptionSubParser) (e : Env)
    (hopt : sp.options.map SubOption.unmark = sp0.options)
    (hflags : sp.flags = sp0.flags) (hdata : sp.data = sp0.data)
    (hhandler : sp.handler = sp0.handler) :
    (parse_sub_options_loop parent_name argv argc fuel sp e).2.result.error = PE_NONE →
    (parse_sub_options_loop parent_name argv argc fuel sp e).1 = sp0 := by
  induction fuel generalizing sp e with
  | zero => exact sub_options_end_restores parent_name sp0 sp e hopt hflags hdata hhandler
  | succ fuel ih =>
    unfold parse_sub_options_loop
    simp only
    repeat' split
    all_goals first
      | exact sub_options_end_restores parent_name sp0 sp e hopt hflags hdata hhandler
      | (intro h; simp [Env.fail] at h; done)
      | (rename_i k hscan _ hnone
         have hk := scan_for_name_lt _ _ _ hscan
         rw [List.length_map] at hk
         rw [List.getElem?_eq_getElem hk] at hnone
         exact absurd hnone (by simp))
      | (rename_i S hS _ _ _
         apply ih
         · simp only
           rw [map_set_same SubOption.unmark _ _ S _ hS, hopt]
           simp only [SubOption.unmark, SubOption.with_base, clear_encountered_valid]
         · exact hflags
         · exact hdata
         · exact hhandler)
      | (rename_i S hS _ _ _ _ _
         apply ih
         · simp only
           rw [map_set_same SubOption.unmark _ _ S _ hS, hopt]
           simp only [SubOption.unmark, SubOption.with_base, clear_encountered_valid]
         · exact hflags
         · exact hdata
         · exact hhandler)

theorem all_clear_unmark (p0 : OptionParser) (h : all_clear p0 = true) :
    p0.options.map OptionDef.unmark = p0.options := by
  unfold all_clear at h
  rw [List.all_eq_true] at h
  conv_rhs => rw [← List.map_id p0.options]
  apply List.map_congr_left
  intro O hO
  have := h O hO
  simp only [Bool.and_eq_true, Bool.not_eq_true'] at this
  simp only [OptionDef.unmark, OptionDef.with_base, clear_encountered_of_clear _ this.1, id]

theorem all_clear_sub (p0 : OptionParser) (h : all_clear p0 = true) (O : OptionDef)
    (hO : O ∈ p0.options) (sp : OptionSubParser) (hsp : O.sub_options = some sp) :
    sub_clear sp = true := by
  unfold all_clear at h
  rw [List.all_eq_true] at h
  have := h O hO
  simp only [Bool.and_eq_true, hsp] at this
  exact this.2

/-- A sub-option group entered in a pass on a registry that had all bits clear:
if it ends without an error, the registry is, up to the encountered bits of the
top-level options, the one the pass started with. -/
theorem enter_sub_options_restores (p0 : OptionParser) (hclear : all_clear p0 = true)
    (argv : List (List Char)) (argc k : Nat) (O : OptionDef) (w : World)
    (hJ : w.env.result.error = PE_NONE → w.parser.options.map OptionDef.unmark = p0.options)
    (hO : w.parser.options[k]? = some O) :
    (enter_sub_options argv argc k O w).env.result.error = PE_NONE →
    (enter_sub_options argv argc k O w).parser.options.map OptionDef.unmark = p0.options := by
  unfold enter_sub_options parse_sub_options
  split
  · exact hJ
  · rename_i sub hsub
    simp only
    intro hok
    have hw : w.env.result.error = PE_NONE := by
      by_contra hne
      exact parse_sub_options_loop_sticky _ _ _ _ _ _ hne hok
    have hopt := hJ hw
    have hmem : O.unmark ∈ p0.options := by
      rw [← hopt]
      exact List.mem_map_of_mem _ (List.getElem?_mem hO)
    have hsc := all_clear_sub p0 hclear O.unmark hmem sub hsub
    have hres := parse_sub_options_loop_restores O.base.name argv argc (argc - (w.env.i + 1))
      sub sub w.env (sub_clear_unmark sub hsc) rfl rfl rfl hok
    rw [hres]
    have hsame : ({ O with sub_options := some sub } : OptionDef) = O := by
      cases O
      simp only at hsub
      subst hsub
      rfl
    rw [hsame, set_same _ _ _ hO]
    exact hopt

theorem parse_string_restores (p0 : OptionParser) (hclear : all_clear p0 = true)
    (argv : List (List Char)) (argc : Nat) (s : List Char) (start : Nat) (w : World)
    (hJ : w.env.result.error = PE_NONE → w.parser.options.map OptionDef.unmark = p0.options) :
    (parse_string argv argc s start w).env.result.error = PE_NONE →
    (parse_string argv argc s start w).parser.options.map OptionDef.unmark = p0.options := by
  apply parse_string_preserves_err
    (fun w' => w'.env.result.error = PE_NONE →
      w'.parser.options.map OptionDef.unmark = p0.options) argv argc
  · intro w1 e v he _ h
    exact absurd h he
  · intro w1 k O h hO herr
    have := h herr
    simp only [World.mark]
    rw [map_set_same OptionDef.unmark _ _ O _ hO]
    · exact this
    · simp only [OptionDef.unmark, OptionDef.mark, OptionDef.with_base, clear_encountered,
        clear_bit_set]
  · intro w1 c h; exact h
  · intro w1 h; exact h
  · intro w1 k O h hO
    exact enter_sub_options_restores p0 hclear argv argc k O w1 h hO
  · intro w1 h; exact h
  · exact hJ

theorem reaches_restored (p0 : OptionParser) (hclear : all_clear p0 = true)
    (argv : List (List Char)) (argc : Nat) (calls : List Call) (w : World)
    (hr : Reaches p0 argv argc calls w) :
    w.parser.options.map OptionDef.unmark = p0.options := by
  induction hr with
  | start =>
    rw [parse_start_eq]
    exact all_clear_unmark p0 hclear
  | step w _ _ herr ih =>
    exact parse_string_restores p0 hclear argv argc _ 0 w (fun _ => ih) herr

/-- A parse that returns `PE_NONE` on a registry with all encountered bits clear
leaves the definitions, sub-registries included, and the flags, handler and data
of the registry as they were. -/
theorem parse_success_restores (p0 : OptionParser) (hclear : all_clear p0 = true)
    (argv : List (List Char)) (argc : Nat) (calls : List Call)
    (hok : (oparser_parse p0 argv argc calls).env.result.error = PE_NONE) :
    (oparser_parse p0 argv argc calls).parser.options = p0.options ∧
    (oparser_parse p0 argv argc calls).parser.fixed = p0.fixed := by
  rcases parse_outcome p0 argv argc calls with ⟨w, hr, _, he⟩ | ⟨w, hr, _, hne, he⟩
  · have hfix := reaches_fixed p0 argv argc calls w hr
    have hopt := reaches_restored p0 hclear argv argc calls w hr
    rw [he] at hok ⊢
    unfold parse_end at hok ⊢
    simp only at hok ⊢
    split at hok
    · simp [World.fail, Env.fail] at hok
    · rename_i hnone
      simp only [hnone]
      rw [verify_required_options_none _ _ _ hnone]
      exact ⟨hopt, hfix⟩
  · rw [he] at hok
    exact absurd hok hne

theorem after_parses_same (p0 p : OptionParser) (hclear : all_clear p0 = true)
    (h : AfterParses p0 p) : p.options = p0.options ∧ p.fixed = p0.fixed := by
  induction h with
  | fresh => exact ⟨rfl, rfl⟩
  | call p argv argc calls _ hok ih =>
    have hc : all_clear p = true := by
      unfold all_clear at hclear ⊢
      rw [ih.1]; exact hclear
    have := parse_success_restores p hc argv argc calls hok
    exact ⟨this.1.trans ih.1, this.2.trans ih.2⟩

/-! ## The context of an error of a sub-option group -/

theorem option_encounter_keys (o : OptionBase) :
    (option_encounter_is_valid o).2.name = o.name ∧
    (option_encounter_is_valid o).2.name_length = o.name_length ∧
    check_flag (option_encounter_is_valid o).2.flags OF_REQUIRED =
      check_flag o.flags OF_REQUIRED := by
  rcases option_encounter_cases o with h | h
  · rw [h]; exact ⟨rfl, rfl, rfl⟩
  · rw [h]; exact ⟨rfl, rfl, check_flag_set_required _⟩

/-- The function `scan_for_name` reads only the names and their stored lengths. -/
theorem scan_for_name_keys (s : List Char) (l l' : List OptionBase)
    (h : l.map (fun o => (o.name, o.name_length)) = l'.map (fun o => (o.name, o.name_length))) :
    scan_for_name s l = scan_for_name s l' := by
  induction l generalizing l' with
  | nil =>
    cases l' with
    | nil => rfl
    | cons a t => simp at h
  | cons o os ih =>
    cases l' with
    | nil => simp at h
    | cons a t =>
      simp only [List.map_cons, List.cons.injEq, Prod.mk.injEq] at h
      obtain ⟨⟨hn, hl⟩, ht⟩ := h
      unfold scan_for_name
      rw [hn, hl, ih t ht]

/-- Setting the encountered bit of one sub-option changes no look-up. -/
theorem scan_for_name_set (s : List Char) (sp : OptionSubParser) (k : Nat) (S : SubOption)
    (hS : sp.options[k]? = some S) :
    scan_for_name s
        ((sp.options.set k (S.with_base (option_encounter_is_valid S.base).2)).map
          SubOption.base) =
      scan_for_name s (sp.options.map SubOption.base) := by
  apply scan_for_name_keys
  rw [List.map_map, List.map_map]
  apply map_set_same _ _ _ S _ hS
  simp only [Function.comp, SubOption.with_base, (option_encounter_keys S.base).1,
    (option_encounter_keys S.base).2.1]

/-- An error context of the group with one more encountered bit set is an error
context of the group. -/
theorem sub_error_context_set (parent_name : List Char) (argv : List (List Char))
    (sp : OptionSubParser) (k : Nat) (S : SubOption) (e : Env)
    (hS : sp.options[k]? = some S)
    (h : sub_error_context parent_name argv
      { sp with options := sp.options.set k (S.with_base (option_encounter_is_valid S.base).2) }
      e) :
    sub_error_context parent_name argv sp e := by
  obtain ⟨j, S', hS', hctx, hkind⟩ := h
  simp only at hS'
  have hk : k < sp.options.length := by
    by_contra hc
    rw [List.getElem?_eq_none (by omega)] at hS
    exact absurd hS (by simp)
  rw [scan_for_name_set _ sp k S hS] at hkind
  by_cases hjk : k = j
  · subst hjk
    rw [List.getElem?_set_self hk, Option.some.injEq] at hS'
    subst hS'
    refine ⟨k, S, hS, ?_, ?_⟩
    · rw [hctx]
      simp only [SubOption.with_base, (option_encounter_keys S.base).1]
    · simpa only [SubOption.with_base, (option_encounter_keys S.base).2.2] using hkind
  · rw [List.getElem?_set_ne hjk] at hS'
    exact ⟨j, S', hS', hctx, hkind⟩

theorem sub_options_end_context (parent_name : List Char) (argv : List (List Char))
    (sp : OptionSubParser) (e : Env) (he : e.result.error = PE_NONE) :
    (sub_options_end parent_name sp e).2.result.error ≠ PE_NONE →
    sub_error_context parent_name argv sp (sub_options_end parent_name sp e).2 := by
  have hfound := verify_required_options_found SubOption.base SubOption.with_base sp.options
  unfold sub_options_end
  simp only
  split
  · rename_i invalid hsome
    intro _
    rw [hsome] at hfound
    cases hf : sp.options.find? (fun o => required_missing o.base) with
    | none => rw [hf] at hfound; simp at hfound
    | some S =>
      rw [hf] at hfound
      simp only [Option.map_some', Option.some.injEq] at hfound
      have hmem := List.mem_of_find?_eq_some hf
      have hreq := List.find?_some hf
      obtain ⟨j, hj⟩ := List.mem_iff_getElem?.1 hmem
      refine ⟨j, S, hj, ?_, Or.inl ⟨rfl, ?_⟩⟩
      · simp only [Env.fail, hfound]
      · simp only [required_missing, Bool.and_eq_true] at hreq
        exact hreq.1
  · intro h
    exact absurd he h

/-- Every error that the loop of `parse_sub_options` records is an error of the
group, with a context made of the parent name, a dot and a sub-option name. -/
theorem parse_sub_options_loop_context (parent_name : List Char) (argv : List (List Char))
    (argc fuel : Nat) (sp : OptionSubParser) (e : Env) (he : e.result.error = PE_NONE) :
    (parse_sub_options_loop parent_name argv argc fuel sp e).2.result.error ≠ PE_NONE →
    sub_error_context parent_name argv sp
      (parse_sub_options_loop parent_name argv argc fuel sp e).2 := by
  induction fuel generalizing sp e with
  | zero => exact sub_options_end_context parent_name argv sp e he
  | succ fuel ih =>
    unfold parse_sub_options_loop
    simp only
    repeat' split
    all_goals first
      | exact sub_options_end_context parent_name argv sp e he
      | (intro h; exact absurd he h)
      | (exfalso
         rcases char_after_segment_zero (argv.getD (e.i + 1) []) with h1 | h1 <;> contradiction)
      | (rename_i k hscan _ S hS _
         intro _
         refine ⟨k, S, hS, ?_, Or.inr ⟨?_, hscan⟩⟩
         · simp only [Env.fail, SubOption.with_base, (option_encounter_keys S.base).1]
         · simp [Env.fail, value_error])
      | (rename_i k hscan _ S hS _ _ _
         intro _
         refine ⟨k, S, hS, ?_, Or.inr ⟨?_, hscan⟩⟩
         · simp only [Env.fail, SubOption.with_base, (option_encounter_keys S.base).1]
         · simp [Env.fail, value_error])
      | (rename_i k hscan _ S hS _ _ _ _
         intro _
         refine ⟨k, S, hS, ?_, Or.inr ⟨?_, hscan⟩⟩
         · simp only [Env.fail, SubOption.with_base, (option_encounter_keys S.base).1]
         · simp [Env.fail, value_error])
      | (rename_i k hscan _ S hS _ _ _ _ _
         intro _
         refine ⟨k, S, hS, ?_, Or.inr ⟨?_, hscan⟩⟩
         · simp only [Env.fail, SubOption.with_base, (option_encounter_keys S.base).1]
         · simp [Env.fail, value_error])
      | (rename_i k hscan _ S hS _ _ _
         intro h
         exact sub_error_context_set parent_name argv sp k S _ hS (ih _ _ he h))
      | (rename_i k hscan _ S hS _ _ _ _ _
         intro h
         exact sub_error_context_set parent_name argv sp k S _ hS (ih _ _ he h))

theorem enter_sub_options_env (argv : List (List Char)) (argc k : Nat) (P : OptionDef)
    (sp : OptionSubParser) (w : World) (hsub : P.sub_options = some sp) :
    (enter_sub_options argv argc k P w).env =
      (parse_sub_options sp P.base.name argv argc w.env).2 := by
  unfold enter_sub_options
  simp only [hsub]

theorem sub_reaches_cursor (argv : List (List Char)) (argc : Nat)
    (sp0 : OptionSubParser) (e0 : Env) (js : List Nat) (sp : OptionSubParser) (e : Env)
    (h : SubReaches argv argc sp0 e0 js sp e) : e.i = e0.i + js.length := by
  induction h with
  | start => rfl
  | step js sp e N V j S _ _ _ _ _ _ _ _ _ ih =>
    simp only [Env.consume, List.length_append, List.length_singleton, ih]
    omega

/-- What the block that ends a sub-option group leaves: the sub-registry aside,
the environment as it was, or with `PE_REQUIRED_MISSING` recorded. -/
theorem sub_options_end_env (parent_name : List Char) (sp : OptionSubParser) (e : Env) :
    (sub_options_end parent_name sp e).2 = e ∨
    ∃ v, (sub_options_end parent_name sp e).2 = e.fail PE_REQUIRED_MISSING v := by
  unfold sub_options_end
  simp only
  split
  · exact Or.inr ⟨_, rfl⟩
  · exact Or.inl rfl

/-! ## First match, and what the required-option scan leaves -/

/-- The result of `scan_for_alias` is the first index whose definition has the alias. -/
theorem scan_for_alias_some_iff (c : Char) (bases : List OptionBase) (k : Nat) :
    scan_for_alias c bases = some k ↔
      (∃ o, bases[k]? = some o ∧ o.alias_ = char_int c) ∧
      ∀ j, j < k → ∀ o, bases[j]? = some o → o.alias_ ≠ char_int c := by
  induction bases generalizing k with
  | nil => simp [scan_for_alias]
  | cons o os ih =>
    unfold scan_for_alias
    by_cases hm : o.alias_ = char_int c
    · rw [if_pos hm]
      constructor
      · intro h
        have hk : k = 0 := by simpa using h.symm
        subst hk
        exact ⟨⟨o, List.getElem?_cons_zero, hm⟩, fun j hj => absurd hj (Nat.not_lt_zero j)⟩
      · rintro ⟨_, h2⟩
        cases k with
        | zero => rfl
        | succ k' => exact absurd hm (h2 0 (Nat.succ_pos _) o List.getElem?_cons_zero)
    · rw [if_neg hm]
      cases k with
      | zero =>
        constructor
        · intro h
          simp at h
        · rintro ⟨⟨o', h1, h2⟩, _⟩
          simp only [List.getElem?_cons_zero, Option.some.injEq] at h1
          subst h1
          exact absurd h2 hm
      | succ k' =>
        simp only [Option.map_eq_some', Nat.add_right_cancel_iff, exists_eq_right,
          List.getElem?_cons_succ]
        rw [ih k']
        constructor
        · rintro ⟨h1, h2⟩
          refine ⟨h1, ?_⟩
          intro j hj o' hj'
          cases j with
          | zero =>
            simp only [List.getElem?_cons_zero, Option.some.injEq] at hj'
            subst hj'
            exact hm
          | succ j' =>
            simp only [List.getElem?_cons_succ] at hj'
            exact h2 j' (Nat.lt_of_succ_lt_succ hj) o' hj'
        · rintro ⟨h1, h2⟩
          refine ⟨h1, ?_⟩
          intro j hj o' hj'
          exact h2 (j + 1) (Nat.succ_lt_succ hj) o' (by simpa using hj')

/-- The result of `scan_for_alias` is `-1` exactly when no definition has the alias. -/
theorem scan_for_alias_none_iff (c : Char) (bases : List OptionBase) :
    scan_for_alias c bases = none ↔ ∀ o ∈ bases, o.alias_ ≠ char_int c := by
  induction bases with
  | nil => simp [scan_for_alias]
  | cons o os ih =>
    unfold scan_for_alias
    by_cases hm : o.alias_ = char_int c
    · rw [if_pos hm]
      simp only [List.mem_cons, forall_eq_or_imp]
      constructor
      · intro h
        cases h
      · rintro ⟨h, _⟩
        exact absurd hm h
    · rw [if_neg hm]
      simp only [Option.map_eq_none', List.mem_cons, forall_eq_or_imp, ih]
      exact ⟨fun h => ⟨hm, h⟩, fun h => h.2⟩

/-- What `verify_required_options` leaves when it reports a definition: the
definitions before the reported one with their bit cleared, the reported one and
those after it as they were. -/
theorem verify_required_options_some {α : Type} (base : α → OptionBase)
    (with_base : α → OptionBase → α) (l : List α) (invalid : OptionBase)
    (h : (verify_required_options base with_base l).1 = some invalid) :
    ∃ pre S post, l = pre ++ S :: post ∧ base S = invalid ∧
      required_missing (base S) = true ∧
      (∀ o ∈ pre, required_missing (base o) = false) ∧
      (verify_required_options base with_base l).2 =
        pre.map (fun o => with_base o (clear_encountered (base o))) ++ S :: post := by
  induction l with
  | nil => simp [verify_required_options] at h
  | cons o os ih =>
    unfold verify_required_options at h ⊢
    have ht := required_test (base o).flags
    by_cases hc : ((base o).flags &&& (___OF_ENCOUNTERED ||| OF_REQUIRED)) == OF_REQUIRED
    · simp only [hc, if_true, Option.some.injEq] at h ⊢
      refine ⟨[], o, os, rfl, h, ?_, ?_, rfl⟩
      · rw [hc] at ht
        simp only [required_missing, encountered]
        exact ht.symm
      · intro x hx
        simp at hx
    · simp only [hc, if_false, Bool.false_eq_true] at h ⊢
      obtain ⟨pre, S, post, hl, hS, hreq, hpre, hres⟩ := ih h
      refine ⟨o :: pre, S, post, by rw [hl]; rfl, hS, hreq, ?_, ?_⟩
      · intro x hx
        rcases List.mem_cons.1 hx with hx | hx
        · subst hx
          simp only [required_missing, encountered]
          rw [← ht]
          simpa using hc
        · exact hpre x hx
      · rw [hres]
        rfl

/-! ## Accepted alias runs without sub-registries -/

/-- One turn of the loop of `parse_alias` on a character whose option requires a
value. -/
theorem parse_alias_loop_value_missing (argv : List (List Char)) (argc : Nat) (s : List Char)
    (f n : Nat) (w : World) (k : Nat) (O : OptionDef)
    (hal : isalnum (char_at s (1 + n)) = true)
    (hscan : scan_for_alias (char_at s (1 + n)) (w.parser.options.map OptionDef.base) = some k)
    (hO : w.parser.options[k]? = some O)
    (hdup : encountered O.base = false ∨ check_flag O.base.flags OF_DUPLICATES_ALLOWED = true)
    (hreq : check_flag O.base.flags OF_VALUE_REQUIRED = true) :
    parse_alias_loop argv argc s (f + 1) 1 n w =
      (w.mark k O).fail PE_VALUE_MISSING (snprintf ERROR_BUFFER_SIZE O.base.name) := by
  conv_lhs => unfold parse_alias_loop
  simp only [hal, if_true, hscan, hO, option_encounter_ok O.base hdup, Bool.not_true,
    Bool.false_eq_true, if_false, OptionDef.with_base, check_flag_set_value_required, hreq]
  rfl

/-- An alias run whose options own no sub-registry: one handler call and one
`options_parsed++` for each character, nothing else. -/
theorem alias_reaches_plain (argv : List (List Char)) (argc : Nat) (s : List Char)
    (w0 : World) (ks : List Nat) (w : World) (h : AliasReaches argv argc s w0 ks w)
    (hns : ∀ k ∈ ks, ∀ O, w0.parser.options[k]? = some O → O.sub_options = none) :
    w.env.calls = w0.env.calls ++ ks.filterMap (option_call w0.parser) ∧
    (ks.filterMap (option_call w0.parser)).length = ks.length ∧
    w.env.result = { w0.env.result with
      options_parsed := w0.env.result.options_parsed + ks.length } ∧
    w.env.i = w0.env.i ∧
    w.parser.options.map OptionDef.key = w0.parser.options.map OptionDef.key ∧
    w.parser.fixed = w0.parser.fixed ∧ w.parser.remainder = w0.parser.remainder := by
  induction h with
  | start => simp
  | step ks w k O hprev hal hscan hO hdup hreq hset ih =>
    have hns' : ∀ k ∈ ks, ∀ O, w0.parser.options[k]? = some O → O.sub_options = none :=
      fun j hj => hns j (List.mem_append_left _ hj)
    obtain ⟨hcalls, hlen, hres, hi, hkey, hfix, hrem⟩ := ih hns'
    have hk0 : (w0.parser.options.map OptionDef.key)[k]? = some O.key := by
      rw [← hkey, List.getElem?_map, hO]; rfl
    rw [List.getElem?_map] at hk0
    cases hO0 : w0.parser.options[k]? with
    | none => rw [hO0] at hk0; simp at hk0
    | some O0 =>
      rw [hO0] at hk0
      simp only [Option.map_some', Option.some.injEq, OptionDef.key, Prod.mk.injEq] at hk0
      obtain ⟨hname, halias, hsubeq⟩ := hk0
      have hsub0 := hns k (List.mem_append_right _ (List.mem_singleton_self k)) O0 hO0
      have hsub : O.mark.sub_options = none := by
        show O.sub_options = none
        rw [← hsubeq]; exact hsub0
      rw [enter_sub_options_none argv argc k O.mark _ hsub]
      simp only [OptionParser.fixed, Prod.mk.injEq] at hfix
      have hcall : option_call w0.parser k =
          some ⟨w.parser.handler, O.base.name, O.base.alias_, none, w.parser.data⟩ := by
        simp only [option_call, hO0, Option.map_some', hname, halias, hfix.2.1, hfix.2.2]
      refine ⟨?_, ?_, ?_, hi, ?_, ?_, hrem⟩
      · simp only [World.count_option, World.call, Env.call, World.mark, hcalls,
          List.filterMap_append, List.filterMap_cons, hcall, List.filterMap_nil,
          List.append_assoc]
      · simp only [List.filterMap_append, List.filterMap_cons, hcall, List.filterMap_nil,
          List.length_append, hlen, List.length_singleton]
      · simp only [World.count_option, World.call, Env.call, World.mark, hres,
          List.length_append, List.length_singleton, Nat.add_assoc]
      · simp only [World.count_option, World.call, World.mark]
        rw [map_set_same OptionDef.key _ _ O O.mark hO rfl]
        exact hkey
      · simp only [OptionParser.fixed, Prod.mk.injEq]
        exact hfix

/-! ## The cursor stays below `argc` -/

theorem parse_sub_options_loop_lt (parent_name : List Char) (argv : List (List Char))
    (argc fuel : Nat) (parser : OptionSubParser) (e : Env) (h : e.i < argc) :
    (parse_sub_options_loop parent_name argv argc fuel parser e).2.i < argc := by
  induction fuel generalizing parser e with
  | zero => rw [parse_sub_options_loop, sub_options_end_i]; exact h
  | succ fuel ih =>
    unfold parse_sub_options_loop
    simp only
    repeat' split
    all_goals first
      | (rw [sub_options_end_i]; exact h)
      | (simp only [Env.fail]; assumption)
      | assumption
      | (apply ih; simp only [Env.call]; assumption)

theorem enter_sub_options_lt (argv : List (List Char)) (argc k : Nat) (O : OptionDef)
    (w : World) (h : w.env.i < argc) : (enter_sub_options argv argc k O w).env.i < argc := by
  unfold enter_sub_options
  split
  · exact h
  · exact parse_sub_options_loop_lt _ _ _ _ _ _ h

/-- Processing a token never moves the cursor to `argc` or beyond. -/
theorem parse_string_lt (argv : List (List Char)) (argc : Nat) (s : List Char) (start : Nat)
    (w : World) (h : w.env.i < argc) : (parse_string argv argc s start w).env.i < argc := by
  apply parse_string_preserves (fun w' => w'.env.i < argc) argv argc
  · intro w1 e v h1; exact h1
  · intro w1 k O h1 _; exact h1
  · intro w1 c h1; exact h1
  · intro w1 h1; exact h1
  · intro w1 k O h1 _; exact enter_sub_options_lt _ _ _ _ _ h1
  · intro _ _; exact h
  · exact h

theorem dispatched_reaches (parser : OptionParser) (argv : List (List Char)) (argc : Nat)
    (calls : List Call) (n : Nat) (w : World) (h : Dispatched parser argv argc calls n w) :
    Reaches parser argv argc calls w := by
  induction h with
  | start => exact Reaches.start
  | step n w _ hi herr ih => exact Reaches.step w ih hi herr

/-- The number of tokens dispatched is the number of positions passed by the cursor. -/
theorem dispatched_cursor (parser : OptionParser) (argv : List (List Char)) (argc : Nat)
    (calls : List Call) (n : Nat) (w : World) (h : Dispatched parser argv argc calls n w) :
    n + 1 = w.env.i ∧ n ≤ argc - 1 := by
  induction h with
  | start => rw [parse_start_eq]; exact ⟨rfl, Nat.zero_le _⟩
  | step n w _ hi herr ih =>
    have h1 := parse_string_i argv argc (argv.getD w.env.i []) 0 w
    have h2 := parse_string_lt argv argc (argv.getD w.env.i []) 0 w hi
    simp only [next_token]
    omega

/-- What the docstring accessors compute: in a registry whose stored name
lengths are the lengths of the names, `oparser_option_docstring` yields the doc
string of the first option, in registration order, whose name equals the first
characters of the text `s`, and `none` exactly when no registered name is the
beginning of `s`; `oparser_suboption_docstring` finds the option in the same
way, yields `none` when there is none or when it owns no sub-registry, and
otherwise the doc string of the first sub-option whose name is the beginning of
the text `t`, `none` exactly when there is none. -/
theorem docstring_scan_result (parser : OptionParser) (s t : List Char)
    (hlen : ∀ o ∈ parser.options.map OptionDef.base, o.name_length = o.name.length)
    (hsub : ∀ O ∈ parser.options, ∀ sp, O.sub_options = some sp →
      ∀ o ∈ sp.options.map SubOption.base, o.name_length = o.name.length) :
    (oparser_option_docstring parser s = none ↔
      ∀ O ∈ parser.options, s.take O.base.name.length ≠ O.base.name) ∧
    (∀ (k : Nat) (O : OptionDef), parser.options[k]? = some O → s.take O.base.name.length = O.base.name →
      (∀ j, j < k → ∀ O' : OptionDef, parser.options[j]? = some O' →
        s.take O'.base.name.length ≠ O'.base.name) →
      oparser_option_docstring parser s = some O.base.doc_string ∧
      (O.sub_options = none → oparser_suboption_docstring parser s t = none) ∧
      (∀ sp : OptionSubParser, O.sub_options = some sp →
        (oparser_suboption_docstring parser s t = none ↔
          ∀ S ∈ sp.options, t.take S.base.name.length ≠ S.base.name) ∧
        (∀ (j : Nat) (S : SubOption), sp.options[j]? = some S → t.take S.base.name.length = S.base.name →
          (∀ i, i < j → ∀ S' : SubOption, sp.options[i]? = some S' →
            t.take S'.base.name.length ≠ S'.base.name) →
          oparser_suboption_docstring parser s t = some S.base.doc_string))) ∧
    ((∀ O ∈ parser.options, s.take O.base.name.length ≠ O.base.name) →
      oparser_suboption_docstring parser s t = none) := by
  have hnone := scan_for_name_none_iff s (parser.options.map OptionDef.base) hlen
  have hnone' : scan_for_name s (parser.options.map OptionDef.base) = none ↔
      ∀ O ∈ parser.options, s.take O.base.name.length ≠ O.base.name := by
    rw [hnone]
    simp only [List.mem_map, forall_exists_index, and_imp, forall_apply_eq_imp_iff₂]
  refine ⟨?_, ?_, ?_⟩
  · rw [← hnone']
    unfold oparser_option_docstring
    cases h : scan_for_name s (parser.options.map OptionDef.base) with
    | none => simp
    | some k =>
      have hk := scan_for_name_lt _ _ _ h
      rw [List.length_map] at hk
      simp [List.getElem?_eq_getElem hk]
  · intro k O hO hm hfirst
    have hscan : scan_for_name s (parser.options.map OptionDef.base) = some k := by
      rw [scan_for_name_some_iff s _ hlen k]
      refine ⟨⟨O.base, by simp [hO], hm⟩, ?_⟩
      intro j hj o ho
      simp only [List.getElem?_map, Option.map_eq_some'] at ho
      obtain ⟨O', hO', rfl⟩ := ho
      exact hfirst j hj O' hO'
    refine ⟨?_, ?_, ?_⟩
    · unfold oparser_option_docstring
      simp only [hscan, hO]
    · intro hns
      unfold oparser_suboption_docstring
      simp only [hscan, hO, hns]
    · intro sp hsp
      have hl := hsub O (List.getElem?_mem hO) sp hsp
      have hn2 := scan_for_name_none_iff t (sp.options.map SubOption.base) hl
      refine ⟨?_, ?_⟩
      · unfold oparser_suboption_docstring
        simp only [hscan, hO, hsp]
        cases h : scan_for_name t (sp.options.map SubOption.base) with
        | none =>
          simp only [true_iff]
          have := hn2.1 h
          intro S hS
          exact this S.base (List.mem_map_of_mem _ hS)
        | some j =>
          have hj := scan_for_name_lt _ _ _ h
          rw [List.length_map] at hj
          simp only [List.getElem?_eq_getElem hj]
          refine ⟨fun hc => absurd hc (by simp), ?_⟩
          intro hall
          have : scan_for_name t (sp.options.map SubOption.base) = none := by
            rw [hn2]
            intro o ho
            simp only [List.mem_map] at ho
            obtain ⟨S, hS, rfl⟩ := ho
            exact hall S hS
          rw [this] at h
          exact absurd h (by simp)
      · intro j S hS hmS hfirstS
        have hscan2 : scan_for_name t (sp.options.map SubOption.base) = some j := by
          rw [scan_for_name_some_iff t _ hl j]
          refine ⟨⟨S.base, by simp [hS], hmS⟩, ?_⟩
          intro i hi o ho
          simp only [List.getElem?_map, Option.map_eq_some'] at ho
          obtain ⟨S', hS', rfl⟩ := ho
          exact hfirstS i hi S' hS'
        unfold oparser_suboption_docstring
        simp only [hscan, hO, hsp, hscan2, hS]
  · intro hall
    unfold oparser_suboption_docstring
    simp only [hnone'.2 hall]

/-- The look-ups of `test_parser_option_docstring`: the name `any` yields its
doc string and the text `nonoption`, of which no registered name is the
beginning, yields `none`. -/
theorem docstring_scan_result_on_tests :
    oparser_option_docstring simple_registry "any".toList =
      some "Gets or sets any value".toList ∧
    oparser_option_docstring simple_registry "nonoption".toList = none :=
  have h := docstring_scan_result simple_registry "any".toList [] (by decide) (by decide)
  have h2 := docstring_scan_result simple_registry "nonoption".toList [] (by decide) (by decide)
  ⟨(h.2.1 2 ⟨⟨"any".toList, "Gets or sets any value".toList, 3, char_int 'a', OF_NONE⟩, none⟩
      (by decide) (by decide) (by decide)).1,
    h2.1.2 (by decide)⟩

/-! ## The claims -/

/-! ### C1 -/

/-- C1: a long-form token `--N=V`, `/N=V`, `--N` or `/N` (also `-N=V`, `-N` under
dash-as-full-option) under the cursor of `oparser_parse` whose look-up yields
the option `O`, where `O` is not yet
encountered or allows duplicates, owns no sub-registry and has its value policy
met, leaves the result untouched (no error), makes exactly one handler call
`(O.name, O.alias, V)` with `V` the text after the first `=` (null without `=`),
and the loop goes on to the next token. -/
theorem long_form_token_accepted (parser : OptionParser) (argv : List (List Char)) (argc : Nat)
    (calls : List Call) (w : World) (intro N : List Char) (V : Option (List Char)) (k : Nat)
    (O : OptionDef)
    (hr : Reaches parser argv argc calls w) (hi : w.env.i < argc)
    (hintro : long_intro w.parser.flags intro (name_value N V))
    (htok : argv.getD w.env.i [] = intro ++ name_value N V)
    (hN : ∀ c ∈ N, c ≠ '=' ∧ c ≠ NUL)
    (hlook : parse_name_lookup w.parser.flags (w.parser.options.map OptionDef.base)
      (name_value N V) 0 = some k)
    (hO : w.parser.options[k]? = some O)
    (hdup : encountered O.base = false ∨ check_flag O.base.flags OF_DUPLICATES_ALLOWED = true)
    (hsub : O.sub_options = none)
    (hval : value_accepted O.base V) :
    (parse_string argv argc (argv.getD w.env.i []) 0 w).env.result = w.env.result ∧
    (parse_string argv argc (argv.getD w.env.i []) 0 w).env.result.error = PE_NONE ∧
    (parse_string argv argc (argv.getD w.env.i []) 0 w).env.calls =
      w.env.calls ++ [⟨parser.handler, O.base.name, O.base.alias_, V, parser.data⟩] ∧
    Reaches parser argv argc calls
      (next_token (parse_string argv argc (argv.getD w.env.i []) 0 w)) := by
  have hN' : ∀ c ∈ N, is_option_char c = true := by
    intro c hc
    simp [is_option_char, hN c hc]
  have hfix := reaches_fixed parser argv argc calls w hr
  simp only [OptionParser.fixed, Prod.mk.injEq] at hfix
  have hstep : parse_string argv argc (argv.getD w.env.i []) 0 w =
      (w.mark k O).call ⟨parser.handler, O.base.name, O.base.alias_, V, parser.data⟩ := by
    rw [htok, parse_string_intro argv argc intro _ w hintro,
      parse_name_accept argv argc N V w k O hN' hlook hO hdup hval, hfix.2.1, hfix.2.2]
    simp [enter_sub_options, OptionDef.mark, OptionDef.with_base, hsub]
  have herr := reaches_error parser argv argc calls w hr
  have hres : (parse_string argv argc (argv.getD w.env.i []) 0 w).env.result = w.env.result := by
    rw [hstep]; rfl
  refine ⟨hres, by rw [hres]; exact herr, by rw [hstep]; rfl, ?_⟩
  exact Reaches.step w hr hi (by rw [hres]; exact herr)

/-- C1 at `--name=Moo` on `simple_registry`. -/
theorem long_form_token_accepted_witness :
    (parse_string ["prog".toList, "--name=Moo".toList] 2 "--name=Moo".toList 0
        (parse_start simple_registry [])).env.result.error = PE_NONE ∧
    (parse_string ["prog".toList, "--name=Moo".toList] 2 "--name=Moo".toList 0
        (parse_start simple_registry [])).env.calls =
      [⟨1, "name".toList, char_int 'n', some "Moo".toList, 0⟩] :=
  have h := long_form_token_accepted simple_registry ["prog".toList, "--name=Moo".toList] 2 []
    (parse_start simple_registry []) ['-', '-'] "name".toList (some "Moo".toList) 0
    ⟨⟨"name".toList, "Sets the name".toList, 4, char_int 'n', OF_VALUE_REQUIRED⟩, none⟩
    Reaches.start (by decide) (by decide) (by decide) (by decide) (by decide) (by decide)
    (by decide) (by decide) (by decide)
  ⟨h.2.1, h.2.2.1⟩

/-! ### C2 -/

/-- C2 (amended): a long-form token without `=` under the cursor of
`oparser_parse` whose look-up yields a not-yet-encountered option `O` with
value-required makes `oparser_parse` return `PE_VALUE_MISSING`; the context is
the first 255 characters of `O`'s name (the name itself when it is shorter than
the 256-byte buffer), and no handler call is made for the token. -/
theorem value_missing_reported (parser : OptionParser) (argv : List (List Char)) (argc : Nat)
    (calls : List Call) (w : World) (intro N : List Char) (k : Nat) (O : OptionDef)
    (hr : Reaches parser argv argc calls w) (hi : w.env.i < argc)
    (hintro : long_intro w.parser.flags intro N)
    (htok : argv.getD w.env.i [] = intro ++ N)
    (hN : ∀ c ∈ N, c ≠ '=' ∧ c ≠ NUL)
    (hlook : parse_name_lookup w.parser.flags (w.parser.options.map OptionDef.base) N 0 = some k)
    (hO : w.parser.options[k]? = some O)
    (henc : encountered O.base = false)
    (hreq : check_flag O.base.flags OF_VALUE_REQUIRED = true) :
    (oparser_parse parser argv argc calls).env.result.error = PE_VALUE_MISSING ∧
    (oparser_parse parser argv argc calls).env.result.error_value = O.base.name.take 255 ∧
    (O.base.name.length < 256 →
      (oparser_parse parser argv argc calls).env.result.error_value = O.base.name) ∧
    (oparser_parse parser argv argc calls).env.calls = w.env.calls := by
  have hstep : parse_string argv argc (argv.getD w.env.i []) 0 w =
      (w.mark k O).fail PE_VALUE_MISSING (snprintf ERROR_BUFFER_SIZE O.base.name) := by
    rw [htok, parse_string_intro argv argc intro _ w hintro,
      parse_name_value_missing argv argc N w k O (is_option_char_of N hN) hlook hO
        (Or.inl henc) hreq]
  have hp := reaches_fail parser argv argc calls w hr hi (by rw [hstep]; simp [World.fail, Env.fail])
  rw [hp, hstep]
  refine ⟨rfl, rfl, ?_, rfl⟩
  intro hlen
  exact snprintf_short _ hlen

/-- C2 (amended) at `--name` on `simple_registry`. -/
theorem value_missing_reported_witness :
    (oparser_parse simple_registry ["prog".toList, "--name".toList] 2 []).env.result.error =
      PE_VALUE_MISSING ∧
    (oparser_parse simple_registry ["prog".toList, "--name".toList] 2 []).env.result.error_value =
      "name".toList ∧
    (oparser_parse simple_registry ["prog".toList, "--name".toList] 2 []).env.calls = [] :=
  have h := value_missing_reported simple_registry ["prog".toList, "--name".toList] 2 []
    (parse_start simple_registry []) ['-', '-'] "name".toList 0
    ⟨⟨"name".toList, "Sets the name".toList, 4, char_int 'n', OF_VALUE_REQUIRED⟩, none⟩
    Reaches.start (by decide) (by decide) (by decide) (by decide) (by decide) (by decide)
    (by decide) (by decide)
  ⟨h.1, h.2.2.1 (by decide), h.2.2.2⟩

/-- C2 (as stated) fails: for the option `long_name` (256 characters, value
required) the token `--` followed by that name gives `PE_VALUE_MISSING` with a
context that is not the option's name. -/
theorem value_missing_context_not_name :
    (oparser_parse (long_name_registry OF_VALUE_REQUIRED) [[], '-' :: '-' :: long_name] 2
      []).env.result.error = PE_VALUE_MISSING ∧
    (oparser_parse (long_name_registry OF_VALUE_REQUIRED) [[], '-' :: '-' :: long_name] 2
      []).env.result.error_value ≠ long_name := by
  decide

/-! ### C3 -/

/-- C3 (amended): a long-form token with `=` under the cursor of `oparser_parse`
whose look-up yields a not-yet-encountered option `O` with value-forbidden makes
`oparser_parse` return `PE_VALUE_GIVEN`, whatever follows the `=`; the context is
the first 255 characters of `O`'s name (the name itself when it is shorter than
the 256-byte buffer), and no handler call is made for the token. -/
theorem value_given_reported (parser : OptionParser) (argv : List (List Char)) (argc : Nat)
    (calls : List Call) (w : World) (intro N v : List Char) (k : Nat) (O : OptionDef)
    (hr : Reaches parser argv argc calls w) (hi : w.env.i < argc)
    (hintro : long_intro w.parser.flags intro (N ++ '=' :: v))
    (htok : argv.getD w.env.i [] = intro ++ (N ++ '=' :: v))
    (hN : ∀ c ∈ N, c ≠ '=' ∧ c ≠ NUL)
    (hlook : parse_name_lookup w.parser.flags (w.parser.options.map OptionDef.base)
      (N ++ '=' :: v) 0 = some k)
    (hO : w.parser.options[k]? = some O)
    (henc : encountered O.base = false)
    (hforbid : check_flag O.base.flags OF_VALUE_NOT_ALLOWED = true) :
    (oparser_parse parser argv argc calls).env.result.error = PE_VALUE_GIVEN ∧
    (oparser_parse parser argv argc calls).env.result.error_value = O.base.name.take 255 ∧
    (O.base.name.length < 256 →
      (oparser_parse parser argv argc calls).env.result.error_value = O.base.name) ∧
    (oparser_parse parser argv argc calls).env.calls = w.env.calls := by
  have hstep : parse_string argv argc (argv.getD w.env.i []) 0 w =
      (w.mark k O).fail PE_VALUE_GIVEN (snprintf ERROR_BUFFER_SIZE O.base.name) := by
    rw [htok, parse_string_intro argv argc intro _ w hintro,
      parse_name_value_given argv argc N v w k O (is_option_char_of N hN) hlook hO
        (Or.inl henc) hforbid]
  have hp := reaches_fail parser argv argc calls w hr hi (by rw [hstep]; simp [World.fail, Env.fail])
  rw [hp, hstep]
  refine ⟨rfl, rfl, ?_, rfl⟩
  intro hlen
  exact snprintf_short _ hlen

/-- C3 (amended) at `--time=value` on `simple_registry`. -/
theorem value_given_reported_witness :
    (oparser_parse simple_registry ["prog".toList, "--time=value".toList] 2 []).env.result.error =
      PE_VALUE_GIVEN ∧
    (oparser_parse simple_registry ["prog".toList, "--time=value".toList] 2
      []).env.result.error_value = "time".toList ∧
    (oparser_parse simple_registry ["prog".toList, "--time=value".toList] 2 []).env.calls = [] :=
  have h := value_given_reported simple_registry ["prog".toList, "--time=value".toList] 2 []
    (parse_start simple_registry []) ['-', '-'] "time".toList "value".toList 1
    ⟨⟨"time".toList, "Gets the time".toList, 4, char_int 't', OF_VALUE_NOT_ALLOWED⟩, none⟩
    Reaches.start (by decide) (by decide) (by decide) (by decide) (by decide) (by decide)
    (by decide) (by decide)
  ⟨h.1, h.2.2.1 (by decide), h.2.2.2⟩

/-- C3 (as stated) fails: for the option `long_name` (256 characters, value
forbidden) the token `--`, that name, `=v` gives `PE_VALUE_GIVEN` with a context
that is not the option's name. -/
theorem value_given_context_not_name :
    (oparser_parse (long_name_registry OF_VALUE_NOT_ALLOWED)
      [[], '-' :: '-' :: (long_name ++ ['=', 'v'])] 2 []).env.result.error = PE_VALUE_GIVEN ∧
    (oparser_parse (long_name_registry OF_VALUE_NOT_ALLOWED)
      [[], '-' :: '-' :: (long_name ++ ['=', 'v'])] 2 []).env.result.error_value ≠ long_name := by
  decide

/-! ### C4 -/

/-- C4 (amended): a long-form token `--N=` or `/N=` under the cursor of
`oparser_parse` whose look-up yields a not-yet-encountered option `O` that does
not forbid a value makes `oparser_parse` return `PE_VALUE_INVALID`; the context
is the first 255 characters of `O`'s name (the name itself when it is shorter
than the 256-byte buffer), and no handler call is made for the token. -/
theorem value_invalid_reported (parser : OptionParser) (argv : List (List Char)) (argc : Nat)
    (calls : List Call) (w : World) (intro N : List Char) (k : Nat) (O : OptionDef)
    (hr : Reaches parser argv argc calls w) (hi : w.env.i < argc)
    (hintro : long_intro w.parser.flags intro (N ++ ['=']))
    (htok : argv.getD w.env.i [] = intro ++ (N ++ ['=']))
    (hN : ∀ c ∈ N, c ≠ '=' ∧ c ≠ NUL)
    (hlook : parse_name_lookup w.parser.flags (w.parser.options.map OptionDef.base)
      (N ++ ['=']) 0 = some k)
    (hO : w.parser.options[k]? = some O)
    (henc : encountered O.base = false)
    (hforbid : check_flag O.base.flags OF_VALUE_NOT_ALLOWED = false) :
    (oparser_parse parser argv argc calls).env.result.error = PE_VALUE_INVALID ∧
    (oparser_parse parser argv argc calls).env.result.error_value = O.base.name.take 255 ∧
    (O.base.name.length < 256 →
      (oparser_parse parser argv argc calls).env.result.error_value = O.base.name) ∧
    (oparser_parse parser argv argc calls).env.calls = w.env.calls := by
  have hstep : parse_string argv argc (argv.getD w.env.i []) 0 w =
      (w.mark k O).fail PE_VALUE_INVALID (snprintf ERROR_BUFFER_SIZE O.base.name) := by
    rw [htok, parse_string_intro argv argc intro _ w hintro,
      parse_name_value_invalid argv argc N w k O (is_option_char_of N hN) hlook hO
        (Or.inl henc) hforbid]
  have hp := reaches_fail parser argv argc calls w hr hi (by rw [hstep]; simp [World.fail, Env.fail])
  rw [hp, hstep]
  refine ⟨rfl, rfl, ?_, rfl⟩
  intro hlen
  exact snprintf_short _ hlen

/-- C4 (amended) at `--any=` on `simple_registry`. -/
theorem value_invalid_reported_witness :
    (oparser_parse simple_registry ["prog".toList, "--any=".toList] 2 []).env.result.error =
      PE_VALUE_INVALID ∧
    (oparser_parse simple_registry ["prog".toList, "--any=".toList] 2
      []).env.result.error_value = "any".toList ∧
    (oparser_parse simple_registry ["prog".toList, "--any=".toList] 2 []).env.calls = [] :=
  have h := value_invalid_reported simple_registry ["prog".toList, "--any=".toList] 2 []
    (parse_start simple_registry []) ['-', '-'] "any".toList 2
    ⟨⟨"any".toList, "Gets or sets any value".toList, 3, char_int 'a', OF_NONE⟩, none⟩
    Reaches.start (by decide) (by decide) (by decide) (by decide) (by decide) (by decide)
    (by decide) (by decide)
  ⟨h.1, h.2.2.1 (by decide), h.2.2.2⟩

/-- C4 (as stated) fails: for the option `long_name` (256 characters, no value
flag) the token `--`, that name, `=` gives `PE_VALUE_INVALID` with a context
that is not the option's name. -/
theorem value_invalid_context_not_name :
    (oparser_parse (long_name_registry OF_NONE)
      [[], '-' :: '-' :: (long_name ++ ['='])] 2 []).env.result.error = PE_VALUE_INVALID ∧
    (oparser_parse (long_name_registry OF_NONE)
      [[], '-' :: '-' :: (long_name ++ ['='])] 2 []).env.result.error_value ≠ long_name := by
  decide

/-! ### C5 -/

/-- C5 (amended): in the loop of `oparser_parse`, let the token under the cursor
resolve to the top-level option `O` that was recognized earlier in the pass (in
a pass that starts with all encountered bits clear, any option to which an
earlier token resolved: `resolved_recognized`).  Then `O`'s encountered bit is
set, and the token fails with `PE_DUPLICATE`
without a handler call exactly when `O` lacks duplicates-allowed;
`oparser_parse` then returns `PE_DUPLICATE` with the first 255 characters of
`O`'s name as context (the name itself when shorter than 256), makes no handler
call for the token and leaves the definitions, so `O`'s encountered bit, as they
were.  When `O` has duplicates-allowed, the occurrence is passed to the handler
unless the value policy rejects it; a long-form occurrence that meets the value
policy is passed with its value, and without error when `O` owns no
sub-registry. -/
theorem duplicate_rule (parser : OptionParser) (argv : List (List Char)) (argc : Nat)
    (calls : List Call) (w : World) (k : Nat) (O : OptionDef)
    (hr : Reaches parser argv argc calls w) (hi : w.env.i < argc)
    (hres : resolve_token w.parser.flags (w.parser.options.map OptionDef.base)
      (argv.getD w.env.i []) = some k)
    (hO : w.parser.options[k]? = some O)
    (hrec : recognized_before parser argv argc calls w k) :
    encountered O.base = true ∧
    (((parse_string argv argc (argv.getD w.env.i []) 0 w).env.result.error = PE_DUPLICATE ∧
        (parse_string argv argc (argv.getD w.env.i []) 0 w).env.calls = w.env.calls) ↔
      check_flag O.base.flags OF_DUPLICATES_ALLOWED = false) ∧
    (check_flag O.base.flags OF_DUPLICATES_ALLOWED = false →
      (oparser_parse parser argv argc calls).env.result.error = PE_DUPLICATE ∧
      (oparser_parse parser argv argc calls).env.result.error_value = O.base.name.take 255 ∧
      (O.base.name.length < 256 →
        (oparser_parse parser argv argc calls).env.result.error_value = O.base.name) ∧
      (oparser_parse parser argv argc calls).env.calls = w.env.calls ∧
      (oparser_parse parser argv argc calls).parser.options = w.parser.options) ∧
    (check_flag O.base.flags OF_DUPLICATES_ALLOWED = true →
      (value_error (parse_string argv argc (argv.getD w.env.i []) 0 w).env.result.error ∧
        (parse_string argv argc (argv.getD w.env.i []) 0 w).env.calls = w.env.calls) ∨
      ∃ v rest, (parse_string argv argc (argv.getD w.env.i []) 0 w).env.calls =
        w.env.calls ++ ⟨parser.handler, O.base.name, O.base.alias_, v, parser.data⟩ :: rest) ∧
    (check_flag O.base.flags OF_DUPLICATES_ALLOWED = true →
      ∀ (intro N : List Char) (V : Option (List Char)),
        argv.getD w.env.i [] = intro ++ name_value N V →
        long_intro w.parser.flags intro (name_value N V) →
        (∀ c ∈ N, c ≠ '=' ∧ c ≠ NUL) → value_accepted O.base V →
        (∃ rest, (parse_string argv argc (argv.getD w.env.i []) 0 w).env.calls =
          w.env.calls ++ ⟨parser.handler, O.base.name, O.base.alias_, V, parser.data⟩ :: rest) ∧
        (O.sub_options = none →
          (parse_string argv argc (argv.getD w.env.i []) 0 w).env.result.error = PE_NONE ∧
          (parse_string argv argc (argv.getD w.env.i []) 0 w).env.calls =
            w.env.calls ++ [⟨parser.handler, O.base.name, O.base.alias_, V, parser.data⟩])) := by
  have henc : encountered O.base = true := by
    obtain ⟨O', h1, h2⟩ := recognized_before_marked parser argv argc calls w k hrec
    rw [hO] at h1
    simp only [Option.some.injEq] at h1
    rw [h1]; exact h2
  exact ⟨henc, duplicate_rule_marked parser argv argc calls w k O hr hi hres hO henc⟩

/-- C5 (amended) at `--any --any` on `simple_registry`. -/
theorem duplicate_rule_witness :
    (oparser_parse simple_registry ["prog".toList, "--any".toList, "--any".toList] 3
      []).env.result.error = PE_DUPLICATE ∧
    (oparser_parse simple_registry ["prog".toList, "--any".toList, "--any".toList] 3
      []).env.result.error_value = "any".toList ∧
    (oparser_parse simple_registry ["prog".toList, "--any".toList, "--any".toList] 3
      []).env.calls = [⟨1, "any".toList, char_int 'a', none, 0⟩] :=
  have h := (duplicate_rule simple_registry ["prog".toList, "--any".toList, "--any".toList] 3 []
    (next_token (parse_string ["prog".toList, "--any".toList, "--any".toList] 3
      (["prog".toList, "--any".toList, "--any".toList].getD
        (parse_start simple_registry []).env.i []) 0 (parse_start simple_registry [])))
    2 ⟨⟨"any".toList, "Gets or sets any value".toList, 3, char_int 'a', 1⟩, none⟩
    (Reaches.step (parse_start simple_registry []) Reaches.start (by decide) (by decide))
    (by decide) (by decide) (by decide)
    ⟨parse_start simple_registry [], Reaches.start, by decide, by decide,
      ⟨by decide, by decide⟩, Later.refl⟩).2.2.1 (by decide)
  ⟨h.1, h.2.2.1 (by decide), h.2.2.2.1.trans (by decide)⟩

/-- C5 (as stated) fails: for the option `long_name` (256 characters, no
duplicates-allowed) a second occurrence gives `PE_DUPLICATE` with a context that
is not the option's name. -/
theorem duplicate_context_not_name :
    (oparser_parse (long_name_registry OF_NONE)
      [[], '-' :: '-' :: long_name, '-' :: '-' :: long_name] 3 []).env.result.error =
        PE_DUPLICATE ∧
    (oparser_parse (long_name_registry OF_NONE)
      [[], '-' :: '-' :: long_name, '-' :: '-' :: long_name] 3 []).env.result.error_value ≠
        long_name := by
  decide

/-! ### C6 -/

/-- C6 (amended): when the loop of `oparser_parse` has processed every token
without error, leaving the state `w`, the parse returns `PE_NONE` exactly when
every required top-level option has its encountered bit set; otherwise it
returns `PE_REQUIRED_MISSING` and the context is the first 255 characters of the
name of the first definition, in registration order, that is required and not
encountered (the name itself when shorter than 256).  When the encountered bits
are clear at the start, the bit of an option is set exactly when the option was
recognized during the pass, so the parse returns `PE_NONE` exactly when every
required option was recognized.  With `argc <= 1` and all encountered bits clear
the parse succeeds exactly when no top-level option is required. -/
theorem required_rule (parser : OptionParser) (argv : List (List Char)) (argc : Nat)
    (calls : List Call) (w : World)
    (hr : Reaches parser argv argc calls w) (hdone : ¬ w.env.i < argc) :
    ((oparser_parse parser argv argc calls).env.result.error = PE_NONE ↔
      ∀ o ∈ w.parser.options, check_flag o.base.flags OF_REQUIRED = true →
        encountered o.base = true) ∧
    (∀ o, w.parser.options.find? (fun o => required_missing o.base) = some o →
      (oparser_parse parser argv argc calls).env.result.error = PE_REQUIRED_MISSING ∧
      (oparser_parse parser argv argc calls).env.result.error_value = o.base.name.take 255 ∧
      (o.base.name.length < 256 →
        (oparser_parse parser argv argc calls).env.result.error_value = o.base.name)) ∧
    ((∃ o ∈ w.parser.options, check_flag o.base.flags OF_REQUIRED = true ∧
        encountered o.base = false) →
      ∃ o, w.parser.options.find? (fun o => required_missing o.base) = some o) ∧
    ((∀ o ∈ parser.options, encountered o.base = false) →
      ((oparser_parse parser argv argc calls).env.result.error = PE_NONE ↔
        ∀ k O, w.parser.options[k]? = some O → check_flag O.base.flags OF_REQUIRED = true →
          recognized_before parser argv argc calls w k)) ∧
    (argc ≤ 1 → (∀ o ∈ parser.options, encountered o.base = false) →
      ((oparser_parse parser argv argc calls).env.result.error = PE_NONE ↔
        ∀ o ∈ parser.options, check_flag o.base.flags OF_REQUIRED = false)) := by
  have herr := reaches_error parser argv argc calls w hr
  have hp := reaches_done parser argv argc calls w hr hdone
  have hiff : (oparser_parse parser argv argc calls).env.result.error = PE_NONE ↔
      ∀ o ∈ w.parser.options, check_flag o.base.flags OF_REQUIRED = true →
        encountered o.base = true := by
    rw [hp]
    cases hf : w.parser.options.find? (fun o => required_missing o.base) with
    | none =>
      rw [parse_end_none w herr hf]
      simp only [herr, true_iff]
      intro o ho hreq
      have := List.find?_eq_none.mp hf o ho
      simpa [required_missing, hreq] using this
    | some o =>
      rw [parse_end_some w o hf]
      simp only [Env.fail]
      constructor
      · intro h; exact absurd h (by decide)
      · intro h
        have hmem := List.mem_of_find?_eq_some hf
        have hmiss := List.find?_some hf
        simp only [required_missing, Bool.and_eq_true, Bool.not_eq_true'] at hmiss
        have := h o hmem hmiss.1
        rw [hmiss.2] at this
        exact absurd this (by decide)
  refine ⟨hiff, ?_, ?_, ?_, ?_⟩
  · intro o hf
    rw [hp, parse_end_some w o hf]
    exact ⟨rfl, rfl, fun hlen => snprintf_short _ hlen⟩
  · rintro ⟨o, ho, hreq, henc⟩
    cases hf : w.parser.options.find? (fun o => required_missing o.base) with
    | none =>
      have := List.find?_eq_none.mp hf o ho
      simp [required_missing, hreq, henc] at this
    | some o' => exact ⟨o', rfl⟩
  · intro hclean
    rw [hiff]
    constructor
    · intro h k O hO hreq
      exact marked_recognized_before parser argv argc calls w k hr hclean
        ⟨O, hO, h O (List.getElem?_mem hO) hreq⟩
    · intro h o ho hreq
      obtain ⟨k, hk⟩ := List.mem_iff_getElem?.mp ho
      obtain ⟨O', h1, h2⟩ := recognized_before_marked parser argv argc calls w k (h k o hk hreq)
      rw [hk] at h1
      simp only [Option.some.injEq] at h1
      rw [h1]; exact h2
  · intro hargc hclear
    have hw : oparser_parse parser argv argc calls = parse_end (parse_start parser calls) := by
      have h0 : argc - 1 = 0 := by omega
      simp [oparser_parse, h0, parse_loop, parse_start]
    have hopts : (parse_start parser calls).parser.options = parser.options := by
      unfold parse_start; split <;> rfl
    rw [hw]
    cases hf : (parse_start parser calls).parser.options.find?
        (fun o => required_missing o.base) with
    | none =>
      rw [parse_end_none _ rfl hf]
      simp only [parse_start, true_iff]
      intro o ho
      rw [hopts] at hf
      have := List.find?_eq_none.mp hf o ho
      simpa [required_missing, hclear o ho] using this
    | some o =>
      rw [parse_end_some _ o hf]
      simp only [Env.fail]
      constructor
      · intro h; exact absurd h (by decide)
      · intro h
        rw [hopts] at hf
        have hmem := List.mem_of_find?_eq_some hf
        have hmiss := List.find?_some hf
        simp only [required_missing, Bool.and_eq_true, Bool.not_eq_true'] at hmiss
        rw [h o hmem] at hmiss
        exact absurd hmiss.1 (by decide)

/-- C6 (amended) at `--duplicate` on `advance_registry`. -/
theorem required_rule_witness :
    (oparser_parse advance_registry ["prog".toList, "--duplicate".toList] 2
      []).env.result.error = PE_REQUIRED_MISSING ∧
    (oparser_parse advance_registry ["prog".toList, "--duplicate".toList] 2
      []).env.result.error_value = "required".toList :=
  have h := (required_rule advance_registry ["prog".toList, "--duplicate".toList] 2 []
    (next_token (parse_string ["prog".toList, "--duplicate".toList] 2
      (["prog".toList, "--duplicate".toList].getD
        (parse_start advance_registry []).env.i []) 0 (parse_start advance_registry [])))
    (Reaches.step (parse_start advance_registry []) Reaches.start (by decide) (by decide))
    (by decide)).2.1
    ⟨⟨"required".toList, "A required option".toList, 8, char_int 'r', OF_REQUIRED⟩, none⟩
    (by decide)
  ⟨h.1, h.2.2 (by decide)⟩

/-- C6 (as stated) fails: with the required option `long_name` (256 characters)
a parse of no arguments gives `PE_REQUIRED_MISSING` with a context that is not
the option's name. -/
theorem required_context_not_name :
    (oparser_parse (long_name_registry OF_REQUIRED) [[]] 1 []).env.result.error =
      PE_REQUIRED_MISSING ∧
    (oparser_parse (long_name_registry OF_REQUIRED) [[]] 1 []).env.result.error_value ≠
      long_name := by
  decide

/-! ### C7 -/

/-- C7: on a registry with allow-remainder and no sub-registry, when the loop of
`oparser_parse` has processed every token without error, the remainder
collection after the parse is the sub-list, in order, of the tokens
`argv[1..argc-1]` whose first character is neither `-` nor `/`, and
`oparser_remainder` returns it with its length as count. -/
theorem remainder_collected (parser : OptionParser) (argv : List (List Char)) (argc : Nat)
    (calls : List Call) (w : World) (hr : Reaches parser argv argc calls w)
    (hdone : ¬ w.env.i < argc) (hlen : argc ≤ argv.length)
    (hflag : check_flag parser.flags PF_ALLOW_REMAINDER = true)
    (hns : no_sub_options parser.options) :
    (oparser_parse parser argv argc calls).parser.remainder =
      ((argv.take argc).drop 1).filter is_remainder_token ∧
    oparser_remainder (oparser_parse parser argv argc calls).parser =
      some (((argv.take argc).drop 1).filter is_remainder_token,
        (((argv.take argc).drop 1).filter is_remainder_token).length) := by
  obtain ⟨h1, h2, h3, h4⟩ := remainder_invariant parser argv argc calls w hr hlen hflag hns
  have hfix := reaches_fixed parser argv argc calls w hr
  simp only [OptionParser.fixed, Prod.mk.injEq] at hfix
  have hp := reaches_done parser argv argc calls w hr hdone
  obtain ⟨e1, e2⟩ := parse_end_remainder w
  have htk : (List.take w.env.i argv).drop 1 = (List.take argc argv).drop 1 := by
    rcases h4 with h4 | h4
    · have : w.env.i = argc := by omega
      rw [this]
    · rw [h4]
      have : argc = 0 ∨ argc = 1 := by omega
      rcases this with rfl | rfl
      · cases argv <;> simp
      · rfl
  have hrem : (oparser_parse parser argv argc calls).parser.remainder =
      ((argv.take argc).drop 1).filter is_remainder_token := by
    rw [hp, e1, h2, htk]
  refine ⟨hrem, ?_⟩
  have hfl : check_flag (oparser_parse parser argv argc calls).parser.flags
      PF_ALLOW_REMAINDER = true := by
    rw [hp, e2, hfix.1]; exact hflag
  simp [oparser_remainder, hfl, hrem]

/-- C7 at `--required remaining values` on `plain_registry`. -/
theorem remainder_collected_witness :
    (oparser_parse plain_registry
      ["prog".toList, "--required".toList, "remaining".toList, "values".toList] 4
      []).parser.remainder = ["remaining".toList, "values".toList] ∧
    oparser_remainder (oparser_parse plain_registry
      ["prog".toList, "--required".toList, "remaining".toList, "values".toList] 4
      []).parser = some (["remaining".toList, "values".toList], 2) :=
  have h := remainder_collected plain_registry
    ["prog".toList, "--required".toList, "remaining".toList, "values".toList] 4 [] _
    (Reaches.step _ (Reaches.step _ (Reaches.step _ Reaches.start (by decide) (by decide))
      (by decide) (by decide)) (by decide) (by decide))
    (by decide) (by decide) (by decide) (by unfold no_sub_options; decide)
  ⟨h.1.trans (by decide), h.2.trans (by decide)⟩

/-! ### C8 -/

/-- C8 (amended): on a registry without allow-remainder, when the loop of
`oparser_parse` stands at a token that begins with neither `-` nor `/`, the parse
returns `PE_REMAINDER`; the context is the first 255 characters of the token (the
token itself when shorter than 256), the remainder collection is empty and no
handler call is made for the token. -/
theorem remainder_rejected (parser : OptionParser) (argv : List (List Char)) (argc : Nat)
    (calls : List Call) (w : World) (hr : Reaches parser argv argc calls w)
    (hi : w.env.i < argc)
    (htok : is_remainder_token (argv.getD w.env.i []) = true)
    (hflag : check_flag parser.flags PF_ALLOW_REMAINDER = false) :
    (oparser_parse parser argv argc calls).env.result.error = PE_REMAINDER ∧
    (oparser_parse parser argv argc calls).env.result.error_value =
      (argv.getD w.env.i []).take 255 ∧
    ((argv.getD w.env.i []).length < 256 →
      (oparser_parse parser argv argc calls).env.result.error_value = argv.getD w.env.i []) ∧
    (oparser_parse parser argv argc calls).parser.remainder = [] ∧
    (oparser_parse parser argv argc calls).env.calls = w.env.calls := by
  have hfix := reaches_fixed parser argv argc calls w hr
  simp only [OptionParser.fixed, Prod.mk.injEq] at hfix
  have hstep : parse_string argv argc (argv.getD w.env.i []) 0 w =
      w.fail PE_REMAINDER (snprintf ERROR_BUFFER_SIZE (argv.getD w.env.i [])) := by
    have h := htok
    simp only [is_remainder_token, Bool.and_eq_true, bne_iff_ne, ne_eq] at h
    have hf : check_flag w.parser.flags PF_ALLOW_REMAINDER = false := by rw [hfix.1]; exact hflag
    unfold parse_string
    simp only [h.1, h.2, hf, if_false, Bool.not_false, if_true]
  have hp := reaches_fail parser argv argc calls w hr hi
    (by rw [hstep]; simp [World.fail, Env.fail])
  rw [hp, hstep]
  exact ⟨rfl, rfl, fun hlen => snprintf_short _ hlen,
    remainder_stays_empty parser argv argc calls w hr hflag, rfl⟩

/-- C8 (amended) at `--time moo` on `simple_registry`. -/
theorem remainder_rejected_witness :
    (oparser_parse simple_registry ["prog".toList, "--time".toList, "moo".toList] 3
      []).env.result.error = PE_REMAINDER ∧
    (oparser_parse simple_registry ["prog".toList, "--time".toList, "moo".toList] 3
      []).env.result.error_value = "moo".toList ∧
    (oparser_parse simple_registry ["prog".toList, "--time".toList, "moo".toList] 3
      []).parser.remainder = [] :=
  have h := remainder_rejected simple_registry
    ["prog".toList, "--time".toList, "moo".toList] 3 [] _
    (Reaches.step _ Reaches.start (by decide) (by decide)) (by decide) (by decide) (by decide)
  ⟨h.1, h.2.2.1 (by decide), h.2.2.2.1⟩

/-- C8 (as stated) fails: a non-option token of 256 characters on
`simple_registry` gives `PE_REMAINDER` with a context that is not the token. -/
theorem remainder_context_not_token :
    (oparser_parse simple_registry [[], long_name] 2 []).env.result.error = PE_REMAINDER ∧
    (oparser_parse simple_registry [[], long_name] 2 []).env.result.error_value ≠ long_name := by
  decide

/-! ### C9 -/

/-- C9 (amended): let the sub-option group of the option `P` (at index `k`,
owning the sub-registry `sp0`) be entered in the world `w0`, as `parse_name` and
`parse_alias` do right after `P`'s handler call, and let `(sp, e)` be a state of
the group reached by consuming accepted sub-option tokens.  If the next token
`N` or `N=V` matches the sub-option `S` and passes the duplicate check and the
value policy, it is dispatched to the sub-registry's handler with
`(S.name, S.alias, V)` after all earlier calls, the cursor moves past it (so the
top-level loop never classifies it), the remainder is not touched and no
`PE_REMAINDER` arises.  A long-form token of the top-level loop that resolves to
`P` and is accepted enters the group in this way.  On `advance_registry` the
vector `prog --required --sub animal=cow tree` with `argc = 5` succeeds with the
sub-handler called for `animal` with `cow`, then for `tree` with null, and an
empty remainder. -/
theorem sub_option_dispatched (argv : List (List Char)) (argc : Nat) (w0 : World) (k : Nat)
    (P : OptionDef) (sp0 sp : OptionSubParser) (js : List Nat) (e : Env) (N : List Char)
    (V : Option (List Char)) (j : Nat) (S : SubOption)
    (hsub : P.sub_options = some sp0)
    (hgroup : SubReaches argv argc sp0 w0.env js sp e)
    (hi : e.i + 1 < argc)
    (htok : argv.getD (e.i + 1) [] = name_value N V)
    (hN : ∀ c ∈ N, c ≠ '=' ∧ c ≠ NUL) (hne : N ≠ [])
    (hscan : scan_for_name (name_value N V) (sp.options.map SubOption.base) = some j)
    (hS : sp.options[j]? = some S)
    (hdup : encountered S.base = false ∨ check_flag S.base.flags OF_DUPLICATES_ALLOWED = true)
    (hval : value_accepted S.base V) :
    (enter_sub_options argv argc k P w0).env =
      (parse_sub_options (sp.mark j S) P.base.name argv argc
        (e.consume ⟨sp0.handler, S.base.name, S.base.alias_, V, sp0.data⟩)).2 ∧
    Extends w0.env.calls e.calls ∧
    Extends (e.calls ++ [⟨sp0.handler, S.base.name, S.base.alias_, V, sp0.data⟩])
      (enter_sub_options argv argc k P w0).env.calls ∧
    e.i + 1 ≤ (enter_sub_options argv argc k P w0).env.i ∧
    (enter_sub_options argv argc k P w0).parser.remainder = w0.parser.remainder ∧
    (w0.env.result.error ≠ PE_REMAINDER →
      (enter_sub_options argv argc k P w0).env.result.error ≠ PE_REMAINDER) ∧
    (∀ (parser : OptionParser) (calls : List Call) (w : World) (intro N0 : List Char)
        (V0 : Option (List Char)) (P0 : OptionDef),
      Reaches parser argv argc calls w →
      argv.getD w.env.i [] = intro ++ name_value N0 V0 →
      long_intro w.parser.flags intro (name_value N0 V0) →
      (∀ c ∈ N0, c ≠ '=' ∧ c ≠ NUL) →
      parse_name_lookup w.parser.flags (w.parser.options.map OptionDef.base)
        (name_value N0 V0) 0 = some k →
      w.parser.options[k]? = some P0 →
      (encountered P0.base = false ∨ check_flag P0.base.flags OF_DUPLICATES_ALLOWED = true) →
      value_accepted P0.base V0 →
      P = P0.mark →
      w0 = (w.mark k P0).call ⟨parser.handler, P0.base.name, P0.base.alias_, V0, parser.data⟩ →
      parse_string argv argc (argv.getD w.env.i []) 0 w = enter_sub_options argv argc k P w0) ∧
    (oparser_parse advance_registry ["prog".toList, "--required".toList, "--sub".toList,
        "animal=cow".toList, "tree".toList] 5 []).env.result.error = PE_NONE ∧
    (oparser_parse advance_registry ["prog".toList, "--required".toList, "--sub".toList,
        "animal=cow".toList, "tree".toList] 5 []).env.calls =
      [⟨2, "required".toList, char_int 'r', none, 0⟩, ⟨2, "sub".toList, char_int 's', none, 0⟩,
       ⟨3, "animal".toList, char_int 'a', some "cow".toList, 0⟩,
       ⟨3, "tree".toList, char_int 't', none, 0⟩] ∧
    (oparser_parse advance_registry ["prog".toList, "--required".toList, "--sub".toList,
        "animal=cow".toList, "tree".toList] 5 []).parser.remainder = [] := by
  obtain ⟨f1, f2, f3, f4, f5⟩ := sub_reaches_frame argv argc sp0 _ js sp e hgroup
  have hchain : parse_sub_options sp0 P.base.name argv argc w0.env =
      parse_sub_options (sp.mark j S) P.base.name argv argc
        (e.consume ⟨sp0.handler, S.base.name, S.base.alias_, V, sp0.data⟩) := by
    rw [sub_reaches_eq P.base.name argv argc sp0 _ js sp e hgroup,
      parse_sub_options_step sp P.base.name argv argc e N V j S hi htok hN hne hscan hS hdup hval,
      f1, f2]
  have henv : (enter_sub_options argv argc k P w0).env =
      (parse_sub_options (sp.mark j S) P.base.name argv argc
        (e.consume ⟨sp0.handler, S.base.name, S.base.alias_, V, sp0.data⟩)).2 := by
    rw [← hchain]
    simp only [enter_sub_options, hsub]
  refine ⟨henv, f3, ?_, ?_, enter_sub_options_remainder _ _ _ _ _, ?_, ?_,
    by decide, by decide, by decide⟩
  · rw [henv]
    exact parse_sub_options_loop_calls _ _ _ _ _ _
  · rw [henv]
    exact parse_sub_options_loop_i P.base.name argv argc _ (sp.mark j S)
      (e.consume ⟨sp0.handler, S.base.name, S.base.alias_, V, sp0.data⟩)
  · intro herr
    rw [henv]
    apply parse_sub_options_loop_error
    simp only [Env.consume, f4]
    exact herr
  · intro parser calls w intro N0 V0 P0 hr htok0 hintro hN0 hlook hP hdupP hvalP hPm hw0
    have hfix := reaches_fixed parser argv argc calls w hr
    simp only [OptionParser.fixed, Prod.mk.injEq] at hfix
    rw [htok0, parse_string_intro argv argc intro _ w hintro,
      parse_name_accept argv argc N0 V0 w k P0 (is_option_char_of N0 hN0) hlook hP hdupP hvalP,
      hfix.2.1, hfix.2.2, hPm, hw0]

/-- C9 (amended) at the token `animal=cow` after `--sub` in `sub_argv` on
`advance_registry`. -/
theorem sub_option_dispatched_witness :
    Extends ((sub_world.mark 2 ⟨⟨"sub".toList, "An option with suboptions".toList, 3,
          char_int 's', OF_NONE⟩, some advance_subregistry⟩).env.calls ++
        [⟨2, "sub".toList, char_int 's', none, 0⟩,
         ⟨3, "animal".toList, char_int 'a', some "cow".toList, 0⟩])
      (parse_string sub_argv 5 (sub_argv.getD sub_world.env.i []) 0 sub_world).env.calls ∧
    (parse_string sub_argv 5 (sub_argv.getD sub_world.env.i []) 0 sub_world).parser.remainder =
      sub_world.parser.remainder :=
  have h := sub_option_dispatched sub_argv 5
    ((sub_world.mark 2 ⟨⟨"sub".toList, "An option with suboptions".toList, 3, char_int 's',
      OF_NONE⟩, some advance_subregistry⟩).call ⟨2, "sub".toList, char_int 's', none, 0⟩) 2
    (OptionDef.mark ⟨⟨"sub".toList, "An option with suboptions".toList, 3, char_int 's',
      OF_NONE⟩, some advance_subregistry⟩)
    advance_subregistry advance_subregistry [] _
    "animal".toList (some "cow".toList) 0
    ⟨⟨"animal".toList, "Sets the name of an animal".toList, 6, char_int 'a',
      OF_REQUIRED ||| OF_VALUE_REQUIRED⟩⟩
    rfl SubReaches.start (by decide) (by decide) (by decide) (by decide) (by decide)
    (by decide) (by decide) (by decide)
  have hs := h.2.2.2.2.2.2.1 advance_registry [] sub_world ['-', '-'] "sub".toList none
    ⟨⟨"sub".toList, "An option with suboptions".toList, 3, char_int 's', OF_NONE⟩,
      some advance_subregistry⟩
    (Reaches.step _ Reaches.start (by decide) (by decide))
    (by decide) (by decide) (by decide) (by decide) (by decide) (by decide) (by decide)
    rfl rfl
  ⟨by rw [hs]; simpa [World.call, Env.call] using h.2.2.1, by rw [hs]; exact h.2.2.2.2.1⟩

/-- C9 (as stated) fails: in `prog --required --sub animal=cow tree tree` the
second `tree` follows the group and matches the sub-option `tree`, yet it is not
dispatched to the handler: the parse fails with `PE_DUPLICATE` and `tree` has
been dispatched once. -/
theorem sub_option_not_dispatched :
    scan_for_name "tree".toList (advance_subregistry.options.map SubOption.base) = some 1 ∧
    (oparser_parse advance_registry (sub_argv ++ ["tree".toList]) 6 []).env.result.error =
      PE_DUPLICATE ∧
    (oparser_parse advance_registry (sub_argv ++ ["tree".toList]) 6 []).env.calls =
      [⟨2, "required".toList, char_int 'r', none, 0⟩, ⟨2, "sub".toList, char_int 's', none, 0⟩,
       ⟨3, "animal".toList, char_int 'a', some "cow".toList, 0⟩,
       ⟨3, "tree".toList, char_int 't', none, 0⟩] := by
  decide

/-! ### C10 -/

/-- C10 (amended): let the sub-option group of the option `P` be entered in the
world `w0` with the encountered bits of its sub-registry clear, and reach the
state `(sp, e)` by consuming accepted sub-option tokens, the sub-options at the
indices `js`.  If the group ends there (no further token, a token with an empty
name-segment, or a token that matches no sub-option) while `S0`, at index `j`,
is the first sub-option in registration order that is required and was not
recognized in the group, the group records `PE_REQUIRED_MISSING`; the context is
the first 255 characters of `P`'s name, a dot and `S0`'s name (all of it when
shorter than 256).  When `P` was recognized by a long-form token of the
top-level loop, `oparser_parse` returns that error and context.  On
`advance_registry`, `prog --required --sub` gives the context `sub.animal`. -/
theorem sub_required_missing (argv : List (List Char)) (argc : Nat) (w0 : World) (k : Nat)
    (P : OptionDef) (sp0 sp : OptionSubParser) (js : List Nat) (e : Env) (j : Nat)
    (S0 : SubOption)
    (hsub : P.sub_options = some sp0)
    (hclean : ∀ s ∈ sp0.options, encountered s.base = false)
    (hgroup : SubReaches argv argc sp0 w0.env js sp e)
    (hend : ¬ e.i + 1 < argc ∨ count_option_chars (argv.getD (e.i + 1) []) = 0 ∨
      scan_for_name (argv.getD (e.i + 1) []) (sp.options.map SubOption.base) = none)
    (hS0 : sp0.options[j]? = some S0)
    (hreq : check_flag S0.base.flags OF_REQUIRED = true)
    (hnot : j ∉ js)
    (hfirst : ∀ j' S', j' < j → sp0.options[j']? = some S' →
      check_flag S'.base.flags OF_REQUIRED = true → j' ∈ js) :
    (enter_sub_options argv argc k P w0).env.result.error = PE_REQUIRED_MISSING ∧
    (enter_sub_options argv argc k P w0).env.result.error_value =
      (P.base.name ++ '.' :: S0.base.name).take 255 ∧
    (P.base.name.length + 1 + S0.base.name.length < 256 →
      (enter_sub_options argv argc k P w0).env.result.error_value =
        P.base.name ++ '.' :: S0.base.name) ∧
    (enter_sub_options argv argc k P w0).env.calls = e.calls ∧
    (∀ (parser : OptionParser) (calls : List Call) (w : World) (intro N0 : List Char)
        (V0 : Option (List Char)) (P0 : OptionDef),
      Reaches parser argv argc calls w → w.env.i < argc →
      argv.getD w.env.i [] = intro ++ name_value N0 V0 →
      long_intro w.parser.flags intro (name_value N0 V0) →
      (∀ c ∈ N0, c ≠ '=' ∧ c ≠ NUL) →
      parse_name_lookup w.parser.flags (w.parser.options.map OptionDef.base)
        (name_value N0 V0) 0 = some k →
      w.parser.options[k]? = some P0 →
      (encountered P0.base = false ∨ check_flag P0.base.flags OF_DUPLICATES_ALLOWED = true) →
      value_accepted P0.base V0 →
      P = P0.mark →
      w0 = (w.mark k P0).call ⟨parser.handler, P0.base.name, P0.base.alias_, V0, parser.data⟩ →
      (oparser_parse parser argv argc calls).env.result.error = PE_REQUIRED_MISSING ∧
      (oparser_parse parser argv argc calls).env.result.error_value =
        (P0.base.name ++ '.' :: S0.base.name).take 255 ∧
      (P0.base.name.length + 1 + S0.base.name.length < 256 →
        (oparser_parse parser argv argc calls).env.result.error_value =
          P0.base.name ++ '.' :: S0.base.name)) ∧
    (oparser_parse advance_registry ["prog".toList, "--required".toList, "--sub".toList] 3
      []).env.result.error = PE_REQUIRED_MISSING ∧
    (oparser_parse advance_registry ["prog".toList, "--required".toList, "--sub".toList] 3
      []).env.result.error_value = "sub.animal".toList := by
  obtain ⟨S, hmiss, hname⟩ :=
    sub_reaches_missing argv argc sp0 _ js sp e j S0 hgroup hclean hS0 hreq hnot hfirst
  have henv : (enter_sub_options argv argc k P w0).env =
      e.fail PE_REQUIRED_MISSING (snprintf ERROR_BUFFER_SIZE (dotted P.base.name S0.base.name)) := by
    simp only [enter_sub_options, hsub]
    rw [sub_reaches_eq P.base.name argv argc sp0 _ js sp e hgroup,
      parse_sub_options_stop sp P.base.name argv argc e hend,
      sub_options_end_missing P.base.name sp e S hmiss, hname]
  refine ⟨by rw [henv]; rfl, by rw [henv]; rfl, ?_, by rw [henv]; rfl, ?_, by decide, by decide⟩
  · intro hlen
    rw [henv]
    exact snprintf_dotted_short _ _ hlen
  · intro parser calls w intro N0 V0 P0 hr hi htok0 hintro hN0 hlook hP hdupP hvalP hPm hw0
    have hfix := reaches_fixed parser argv argc calls w hr
    simp only [OptionParser.fixed, Prod.mk.injEq] at hfix
    have hstep : parse_string argv argc (argv.getD w.env.i []) 0 w =
        enter_sub_options argv argc k P w0 := by
      rw [htok0, parse_string_intro argv argc intro _ w hintro,
        parse_name_accept argv argc N0 V0 w k P0 (is_option_char_of N0 hN0) hlook hP hdupP hvalP,
        hfix.2.1, hfix.2.2, hPm, hw0]
    have hp := reaches_fail parser argv argc calls w hr hi
      (by rw [hstep, henv]; simp [Env.fail])
    have hname' : P.base.name = P0.base.name := by rw [hPm]; rfl
    rw [hp, hstep, henv, hname']
    exact ⟨rfl, rfl, fun hlen => snprintf_dotted_short _ _ hlen⟩

/-- C10 (amended) at `prog --required --sub` on `advance_registry`. -/
theorem sub_required_missing_witness :
    (enter_sub_options ["prog".toList, "--required".toList, "--sub".toList] 3 2
      (OptionDef.mark ⟨⟨"sub".toList, "An option with suboptions".toList, 3, char_int 's',
        OF_NONE⟩, some advance_subregistry⟩)
      (parse_start advance_registry [])).env.result.error = PE_REQUIRED_MISSING ∧
    (enter_sub_options ["prog".toList, "--required".toList, "--sub".toList] 3 2
      (OptionDef.mark ⟨⟨"sub".toList, "An option with suboptions".toList, 3, char_int 's',
        OF_NONE⟩, some advance_subregistry⟩)
      (parse_start advance_registry [])).env.result.error_value = "sub.animal".toList :=
  have h := sub_required_missing ["prog".toList, "--required".toList, "--sub".toList] 3
    (parse_start advance_registry []) 2
    (OptionDef.mark ⟨⟨"sub".toList, "An option with suboptions".toList, 3, char_int 's',
      OF_NONE⟩, some advance_subregistry⟩)
    advance_subregistry advance_subregistry [] _ 0
    ⟨⟨"animal".toList, "Sets the name of an animal".toList, 6, char_int 'a',
      OF_REQUIRED ||| OF_VALUE_REQUIRED⟩⟩
    rfl (by decide) SubReaches.start (by decide) (by decide) (by decide) (by decide)
    (by intro j' S' hj'; exact absurd hj' (Nat.not_lt_zero j'))
  ⟨h.1, h.2.2.1 (by decide)⟩

/-- C10 (as stated) fails in three ways.  With the parent option `long_name`
(256 characters) the context of `PE_REQUIRED_MISSING` is not the parent's name,
a dot and the sub-option's name.  When the parent is recognized inside an alias
run (`-sq` on `alias_sub_registry`), the group of `sub` ends with the required
`animal` missing, yet `oparser_parse` goes on with the run and returns
`PE_INVALID_ALIAS`.  And after a pass that failed inside the group of `sub` on
`dup_sub_registry`, the group of `--sub` in the next pass recognizes nothing,
yet the stale encountered bit of `animal` makes the parse return `PE_NONE`. -/
theorem sub_required_missing_not_reported :
    ((oparser_parse long_sub_registry [[], '-' :: '-' :: long_name] 2 []).env.result.error =
        PE_REQUIRED_MISSING ∧
      (oparser_parse long_sub_registry [[], '-' :: '-' :: long_name] 2
        []).env.result.error_value ≠ long_name ++ ['.', 'x']) ∧
    (oparser_parse alias_sub_registry ["prog".toList, "-sq".toList] 2 []).env.result.error =
      PE_INVALID_ALIAS ∧
    ((oparser_parse dup_sub_registry (sub_argv ++ ["tree".toList]) 6 []).env.result.error =
        PE_DUPLICATE ∧
      (oparser_parse (oparser_parse dup_sub_registry (sub_argv ++ ["tree".toList]) 6 []).parser
        ["prog".toList, "--sub".toList] 2 []).env.result.error = PE_NONE) := by
  decide

/-! ### C11 -/

/-- C11 (amended): name resolution is a match of the beginning of the text, not
of the whole name-segment.  In a registry whose stored name lengths are the
lengths of the names, `scan_for_name` resolves the text `cand` (the text after
the introducer of a long-form token, or a sub-option token) to the index `k`
exactly when the stored name at `k` equals the first characters of `cand` and
no earlier stored name does; the look-up of `parse_name` then yields `k`,
whatever follows the name in the token. -/
theorem name_resolution_by_beginning (cand : List Char) (bases : List OptionBase) (k : Nat)
    (hlen : ∀ o ∈ bases, o.name_length = o.name.length) :
    (scan_for_name cand bases = some k ↔
      (∃ o, bases[k]? = some o ∧ cand.take o.name.length = o.name) ∧
      ∀ j, j < k → ∀ o, bases[j]? = some o → cand.take o.name.length ≠ o.name) ∧
    (scan_for_name cand bases = some k →
      ∀ flags, parse_name_lookup flags bases cand 0 = some k) :=
  ⟨scan_for_name_some_iff cand bases hlen k,
    fun h flags => parse_name_lookup_name flags bases cand 0 k h⟩

/-- C11 (amended) at the text `namefoo` with only the option `name` registered:
it resolves to `name`. -/
theorem name_resolution_by_beginning_witness :
    scan_for_name "namefoo".toList (name_only_registry.options.map OptionDef.base) = some 0 :=
  (name_resolution_by_beginning "namefoo".toList
    (name_only_registry.options.map OptionDef.base) 0 (by decide)).1.2
    ⟨⟨⟨"name".toList, [], 4, char_int 'n', OF_NONE⟩, by decide, by decide⟩,
      fun j hj => absurd hj (Nat.not_lt_zero j)⟩

/-- C11 (as stated) fails: with only the option `name` registered, the token
`--namefoo`, whose name-segment `namefoo` has seven characters, resolves to
`name`: `scan_for_name` yields its index and `oparser_parse` calls the handler
for `name`.  Likewise the sub-option token `treehouse` after `--sub animal=cow`
is dispatched as the sub-option `tree`. -/
theorem name_resolved_for_longer_segment :
    count_option_chars "namefoo".toList = 7 ∧
    scan_for_name "namefoo".toList (name_only_registry.options.map OptionDef.base) = some 0 ∧
    (oparser_parse name_only_registry ["prog".toList, "--namefoo".toList] 2 []).env.calls =
      [⟨1, "name".toList, char_int 'n', none, 0⟩] ∧
    (oparser_parse advance_registry ["prog".toList, "--required".toList, "--sub".toList,
      "animal=cow".toList, "treehouse".toList] 5 []).env.calls =
      [⟨2, "required".toList, char_int 'r', none, 0⟩, ⟨2, "sub".toList, char_int 's', none, 0⟩,
       ⟨3, "animal".toList, char_int 'a', some "cow".toList, 0⟩,
       ⟨3, "tree".toList, char_int 't', none, 0⟩] := by
  decide

/-! ### C12 -/

/-- C12 (amended): a long-form token under the cursor of `oparser_parse` whose
text `N` or `N=V` after the introducer matches no registered top-level name,
and for which the alias retry does not apply (the name-segment is not one
character long, or always-check-alias is unset), makes `oparser_parse` return
`PE_INVALID_NAME`; the context is the first 255 characters of the whole text
after the introducer, `=V` included; it is the name-segment `N` when the token
has no `=` and `N` is shorter than the 256-byte buffer; no handler call is made
for the token. -/
theorem invalid_name_reported (parser : OptionParser) (argv : List (List Char)) (argc : Nat)
    (calls : List Call) (w : World) (intro N : List Char) (V : Option (List Char))
    (hr : Reaches parser argv argc calls w) (hi : w.env.i < argc)
    (hintro : long_intro w.parser.flags intro (name_value N V))
    (htok : argv.getD w.env.i [] = intro ++ name_value N V)
    (hN : ∀ c ∈ N, c ≠ '=' ∧ c ≠ NUL)
    (hname : scan_for_name (name_value N V) (w.parser.options.map OptionDef.base) = none)
    (hretry : ¬ (N.length = 1 ∧ check_flag w.parser.flags PF_ALWAYS_CHECK_FOR_ALIAS = true)) :
    (oparser_parse parser argv argc calls).env.result.error = PE_INVALID_NAME ∧
    (oparser_parse parser argv argc calls).env.result.error_value = (name_value N V).take 255 ∧
    (V = none → N.length < 256 →
      (oparser_parse parser argv argc calls).env.result.error_value = N) ∧
    (oparser_parse parser argv argc calls).env.calls = w.env.calls := by
  have hlook : parse_name_lookup w.parser.flags (w.parser.options.map OptionDef.base)
      (name_value N V) 0 = none := by
    unfold parse_name_lookup
    simp only [List.drop_zero, count_name_value N V (is_option_char_of N hN), hname, true_and]
    rw [if_neg hretry]
  have hstep : parse_string argv argc (argv.getD w.env.i []) 0 w =
      w.fail PE_INVALID_NAME (snprintf ERROR_BUFFER_SIZE (name_value N V)) := by
    rw [htok, parse_string_intro argv argc intro _ w hintro,
      parse_name_invalid argv argc _ 0 w hlook, List.drop_zero]
  have hp := reaches_fail parser argv argc calls w hr hi (by rw [hstep]; simp [World.fail, Env.fail])
  rw [hp, hstep]
  refine ⟨rfl, rfl, ?_, rfl⟩
  intro hV hlen
  subst hV
  exact snprintf_short _ hlen

/-- C12 (amended) at `--nonoption` on `simple_registry`. -/
theorem invalid_name_reported_witness :
    (oparser_parse simple_registry ["prog".toList, "--nonoption".toList] 2 []).env.result.error =
      PE_INVALID_NAME ∧
    (oparser_parse simple_registry ["prog".toList, "--nonoption".toList] 2
      []).env.result.error_value = "nonoption".toList ∧
    (oparser_parse simple_registry ["prog".toList, "--nonoption".toList] 2 []).env.calls = [] :=
  have h := invalid_name_reported simple_registry ["prog".toList, "--nonoption".toList] 2 []
    (parse_start simple_registry []) ['-', '-'] "nonoption".toList none
    Reaches.start (by decide) (by decide) (by decide) (by decide) (by decide) (by decide)
  ⟨h.1, h.2.2.1 rfl (by decide), h.2.2.2⟩

/-- C12 (as stated) fails: on `simple_registry` the token `--bogus=1` has the
name-segment `bogus` and gives `PE_INVALID_NAME` with the context `bogus=1`; and
a token `--` followed by 256 characters `a` gives a context that is not its
name-segment. -/
theorem invalid_name_context_not_segment :
    (oparser_parse simple_registry ["prog".toList, "--bogus=1".toList] 2 []).env.result.error =
      PE_INVALID_NAME ∧
    (oparser_parse simple_registry ["prog".toList, "--bogus=1".toList] 2
      []).env.result.error_value = "bogus=1".toList ∧
    ("--bogus=1".toList.drop 2).take (count_option_chars ("--bogus=1".toList.drop 2)) =
      "bogus".toList ∧
    (oparser_parse simple_registry [[], '-' :: '-' :: long_name] 2 []).env.result.error =
      PE_INVALID_NAME ∧
    (oparser_parse simple_registry [[], '-' :: '-' :: long_name] 2 []).env.result.error_value ≠
      long_name := by
  decide

/-! ### C13 -/

/-- C13: a long-form token under the cursor of `oparser_parse` whose name-segment
is the single character `c`, where `c` (with what follows it) matches no
registered name and `scan_for_alias` finds `c` as the alias of the option `O` at
index `k`.  With always-check-alias the token is processed by the very steps
that `parse_name` takes for a token matched by name at index `k`
(`parse_name_found`): the duplicate rule (`PE_DUPLICATE`), the value rules
(`PE_VALUE_MISSING`, `PE_VALUE_GIVEN`, `PE_VALUE_INVALID`), and otherwise the
handler call `(O.name, O.alias, V)` followed by `O`'s sub-option group.  Without
the flag `oparser_parse` returns `PE_INVALID_NAME` and the token makes no
handler call. -/
theorem alias_retry_as_by_name (parser : OptionParser) (argv : List (List Char)) (argc : Nat)
    (calls : List Call) (w : World) (intro : List Char) (c : Char) (V : Option (List Char))
    (k : Nat) (O : OptionDef)
    (hr : Reaches parser argv argc calls w) (hi : w.env.i < argc)
    (hintro : long_intro w.parser.flags intro (name_value [c] V))
    (htok : argv.getD w.env.i [] = intro ++ name_value [c] V)
    (hc : c ≠ '=' ∧ c ≠ NUL)
    (hname : scan_for_name (name_value [c] V) (w.parser.options.map OptionDef.base) = none)
    (halias : scan_for_alias c (w.parser.options.map OptionDef.base) = some k)
    (hO : w.parser.options[k]? = some O) :
    (check_flag parser.flags PF_ALWAYS_CHECK_FOR_ALIAS = true →
      parse_string argv argc (argv.getD w.env.i []) 0 w =
        parse_name_found argv argc (name_value [c] V) 0 k w ∧
      (∀ s start, scan_for_name (s.drop start) (w.parser.options.map OptionDef.base) = some k →
        parse_name argv argc s start w = parse_name_found argv argc s start k w) ∧
      (encountered O.base = true → check_flag O.base.flags OF_DUPLICATES_ALLOWED = false →
        (oparser_parse parser argv argc calls).env.result.error = PE_DUPLICATE ∧
        (oparser_parse parser argv argc calls).env.calls = w.env.calls) ∧
      ((encountered O.base = false ∨ check_flag O.base.flags OF_DUPLICATES_ALLOWED = true) →
        (V = none → check_flag O.base.flags OF_VALUE_REQUIRED = true →
          (oparser_parse parser argv argc calls).env.result.error = PE_VALUE_MISSING ∧
          (oparser_parse parser argv argc calls).env.calls = w.env.calls) ∧
        (V ≠ none → check_flag O.base.flags OF_VALUE_NOT_ALLOWED = true →
          (oparser_parse parser argv argc calls).env.result.error = PE_VALUE_GIVEN ∧
          (oparser_parse parser argv argc calls).env.calls = w.env.calls) ∧
        (V = some [] → check_flag O.base.flags OF_VALUE_NOT_ALLOWED = false →
          (oparser_parse parser argv argc calls).env.result.error = PE_VALUE_INVALID ∧
          (oparser_parse parser argv argc calls).env.calls = w.env.calls) ∧
        (value_accepted O.base V →
          parse_string argv argc (argv.getD w.env.i []) 0 w =
            enter_sub_options argv argc k O.mark
              ((w.mark k O).call
                ⟨parser.handler, O.base.name, O.base.alias_, V, parser.data⟩)))) ∧
    (check_flag parser.flags PF_ALWAYS_CHECK_FOR_ALIAS = false →
      (oparser_parse parser argv argc calls).env.result.error = PE_INVALID_NAME ∧
      (oparser_parse parser argv argc calls).env.calls = w.env.calls) := by
  have hfix := reaches_fixed parser argv argc calls w hr
  simp only [OptionParser.fixed, Prod.mk.injEq] at hfix
  have hN : ∀ x ∈ [c], is_option_char x = true :=
    is_option_char_of [c] (by intro x hx; rw [List.mem_singleton] at hx; subst hx; exact hc)
  have hl := parse_name_lookup_alias w.parser.flags (w.parser.options.map OptionDef.base) c V hc
    hname
  have hT : parse_string argv argc (argv.getD w.env.i []) 0 w =
      parse_name argv argc (name_value [c] V) 0 w := by
    rw [htok, parse_string_intro argv argc intro _ w hintro]
  have hfail : ∀ (e : ParseError) (v : List Char) (w1 : World), e ≠ PE_NONE →
      w1.env.calls = w.env.calls → parse_name argv argc (name_value [c] V) 0 w = w1.fail e v →
      (oparser_parse parser argv argc calls).env.result.error = e ∧
      (oparser_parse parser argv argc calls).env.calls = w.env.calls := by
    intro e v w1 he hcalls hstep
    have hp := reaches_fail parser argv argc calls w hr hi
      (by rw [hT, hstep]; simpa [World.fail, Env.fail] using he)
    rw [hp, hT, hstep]
    exact ⟨rfl, hcalls⟩
  constructor
  · intro hflag
    rw [hfix.1] at hl
    rw [if_pos hflag, halias] at hl
    rw [← hfix.1] at hl
    refine ⟨?_, ?_, ?_, ?_⟩
    · rw [hT, parse_name_eq_found, hl]
    · intro s start hs
      rw [parse_name_eq_found, parse_name_lookup_name _ _ s start k hs]
    · intro henc hdup
      exact hfail _ _ w (by decide) rfl
        (parse_name_duplicate argv argc _ 0 w k O hl hO henc hdup)
    · intro hok
      refine ⟨?_, ?_, ?_, ?_⟩
      · intro hV hreq
        subst hV
        exact hfail _ _ (w.mark k O) (by decide) rfl
          (parse_name_value_missing argv argc [c] w k O hN hl hO hok hreq)
      · intro hV hforbid
        cases V with
        | none => exact absurd rfl hV
        | some v =>
          exact hfail _ _ (w.mark k O) (by decide) rfl
            (parse_name_value_given argv argc [c] v w k O hN hl hO hok hforbid)
      · intro hV hallow
        subst hV
        exact hfail _ _ (w.mark k O) (by decide) rfl
          (parse_name_value_invalid argv argc [c] w k O hN hl hO hok hallow)
      · intro hval
        rw [hT, parse_name_accept argv argc [c] V w k O hN hl hO hok hval, hfix.2.1, hfix.2.2]
  · intro hflag
    rw [hfix.1] at hl
    rw [if_neg (by rw [hflag]; decide)] at hl
    rw [← hfix.1] at hl
    exact hfail _ _ w (by decide) rfl (parse_name_invalid argv argc _ 0 w hl)

/-- C13 at `/t` on `simple_registry` (always-check-alias set): the handler is
called for `time`. -/
theorem alias_retry_as_by_name_witness :
    parse_string ["prog".toList, "/t".toList] 2 "/t".toList 0 (parse_start simple_registry []) =
      parse_name_found ["prog".toList, "/t".toList] 2 "t".toList 0 1
        (parse_start simple_registry []) ∧
    (parse_string ["prog".toList, "/t".toList] 2 "/t".toList 0
      (parse_start simple_registry [])).env.calls =
      [⟨1, "time".toList, char_int 't', none, 0⟩] :=
  have h := (alias_retry_as_by_name simple_registry ["prog".toList, "/t".toList] 2 []
    (parse_start simple_registry []) ['/'] 't' none 1
    ⟨⟨"time".toList, "Gets the time".toList, 4, char_int 't', OF_VALUE_NOT_ALLOWED⟩, none⟩
    Reaches.start (by decide) (by decide) (by decide) (by decide) (by decide) (by decide)
    (by decide)).1 (by decide)
  ⟨h.1, (congrArg (fun x => x.env.calls)
    ((h.2.2.2 (Or.inl (by decide))).2.2.2 (by decide))).trans (by decide)⟩

/-! ### C14 -/

/-- C14 (amended): under always-check-alias, a long-form token under the cursor
of `oparser_parse` whose name-segment is the single character `c`, where `c`
(with what follows it) matches no registered name and `c` is no registered
alias, makes `oparser_parse` return `PE_INVALID_NAME` (not `PE_INVALID_ALIAS`);
the context is the first 255 characters of the text after the introducer, and
no handler call is made for the token. -/
theorem alias_retry_miss_reported (parser : OptionParser) (argv : List (List Char)) (argc : Nat)
    (calls : List Call) (w : World) (intro : List Char) (c : Char) (V : Option (List Char))
    (hr : Reaches parser argv argc calls w) (hi : w.env.i < argc)
    (hintro : long_intro w.parser.flags intro (name_value [c] V))
    (htok : argv.getD w.env.i [] = intro ++ name_value [c] V)
    (hc : c ≠ '=' ∧ c ≠ NUL)
    (hflag : check_flag parser.flags PF_ALWAYS_CHECK_FOR_ALIAS = true)
    (hname : scan_for_name (name_value [c] V) (w.parser.options.map OptionDef.base) = none)
    (halias : scan_for_alias c (w.parser.options.map OptionDef.base) = none) :
    (oparser_parse parser argv argc calls).env.result.error = PE_INVALID_NAME ∧
    (oparser_parse parser argv argc calls).env.result.error_value =
      (name_value [c] V).take 255 ∧
    (oparser_parse parser argv argc calls).env.calls = w.env.calls := by
  have hfix := reaches_fixed parser argv argc calls w hr
  simp only [OptionParser.fixed, Prod.mk.injEq] at hfix
  have hl := parse_name_lookup_alias w.parser.flags (w.parser.options.map OptionDef.base) c V hc
    hname
  rw [hfix.1, if_pos hflag, halias, ← hfix.1] at hl
  have hstep : parse_string argv argc (argv.getD w.env.i []) 0 w =
      w.fail PE_INVALID_NAME (snprintf ERROR_BUFFER_SIZE (name_value [c] V)) := by
    rw [htok, parse_string_intro argv argc intro _ w hintro,
      parse_name_invalid argv argc _ 0 w hl, List.drop_zero]
  have hp := reaches_fail parser argv argc calls w hr hi (by rw [hstep]; simp [World.fail, Env.fail])
  rw [hp, hstep]
  exact ⟨rfl, rfl, rfl⟩

/-- C14 (amended) at `/p` on `simple_registry`. -/
theorem alias_retry_miss_reported_witness :
    (oparser_parse simple_registry ["prog".toList, "/p".toList] 2 []).env.result.error =
      PE_INVALID_NAME ∧
    (oparser_parse simple_registry ["prog".toList, "/p".toList] 2 []).env.result.error_value =
      "p".toList ∧
    (oparser_parse simple_registry ["prog".toList, "/p".toList] 2 []).env.calls = [] :=
  alias_retry_miss_reported simple_registry ["prog".toList, "/p".toList] 2 []
    (parse_start simple_registry []) ['/'] 'p' none
    Reaches.start (by decide) (by decide) (by decide) (by decide) (by decide) (by decide)
    (by decide)

/-- C14 (as stated) fails: on `simple_registry`, which has always-check-alias
set, the token `/p` (no option is named `p`, none has the alias `p`) gives
`PE_INVALID_NAME`, not `PE_INVALID_ALIAS`. -/
theorem alias_retry_miss_not_invalid_alias :
    check_flag simple_registry.flags PF_ALWAYS_CHECK_FOR_ALIAS = true ∧
    scan_for_name "p".toList (simple_registry.options.map OptionDef.base) = none ∧
    scan_for_alias 'p' (simple_registry.options.map OptionDef.base) = none ∧
    (oparser_parse simple_registry ["prog".toList, "/p".toList] 2 []).env.result.error =
      PE_INVALID_NAME ∧
    (oparser_parse simple_registry ["prog".toList, "/p".toList] 2 []).env.result.error ≠
      PE_INVALID_ALIAS := by
  decide

/-! ### C15 -/

/-- C15 (amended): the long-name introducers are interchangeable for a token
that the loop of `oparser_parse` itself classifies.  Let two argument vectors
hold the same tokens except at one position, where one holds `intro1 ++ s` and
the other `intro2 ++ s`, each introducer being `--`, `/`, or `-` under
dash-as-full-option when `s` does not begin with `-`; if the loop of
`oparser_parse` stands at that position in the same state for both vectors,
then the token is processed identically and the two parses end in the same
state: same result (error kind, context, count), same handler calls, same
registry (remainder and encountered bits). -/
theorem introducers_interchangeable (parser : OptionParser) (argv1 argv2 : List (List Char))
    (argc : Nat) (calls : List Call) (w : World) (intro1 intro2 s : List Char)
    (hr1 : Reaches parser argv1 argc calls w) (hr2 : Reaches parser argv2 argc calls w)
    (h1 : long_intro parser.flags intro1 s) (h2 : long_intro parser.flags intro2 s)
    (htok1 : argv1.getD w.env.i [] = intro1 ++ s) (htok2 : argv2.getD w.env.i [] = intro2 ++ s)
    (hsame : ∀ i, i ≠ w.env.i → argv1.getD i [] = argv2.getD i []) :
    parse_string argv1 argc (argv1.getD w.env.i []) 0 w =
      parse_string argv2 argc (argv2.getD w.env.i []) 0 w ∧
    oparser_parse parser argv1 argc calls = oparser_parse parser argv2 argc calls := by
  have hfix := reaches_fixed parser argv1 argc calls w hr1
  simp only [OptionParser.fixed, Prod.mk.injEq] at hfix
  have hagree : agree_from (w.env.i + 1) argv1 argv2 := fun i hi => hsame i (by omega)
  rw [← hfix.1] at h1 h2
  constructor
  · rw [htok1, htok2, parse_string_intro argv1 argc intro1 s w h1,
      parse_string_intro argv2 argc intro2 s w h2]
    exact parse_name_congr argv1 argv2 argc s 0 w hagree
  · rw [reaches_loop parser argv1 argc calls w hr1, reaches_loop parser argv2 argc calls w hr2,
      parse_loop_intro argv1 argv2 argc w intro1 intro2 s h1 h2 htok1 htok2 hagree]

/-- C15 (amended) on `advance_registry`, where dash-as-full-option is set: the
first token `--required` may be replaced by `-required`. -/
theorem introducers_interchangeable_witness :
    oparser_parse advance_registry ["prog".toList, "--required".toList, "--duplicate".toList] 3
        [] =
      oparser_parse advance_registry ["prog".toList, "-required".toList, "--duplicate".toList] 3
        [] :=
  (introducers_interchangeable advance_registry
    ["prog".toList, "--required".toList, "--duplicate".toList]
    ["prog".toList, "-required".toList, "--duplicate".toList] 3 []
    (parse_start advance_registry []) ['-', '-'] ['-'] "required".toList
    Reaches.start Reaches.start (by decide) (by decide) (by decide) (by decide)
    (by intro i hi
        have hi1 : i ≠ 1 := hi
        match i, hi1 with
        | 0, _ => rfl
        | 1, h => exact absurd rfl h
        | 2, _ => rfl
        | n + 3, _ => rfl)).2

/-- C15 (as stated) fails: on `slash_sub_registry` the vectors
`[prog, --sub, --x]` and `[prog, --sub, /x]` differ only in the introducer of
their last token, and the first ends with a handler call for the option `x`, the
second with a call for the sub-option `/x` of `sub`. -/
theorem introducers_not_interchangeable :
    (oparser_parse slash_sub_registry ["prog".toList, "--sub".toList, "--x".toList] 3
      []).env.calls =
      [⟨2, "sub".toList, char_int 's', none, 0⟩, ⟨2, "x".toList, char_int 'x', none, 0⟩] ∧
    (oparser_parse slash_sub_registry ["prog".toList, "--sub".toList, "/x".toList] 3
      []).env.calls =
      [⟨2, "sub".toList, char_int 's', none, 0⟩, ⟨3, "/x".toList, char_int 'y', none, 0⟩] := by
  decide

/-! ### C16 -/

/-- C16: with dash-as-full-option unset, let the token `-s` stand under the
cursor of `oparser_parse`, let the first `j` characters of `s` be an accepted
alias run (each alphanumeric and the alias of an option that passes the
duplicate check and does not require a value), and let `s[j]` be alphanumeric
and the alias of no registered option; then `oparser_parse` returns
`PE_INVALID_ALIAS`, the context is the one-character string `s[j]`, and the
handler calls made for the first `j` characters stand. -/
theorem invalid_alias_reported (parser : OptionParser) (argv : List (List Char)) (argc : Nat)
    (calls : List Call) (w0 : World) (s : List Char) (ks : List Nat) (w : World)
    (hr : Reaches parser argv argc calls w0) (hi : w0.env.i < argc)
    (htok : argv.getD w0.env.i [] = '-' :: s)
    (hflag : check_flag parser.flags PF_TREAT_DASH_AS_FULL_OPTION = false)
    (hrun : AliasReaches argv argc ('-' :: s) w0 ks w)
    (hal : isalnum (char_at s ks.length) = true)
    (hmiss : scan_for_alias (char_at s ks.length) (w.parser.options.map OptionDef.base) =
      none) :
    (oparser_parse parser argv argc calls).env.result.error = PE_INVALID_ALIAS ∧
    (oparser_parse parser argv argc calls).env.result.error_value = [char_at s ks.length] ∧
    (oparser_parse parser argv argc calls).env.calls = w.env.calls := by
  have hfix := reaches_fixed parser argv argc calls w0 hr
  simp only [OptionParser.fixed, Prod.mk.injEq] at hfix
  have hc : char_at ('-' :: s) (1 + ks.length) = char_at s ks.length := by
    rw [Nat.add_comm]; exact char_at_succ_cons _ _ _
  have hal' : isalnum (char_at ('-' :: s) (1 + ks.length)) = true := by rw [hc]; exact hal
  have h1 : char_at ('-' :: s) 1 ≠ '-' := by
    apply isalnum_ne_dash
    by_cases hks : ks = []
    · subst hks; exact hal'
    · exact alias_reaches_first argv argc _ w0 ks w hrun hks
  have hlt := isalnum_lt _ _ hal'
  obtain ⟨f, hf⟩ : ∃ f, ('-' :: s).length - (1 + ks.length) = f + 1 :=
    ⟨('-' :: s).length - (1 + ks.length) - 1, by omega⟩
  have hstep : parse_string argv argc (argv.getD w0.env.i []) 0 w0 =
      w.fail PE_INVALID_ALIAS [char_at s ks.length] := by
    rw [htok, parse_string_alias argv argc ('-' :: s) w0 rfl h1 (by rw [hfix.1]; exact hflag),
      alias_reaches_loop argv argc _ w0 ks w hrun, hf,
      parse_alias_loop_miss argv argc _ f 1 ks.length w hal' (by rw [hc]; exact hmiss), hc]
  have hp := reaches_fail parser argv argc calls w0 hr hi
    (by rw [hstep]; simp [World.fail, Env.fail])
  rw [hp, hstep]
  exact ⟨rfl, rfl, rfl⟩

/-- C16 at `-p` on `simple_registry`. -/
theorem invalid_alias_reported_witness :
    (oparser_parse simple_registry ["prog".toList, "-p".toList] 2 []).env.result.error =
      PE_INVALID_ALIAS ∧
    (oparser_parse simple_registry ["prog".toList, "-p".toList] 2 []).env.result.error_value =
      "p".toList ∧
    (oparser_parse simple_registry ["prog".toList, "-p".toList] 2 []).env.calls = [] :=
  invalid_alias_reported simple_registry ["prog".toList, "-p".toList] 2 []
    (parse_start simple_registry []) "p".toList [] (parse_start simple_registry [])
    Reaches.start (by decide) (by decide) (by decide) AliasReaches.start (by decide) (by decide)

/-! ### C17 -/

/-- C17 (amended): with dash-as-full-option unset, let a token that begins with
`-` stand under the cursor of `oparser_parse`, let the `j` characters after the
dash be an accepted alias run, and let the character after the run be neither
alphanumeric nor the end of the token (and, when the run is empty, not a second
`-`); then `oparser_parse` returns `PE_INVALID_ALIAS_TOKEN`, the context is the
first 255 characters of the whole token (the whole token when it is shorter than
the 256-byte buffer), and the handler calls made for the run stand. -/
theorem invalid_alias_token_reported (parser : OptionParser) (argv : List (List Char))
    (argc : Nat) (calls : List Call) (w0 : World) (s : List Char) (ks : List Nat) (w : World)
    (hr : Reaches parser argv argc calls w0) (hi : w0.env.i < argc)
    (htok : argv.getD w0.env.i [] = '-' :: s)
    (hflag : check_flag parser.flags PF_TREAT_DASH_AS_FULL_OPTION = false)
    (hrun : AliasReaches argv argc ('-' :: s) w0 ks w)
    (hstop : isalnum (char_at s ks.length) = false)
    (hend : char_at s ks.length ≠ NUL)
    (hfirst : ks = [] → char_at s 0 ≠ '-') :
    (oparser_parse parser argv argc calls).env.result.error = PE_INVALID_ALIAS_TOKEN ∧
    (oparser_parse parser argv argc calls).env.result.error_value = ('-' :: s).take 255 ∧
    (('-' :: s).length < 256 →
      (oparser_parse parser argv argc calls).env.result.error_value = '-' :: s) ∧
    (oparser_parse parser argv argc calls).env.calls = w.env.calls := by
  have hfix := reaches_fixed parser argv argc calls w0 hr
  simp only [OptionParser.fixed, Prod.mk.injEq] at hfix
  have hc : char_at ('-' :: s) (1 + ks.length) = char_at s ks.length := by
    rw [Nat.add_comm]; exact char_at_succ_cons _ _ _
  have h1 : char_at ('-' :: s) 1 ≠ '-' := by
    by_cases hks : ks = []
    · exact hfirst hks
    · exact isalnum_ne_dash _ (alias_reaches_first argv argc _ w0 ks w hrun hks)
  have hstep : parse_string argv argc (argv.getD w0.env.i []) 0 w0 =
      w.fail PE_INVALID_ALIAS_TOKEN (snprintf ERROR_BUFFER_SIZE ('-' :: s)) := by
    rw [htok, parse_string_alias argv argc ('-' :: s) w0 rfl h1 (by rw [hfix.1]; exact hflag),
      alias_reaches_loop argv argc _ w0 ks w hrun,
      parse_alias_loop_stop argv argc _ _ 1 ks.length w (by rw [hc]; exact hstop)]
    unfold parse_alias_end
    rw [hc, if_neg hend]
  have hp := reaches_fail parser argv argc calls w0 hr hi
    (by rw [hstep]; simp [World.fail, Env.fail])
  rw [hp, hstep]
  refine ⟨rfl, rfl, ?_, rfl⟩
  intro hlen
  exact snprintf_short _ hlen

/-- C17 (amended) at `-a+` on `simple_registry`: the run is the alias `a` of the
option `any`. -/
theorem invalid_alias_token_reported_witness :
    (oparser_parse simple_registry ["prog".toList, "-a+".toList] 2 []).env.result.error =
      PE_INVALID_ALIAS_TOKEN ∧
    (oparser_parse simple_registry ["prog".toList, "-a+".toList] 2 []).env.result.error_value =
      "-a+".toList ∧
    (oparser_parse simple_registry ["prog".toList, "-a+".toList] 2 []).env.calls =
      [⟨1, "any".toList, char_int 'a', none, 0⟩] :=
  have h := invalid_alias_token_reported simple_registry ["prog".toList, "-a+".toList] 2 []
    (parse_start simple_registry []) "a+".toList [2] _
    Reaches.start (by decide) (by decide) (by decide)
    (AliasReaches.step [] (parse_start simple_registry []) 2
      ⟨⟨"any".toList, "Gets or sets any value".toList, 3, char_int 'a', OF_NONE⟩, none⟩
      AliasReaches.start (by decide) (by decide) (by decide) (by decide) (by decide) (by decide))
    (by decide) (by decide) (by decide)
  ⟨h.1, h.2.2.1 (by decide), h.2.2.2.trans (by decide)⟩

/-- C17 (as stated) fails: on `alias_run_registry` the token of 256 characters
made of a dash, 254 times the alias `d` (of `duplicate`, which allows
duplicates) and a plus sign gives `PE_INVALID_ALIAS_TOKEN` with a context that
is not the whole token; and a token whose run is empty and followed by a second
dash, `--duplicate`, is a long-form token and is accepted. -/
theorem invalid_alias_token_context_not_token :
    (oparser_parse alias_run_registry [[], long_alias_token] 2 []).env.result.error =
      PE_INVALID_ALIAS_TOKEN ∧
    (oparser_parse alias_run_registry [[], long_alias_token] 2 []).env.result.error_value ≠
      long_alias_token ∧
    (oparser_parse alias_run_registry ["prog".toList, "--duplicate".toList] 2
      []).env.result.error ≠ PE_INVALID_ALIAS_TOKEN := by
  decide

/-! ### C18 -/

/-- C18 (the code evaluated): with settable-flags set and dash-as-full-option
unset, let the token `-c=V` stand under the cursor of `oparser_parse`, where `c`
is alphanumeric and the alias of the option `O`, and `O` passes the duplicate
check, does not require a value and does not forbid one.  Then the handler is
called for `O` with the value `=V`, equals sign included, whatever `V` is (also
when `V` is empty), and `oparser_parse` returns `PE_INVALID_ALIAS_TOKEN` with
the first 255 characters of the whole token as context; the long form
`--<O.name>=V` passes the value `V` and reports no error. -/
theorem settable_flag_value_misread (parser : OptionParser) (argv : List (List Char))
    (argc : Nat) (calls : List Call) (w : World) (c : Char) (V : List Char) (k : Nat)
    (O : OptionDef)
    (hr : Reaches parser argv argc calls w) (hi : w.env.i < argc)
    (htok : argv.getD w.env.i [] = '-' :: c :: '=' :: V)
    (hflag : check_flag parser.flags PF_TREAT_DASH_AS_FULL_OPTION = false)
    (hset : check_flag parser.flags PF_SETTABLE_FLAGS = true)
    (hal : isalnum c = true)
    (hscan : scan_for_alias c (w.parser.options.map OptionDef.base) = some k)
    (hO : w.parser.options[k]? = some O)
    (hdup : encountered O.base = false ∨ check_flag O.base.flags OF_DUPLICATES_ALLOWED = true)
    (hreq : check_flag O.base.flags OF_VALUE_REQUIRED = false)
    (hforbid : check_flag O.base.flags OF_VALUE_NOT_ALLOWED = false) :
    (oparser_parse parser argv argc calls).env.result.error = PE_INVALID_ALIAS_TOKEN ∧
    (oparser_parse parser argv argc calls).env.result.error_value =
      ('-' :: c :: '=' :: V).take 255 ∧
    Extends (w.env.calls ++ [⟨parser.handler, O.base.name, O.base.alias_, some ('=' :: V),
      parser.data⟩]) (oparser_parse parser argv argc calls).env.calls ∧
    (O.sub_options = none →
      (oparser_parse parser argv argc calls).env.calls =
        w.env.calls ++ [⟨parser.handler, O.base.name, O.base.alias_, some ('=' :: V),
          parser.data⟩]) := by
  have hfix := reaches_fixed parser argv argc calls w hr
  simp only [OptionParser.fixed, Prod.mk.injEq] at hfix
  have h1 : char_at ('-' :: c :: '=' :: V) 1 ≠ '-' := isalnum_ne_dash c hal
  have hstep : parse_string argv argc (argv.getD w.env.i []) 0 w =
      (enter_sub_options argv argc k O.mark
        ((w.mark k O).call
          ⟨parser.handler, O.base.name, O.base.alias_, some ('=' :: V), parser.data⟩)).fail
        PE_INVALID_ALIAS_TOKEN (snprintf ERROR_BUFFER_SIZE ('-' :: c :: '=' :: V)) := by
    rw [htok, parse_string_alias argv argc ('-' :: c :: '=' :: V) w rfl h1
        (by rw [hfix.1]; exact hflag),
      parse_alias_settable argv argc c V w k O (by rw [hfix.1]; exact hset) hal hscan hO hdup
        hreq hforbid, hfix.2.1, hfix.2.2]
  have hp := reaches_fail parser argv argc calls w hr hi
    (by rw [hstep]; simp [World.fail, Env.fail])
  rw [hp, hstep]
  refine ⟨rfl, rfl, ?_, ?_⟩
  · exact enter_sub_options_calls _ _ _ _ _
  · intro hsub
    rw [enter_sub_options_none argv argc k O.mark _ (by simpa [OptionDef.mark, OptionDef.with_base] using hsub)]
    rfl

/-- C18 at `-a=xyz` on `settable_registry`, next to the long form `--any=xyz`;
and `-a=` ends in `PE_INVALID_ALIAS_TOKEN` where `--any=` gives
`PE_VALUE_INVALID`. -/
theorem settable_flag_value_misread_witness :
    (oparser_parse settable_registry ["prog".toList, "-a=xyz".toList] 2 []).env.result.error =
      PE_INVALID_ALIAS_TOKEN ∧
    (oparser_parse settable_registry ["prog".toList, "-a=xyz".toList] 2
      []).env.result.error_value = "-a=xyz".toList ∧
    (oparser_parse settable_registry ["prog".toList, "-a=xyz".toList] 2 []).env.calls =
      [⟨1, "any".toList, char_int 'a', some "=xyz".toList, 0⟩] ∧
    (oparser_parse settable_registry ["prog".toList, "--any=xyz".toList] 2 []).env.result.error =
      PE_NONE ∧
    (oparser_parse settable_registry ["prog".toList, "--any=xyz".toList] 2 []).env.calls =
      [⟨1, "any".toList, char_int 'a', some "xyz".toList, 0⟩] ∧
    (oparser_parse settable_registry ["prog".toList, "-a=".toList] 2 []).env.result.error =
      PE_INVALID_ALIAS_TOKEN ∧
    (oparser_parse settable_registry ["prog".toList, "--any=".toList] 2 []).env.result.error =
      PE_VALUE_INVALID :=
  have h := settable_flag_value_misread settable_registry ["prog".toList, "-a=xyz".toList] 2 []
    (parse_start settable_registry []) 'a' "xyz".toList 2
    ⟨⟨"any".toList, "Gets or sets any value".toList, 3, char_int 'a', OF_NONE⟩, none⟩
    Reaches.start (by decide) (by decide) (by decide) (by decide) (by decide) (by decide)
    (by decide) (by decide) (by decide) (by decide)
  ⟨h.1, h.2.1, h.2.2.2 rfl, by decide, by decide, by decide, by decide⟩

/-! ### C19 -/

/-- C19 (the code evaluated): no parse ends with `PE_INVALID_NAME_TOKEN`: the
`switch` of `parse_name` reads the character at which its own scan for `=` or
the end of the token has stopped, so its `default` case is never taken.  On
`simple_registry` the token `--anyfoo`, in which the name `any` is followed by
`f`, calls the handler for `any` and reports no error. -/
theorem invalid_name_token_never_reported (parser : OptionParser) (argv : List (List Char))
    (argc : Nat) (calls : List Call) :
    (oparser_parse parser argv argc calls).env.result.error ≠ PE_INVALID_NAME_TOKEN ∧
    scan_for_name "anyfoo".toList (simple_registry.options.map OptionDef.base) = some 2 ∧
    (oparser_parse simple_registry ["prog".toList, "--anyfoo".toList] 2 []).env.result.error =
      PE_NONE ∧
    (oparser_parse simple_registry ["prog".toList, "--anyfoo".toList] 2 []).env.calls =
      [⟨1, "any".toList, char_int 'a', none, 0⟩] :=
  ⟨oparser_parse_not_name_token parser argv argc calls, by decide, by decide, by decide⟩

/-! ### C20 -/

/-- C20 (the code evaluated): the function `parse_name` never changes
`options_parsed`; only the branch of `parse_alias` without a value has
`options_parsed++`.  On `simple_registry` the successful parse of
`[prog, --name=Moo]` makes one handler call and reports `options_parsed = 0`,
while the alias run `-a` reports `options_parsed = 1`. -/
theorem options_parsed_not_counted (argv : List (List Char)) (argc : Nat) (s : List Char)
    (start : Nat) (w : World) :
    (parse_name argv argc s start w).env.result.options_parsed = w.env.result.options_parsed ∧
    (oparser_parse simple_registry ["prog".toList, "--name=Moo".toList] 2 []).env.result.error =
      PE_NONE ∧
    (oparser_parse simple_registry ["prog".toList, "--name=Moo".toList] 2 []).env.calls =
      [⟨1, "name".toList, char_int 'n', some "Moo".toList, 0⟩] ∧
    (oparser_parse simple_registry ["prog".toList, "--name=Moo".toList] 2
      []).env.result.options_parsed = 0 ∧
    (oparser_parse simple_registry ["prog".toList, "-a".toList] 2 []).env.result.error =
      PE_NONE ∧
    (oparser_parse simple_registry ["prog".toList, "-a".toList] 2
      []).env.result.options_parsed = 1 :=
  ⟨parse_name_options_parsed argv argc s start w, by decide, by decide, by decide, by decide,
    by decide⟩

/-! ### C21 -/

/-- C21: on a registry whose encountered bits, of the top-level options and of
the sub-options, are all clear, a call of `oparser_parse` that returns `PE_NONE`
leaves every encountered bit clear again, and the definitions as they were; so
a further parse on the registry it leaves, of the same or of any other argument
vector, ends in the same state as that parse on the registry before the call:
same result, same handler calls, same registry. -/
theorem registry_reusable_after_success (parser : OptionParser) (argv : List (List Char))
    (argc : Nat) (calls : List Call)
    (hclear : all_clear parser = true)
    (hok : (oparser_parse parser argv argc calls).env.result.error = PE_NONE) :
    all_clear (oparser_parse parser argv argc calls).parser = true ∧
    (oparser_parse parser argv argc calls).parser.options = parser.options ∧
    oparser_parse (oparser_parse parser argv argc calls).parser argv argc calls =
      oparser_parse parser argv argc calls ∧
    (∀ (argv1 : List (List Char)) (argc1 : Nat) (calls1 : List Call),
      oparser_parse (oparser_parse parser argv argc calls).parser argv1 argc1 calls1 =
        oparser_parse parser argv1 argc1 calls1) := by
  have h := parse_success_restores parser hclear argv argc calls hok
  refine ⟨?_, h.1, oparser_parse_start _ _ argv argc calls h.1 h.2,
    fun argv1 argc1 calls1 => oparser_parse_start _ _ argv1 argc1 calls1 h.1 h.2⟩
  unfold all_clear at hclear ⊢
  rw [h.1]; exact hclear

/-- C21 on `advance_registry` with the argument vector of
`test_parser_sub_option`, which uses the sub-options of `sub`. -/
theorem registry_reusable_after_success_witness :
    all_clear (oparser_parse advance_registry sub_argv 5 []).parser = true ∧
    oparser_parse (oparser_parse advance_registry sub_argv 5 []).parser sub_argv 5 [] =
      oparser_parse advance_registry sub_argv 5 [] :=
  have h := registry_reusable_after_success advance_registry sub_argv 5 [] (by decide)
    (by decide)
  ⟨h.1, h.2.2.1⟩

/-! ### C22 -/

/-- C22 (amended): on a registry that is left by a sequence of calls of
`oparser_parse` that all returned `PE_NONE`, starting from a registry with all
encountered bits clear, every encountered bit is clear and the next call ends
in the same state (result, handler calls, registry) as on the registry the
sequence started from. -/
theorem next_parse_as_fresh (p0 p : OptionParser) (argv : List (List Char)) (argc : Nat)
    (calls : List Call) (hclear : all_clear p0 = true) (hseq : AfterParses p0 p) :
    all_clear p = true ∧
    oparser_parse p argv argc calls = oparser_parse p0 argv argc calls := by
  have h := after_parses_same p0 p hclear hseq
  refine ⟨?_, oparser_parse_start _ _ argv argc calls h.1 h.2⟩
  unfold all_clear at hclear ⊢
  rw [h.1]; exact hclear

/-- C22 (amended) on `advance_registry`: after the successful parse of
`[prog, --required, moo]`, the parse of `[prog, --required]` succeeds as on the
fresh registry. -/
theorem next_parse_as_fresh_witness :
    oparser_parse
      (oparser_parse advance_registry ["prog".toList, "--required".toList, "moo".toList] 3
        []).parser ["prog".toList, "--required".toList] 2 [] =
      oparser_parse advance_registry ["prog".toList, "--required".toList] 2 [] :=
  (next_parse_as_fresh advance_registry _ ["prog".toList, "--required".toList] 2 []
    (by decide)
    (AfterParses.call advance_registry ["prog".toList, "--required".toList, "moo".toList] 3 []
      AfterParses.fresh (by decide))).2

/-- C22 (as stated) fails: on `advance_registry` the call on
`[prog, --required, --bogus]` ends with `PE_INVALID_NAME` and leaves the
encountered bit of `required` set; the next call, on `[prog, --required]`,
observes it and returns `PE_DUPLICATE`, while the same call on the fresh
registry returns `PE_NONE`. -/
theorem stale_bit_after_failed_parse :
    (oparser_parse advance_registry ["prog".toList, "--required".toList, "--bogus".toList] 3
      []).env.result.error = PE_INVALID_NAME ∧
    all_clear (oparser_parse advance_registry
      ["prog".toList, "--required".toList, "--bogus".toList] 3 []).parser = false ∧
    (oparser_parse
      (oparser_parse advance_registry ["prog".toList, "--required".toList, "--bogus".toList] 3
        []).parser ["prog".toList, "--required".toList] 2 []).env.result.error =
      PE_DUPLICATE ∧
    (oparser_parse advance_registry ["prog".toList, "--required".toList] 2
      []).env.result.error = PE_NONE := by
  decide

/-! ### C23 -/

/-- C23 (the code evaluated): the function `parse_alias` does not test
`result->error` after `parse_sub_options`, so an alias run goes on after the
sub-option group of one of its characters has recorded an error.  On
`alias_sub_registry` (the registry `advance_parser` with a single dash
introducing an alias run) and `[prog, -sd]`: after the character `s` the state
of the run holds `PE_REQUIRED_MISSING` with the context `sub.animal` and the one
handler call for `sub`, and the parse ends with a second handler call, for
`duplicate`.  On `[prog, -sq]` the same first error is replaced: the parse
returns `PE_INVALID_ALIAS` with the context `q`. -/
theorem alias_run_goes_on_after_error :
    (∃ w1, AliasReaches ["prog".toList, "-sd".toList] 2 "-sd".toList
        (parse_start alias_sub_registry []) [2] w1 ∧
      w1.env.result.error = PE_REQUIRED_MISSING ∧
      w1.env.result.error_value = "sub.animal".toList ∧
      w1.env.calls = [⟨2, "sub".toList, char_int 's', none, 0⟩]) ∧
    (oparser_parse alias_sub_registry ["prog".toList, "-sd".toList] 2 []).env.calls =
      [⟨2, "sub".toList, char_int 's', none, 0⟩,
       ⟨2, "duplicate".toList, char_int 'd', none, 0⟩] ∧
    (oparser_parse alias_sub_registry ["prog".toList, "-sd".toList] 2 []).env.result.error =
      PE_REQUIRED_MISSING ∧
    (oparser_parse alias_sub_registry ["prog".toList, "-sq".toList] 2 []).env.result.error =
      PE_INVALID_ALIAS ∧
    (oparser_parse alias_sub_registry ["prog".toList, "-sq".toList] 2
      []).env.result.error_value = "q".toList :=
  ⟨⟨_, AliasReaches.step [] (parse_start alias_sub_registry []) 2
      ⟨⟨"sub".toList, "An option with suboptions".toList, 3, char_int 's', OF_NONE⟩,
        some advance_subregistry⟩
      AliasReaches.start (by decide) (by decide) (by decide) (by decide) (by decide)
      (by decide), by decide, by decide, by decide⟩,
    by decide, by decide, by decide, by decide⟩

/-! ### C24 -/

/-- C24: the functions `oparser_add_option` and `osubparser_add_option` return
NULL exactly when the flags hold both `OF_VALUE_REQUIRED` and
`OF_VALUE_NOT_ALLOWED`; then the registry is unchanged; otherwise the new index
is the old option count and the registry is the old one with one definition
appended, which carries the given name, alias, flags and doc string, the length
of the name as `name_length` and, for a top-level option, no sub-registry. -/
theorem add_option_contract (parser : OptionParser) (sub : OptionSubParser)
    (option_name : List Char) (alias_ : Int) (flags : Nat) (doc_string : List Char) :
    ((oparser_add_option parser option_name alias_ flags doc_string).1 = none ↔
      (check_flag flags OF_VALUE_REQUIRED = true ∧
        check_flag flags OF_VALUE_NOT_ALLOWED = true)) ∧
    ((oparser_add_option parser option_name alias_ flags doc_string).1 = none →
      (oparser_add_option parser option_name alias_ flags doc_string).2 = parser) ∧
    ((oparser_add_option parser option_name alias_ flags doc_string).1 ≠ none →
      (oparser_add_option parser option_name alias_ flags doc_string).1 =
        some parser.options.length ∧
      (oparser_add_option parser option_name alias_ flags doc_string).2 =
        { parser with options := parser.options ++
          [⟨⟨option_name, doc_string, option_name.length, alias_, flags⟩, none⟩] }) ∧
    ((osubparser_add_option sub option_name alias_ flags doc_string).1 = none ↔
      (check_flag flags OF_VALUE_REQUIRED = true ∧
        check_flag flags OF_VALUE_NOT_ALLOWED = true)) ∧
    ((osubparser_add_option sub option_name alias_ flags doc_string).1 = none →
      (osubparser_add_option sub option_name alias_ flags doc_string).2 = sub) ∧
    ((osubparser_add_option sub option_name alias_ flags doc_string).1 ≠ none →
      (osubparser_add_option sub option_name alias_ flags doc_string).1 =
        some sub.options.length ∧
      (osubparser_add_option sub option_name alias_ flags doc_string).2 =
        { sub with options := sub.options ++
          [⟨⟨option_name, doc_string, option_name.length, alias_, flags⟩⟩] }) := by
  have hv := verify_flags_iff flags
  unfold oparser_add_option osubparser_add_option
  cases h : verify_flags flags
  · have hb := hv.1 h
    simp [hb]
  · have hb : ¬ (check_flag flags OF_VALUE_REQUIRED = true ∧
        check_flag flags OF_VALUE_NOT_ALLOWED = true) := by
      intro hc
      rw [hv.2 hc] at h
      exact absurd h (by decide)
    simp [hb]

/-! ### C25 -/

/-- C25: the function `oparser_get_error_string` returns NULL exactly when the
error of the result is `PE_NONE`; for every other error kind it returns a text
that is fixed by the kind, followed by the context of the result and nothing
else: `Encountered invalid option: ` for `PE_INVALID_NAME`,
`Encountered an invalid duplicate option: ` for `PE_DUPLICATE`,
`Missing required option: ` for `PE_REQUIRED_MISSING`,
`Cannot accept non-option value: ` for `PE_REMAINDER`; so the message for
`--nonoption` on `simple_registry` is `Encountered invalid option: nonoption`. -/
theorem error_string_contract (result : ParseResult) :
    (oparser_get_error_string result = none ↔ result.error = PE_NONE) ∧
    (∃ template : ParseError → List Char, ∀ r : ParseResult, r.error ≠ PE_NONE →
      oparser_get_error_string r = some (template r.error ++ r.error_value)) ∧
    (result.error = PE_INVALID_NAME → oparser_get_error_string result =
      some ("Encountered invalid option: ".toList ++ result.error_value)) ∧
    (result.error = PE_DUPLICATE → oparser_get_error_string result =
      some ("Encountered an invalid duplicate option: ".toList ++ result.error_value)) ∧
    (result.error = PE_REQUIRED_MISSING → oparser_get_error_string result =
      some ("Missing required option: ".toList ++ result.error_value)) ∧
    (result.error = PE_REMAINDER → oparser_get_error_string result =
      some ("Cannot accept non-option value: ".toList ++ result.error_value)) ∧
    oparser_get_error_string
      (oparser_parse simple_registry ["prog".toList, "--nonoption".toList] 2 []).env.result =
      some "Encountered invalid option: nonoption".toList ∧
    oparser_get_error_string
      (oparser_parse simple_registry ["prog".toList, "--time".toList, "moo".toList] 3
        []).env.result =
      some "Cannot accept non-option value: moo".toList := by
  refine ⟨?_, ?_, ?_, ?_, ?_, ?_, by decide, by decide⟩
  · unfold oparser_get_error_string
    cases result.error <;> simp
  · refine ⟨fun e => match e with
      | PE_NONE => []
      | PE_INVALID_NAME => "Encountered invalid option: ".toList
      | PE_INVALID_ALIAS => "Encountered invalid option alias: ".toList
      | PE_INVALID_NAME_TOKEN => "Encountered invalid token in option: ".toList
      | PE_INVALID_ALIAS_TOKEN => "Encountered invalid token in alias list: ".toList
      | PE_DUPLICATE => "Encountered an invalid duplicate option: ".toList
      | PE_REQUIRED_MISSING => "Missing required option: ".toList
      | PE_VALUE_INVALID => "Missing value after equals sign for option: ".toList
      | PE_VALUE_MISSING => "Expected value for option: ".toList
      | PE_VALUE_GIVEN => "Cannot set option: ".toList
      | PE_REMAINDER => "Cannot accept non-option value: ".toList, ?_⟩
    intro r hr
    unfold oparser_get_error_string
    cases h : r.error <;> first | exact absurd h hr | rfl
  all_goals
    intro h
    unfold oparser_get_error_string
    rw [h]

/-! ### C26 -/

/-- C26 (amended): every error recorded by the sub-option group of a parent
option `P`, entered without an error, is `PE_DUPLICATE`, `PE_VALUE_MISSING`,
`PE_VALUE_GIVEN`, `PE_VALUE_INVALID` or `PE_REQUIRED_MISSING`, and its context
is the first 255 characters of `P`'s name, a dot and the name of a sub-option
`S` of `P` (the whole of it when it is shorter than the 256-byte buffer); `S` is
the sub-option that the token under the cursor resolves to, or for
`PE_REQUIRED_MISSING` a required sub-option. -/
theorem sub_option_error_context (argv : List (List Char)) (argc k : Nat) (P : OptionDef)
    (sp : OptionSubParser) (w : World)
    (hsub : P.sub_options = some sp) (hw : w.env.result.error = PE_NONE)
    (herr : (enter_sub_options argv argc k P w).env.result.error ≠ PE_NONE) :
    sub_error_context P.base.name argv sp (enter_sub_options argv argc k P w).env ∧
    (∃ S ∈ sp.options,
      (enter_sub_options argv argc k P w).env.result.error_value =
        (P.base.name ++ '.' :: S.base.name).take 255 ∧
      (P.base.name.length + 1 + S.base.name.length < 256 →
        (enter_sub_options argv argc k P w).env.result.error_value =
          P.base.name ++ '.' :: S.base.name)) ∧
    ((enter_sub_options argv argc k P w).env.result.error = PE_DUPLICATE ∨
      (enter_sub_options argv argc k P w).env.result.error = PE_VALUE_MISSING ∨
      (enter_sub_options argv argc k P w).env.result.error = PE_VALUE_GIVEN ∨
      (enter_sub_options argv argc k P w).env.result.error = PE_VALUE_INVALID ∨
      (enter_sub_options argv argc k P w).env.result.error = PE_REQUIRED_MISSING) := by
  have henv := enter_sub_options_env argv argc k P sp w hsub
  rw [henv] at herr ⊢
  have hctx := parse_sub_options_loop_context P.base.name argv argc (argc - (w.env.i + 1)) sp
    w.env hw herr
  refine ⟨hctx, ?_, ?_⟩
  · obtain ⟨j, S, hS, hval, _⟩ := hctx
    refine ⟨S, List.getElem?_mem hS, ?_, ?_⟩
    · unfold parse_sub_options
      rw [hval]
      rfl
    · intro hlen
      unfold parse_sub_options
      rw [hval]
      exact snprintf_dotted_short _ _ hlen
  · obtain ⟨j, S, hS, _, hkind⟩ := hctx
    unfold parse_sub_options
    rcases hkind with ⟨h, _⟩ | ⟨h | h | h | h, _⟩
    · exact Or.inr (Or.inr (Or.inr (Or.inr h)))
    · exact Or.inl h
    · exact Or.inr (Or.inl h)
    · exact Or.inr (Or.inr (Or.inl h))
    · exact Or.inr (Or.inr (Or.inr (Or.inl h)))

/-- C26 (amended) on `advance_registry` and
`[prog, --required, --sub, animal=cow, tree, tree]`: the group of `sub`, entered
after the handler call for `sub`, records `PE_DUPLICATE` with the context
`sub.tree`. -/
theorem sub_option_error_context_witness :
    (oparser_parse advance_registry ["prog".toList, "--required".toList, "--sub".toList,
      "animal=cow".toList, "tree".toList, "tree".toList] 6 []).env.result.error =
      PE_DUPLICATE ∧
    (oparser_parse advance_registry ["prog".toList, "--required".toList, "--sub".toList,
      "animal=cow".toList, "tree".toList, "tree".toList] 6 []).env.result.error_value =
      "sub.tree".toList ∧
    sub_error_context "sub".toList
      ["prog".toList, "--required".toList, "--sub".toList, "animal=cow".toList, "tree".toList,
        "tree".toList]
      advance_subregistry
      (enter_sub_options
        ["prog".toList, "--required".toList, "--sub".toList, "animal=cow".toList,
          "tree".toList, "tree".toList] 6 2
        (OptionDef.mark ⟨⟨"sub".toList, "An option with suboptions".toList, 3, char_int 's',
          OF_NONE⟩, some advance_subregistry⟩)
        ((sub_world.mark 2 ⟨⟨"sub".toList, "An option with suboptions".toList, 3, char_int 's',
          OF_NONE⟩, some advance_subregistry⟩).call
          ⟨2, "sub".toList, char_int 's', none, 0⟩)).env :=
  ⟨by decide, by decide,
    (sub_option_error_context
      ["prog".toList, "--required".toList, "--sub".toList, "animal=cow".toList, "tree".toList,
        "tree".toList] 6 2
      (OptionDef.mark ⟨⟨"sub".toList, "An option with suboptions".toList, 3, char_int 's',
        OF_NONE⟩, some advance_subregistry⟩)
      advance_subregistry
      ((sub_world.mark 2 ⟨⟨"sub".toList, "An option with suboptions".toList, 3, char_int 's',
        OF_NONE⟩, some advance_subregistry⟩).call ⟨2, "sub".toList, char_int 's', none, 0⟩)
      rfl (by decide) (by decide)).1⟩

/-- C26 (as stated) fails: in `long_sub_registry` the option `long_name` (256
characters) owns a sub-registry with the required sub-option `x`; the token `--`
followed by that name gives `PE_REQUIRED_MISSING` with a context that is not the
name, a dot and `x`. -/
theorem sub_option_context_cut :
    (oparser_parse long_sub_registry [[], '-' :: '-' :: long_name] 2 []).env.result.error =
      PE_REQUIRED_MISSING ∧
    (oparser_parse long_sub_registry [[], '-' :: '-' :: long_name] 2
      []).env.result.error_value ≠ long_name ++ '.' :: ['x'] := by
  decide

/-! ### C27 -/

/-- C27 (amended): let a long-form token under the cursor of `oparser_parse` be
accepted for an option `P` that owns a sub-registry, let the group of `P` have
consumed the tokens that follow (the sub-options `js`), and let the next token,
`argv[e.i + 1]`, have an empty name-segment or match no sub-option name.  Then
the group ends there: no handler call is made for that token, the result is as
before the group or holds `PE_REQUIRED_MISSING`, and the cursor stands on the
last consumed token; without an error, the loop of `oparser_parse` goes on with
`i++` to exactly that token and hands it to `parse_string` like any other
token. -/
theorem group_end_resumes_driver (parser : OptionParser) (argv : List (List Char)) (argc : Nat)
    (calls : List Call) (w : World) (intro N : List Char) (V : Option (List Char)) (k : Nat)
    (P : OptionDef) (sp0 sp : OptionSubParser) (js : List Nat) (e : Env)
    (hr : Reaches parser argv argc calls w) (hi : w.env.i < argc)
    (hintro : long_intro w.parser.flags intro (name_value N V))
    (htok : argv.getD w.env.i [] = intro ++ name_value N V)
    (hN : ∀ c ∈ N, c ≠ '=' ∧ c ≠ NUL)
    (hlook : parse_name_lookup w.parser.flags (w.parser.options.map OptionDef.base)
      (name_value N V) 0 = some k)
    (hP : w.parser.options[k]? = some P)
    (hdup : encountered P.base = false ∨ check_flag P.base.flags OF_DUPLICATES_ALLOWED = true)
    (hval : value_accepted P.base V)
    (hsub : P.sub_options = some sp0)
    (hgroup : SubReaches argv argc sp0
      ((w.mark k P).call ⟨parser.handler, P.base.name, P.base.alias_, V, parser.data⟩).env
      js sp e)
    (hnext : e.i + 1 < argc)
    (hend : count_option_chars (argv.getD (e.i + 1) []) = 0 ∨
      scan_for_name (argv.getD (e.i + 1) []) (sp.options.map SubOption.base) = none) :
    (parse_string argv argc (argv.getD w.env.i []) 0 w).env.i = w.env.i + js.length ∧
    e.i = w.env.i + js.length ∧
    (parse_string argv argc (argv.getD w.env.i []) 0 w).env.calls = e.calls ∧
    ((parse_string argv argc (argv.getD w.env.i []) 0 w).env.result = w.env.result ∨
      (parse_string argv argc (argv.getD w.env.i []) 0 w).env.result.error =
        PE_REQUIRED_MISSING) ∧
    ((parse_string argv argc (argv.getD w.env.i []) 0 w).env.result.error = PE_NONE →
      Reaches parser argv argc calls
        (next_token (parse_string argv argc (argv.getD w.env.i []) 0 w)) ∧
      (next_token (parse_string argv argc (argv.getD w.env.i []) 0 w)).env.i = e.i + 1 ∧
      oparser_parse parser argv argc calls =
        parse_finish (parse_loop argv argc (argc - (e.i + 1))
          (next_token (parse_string argv argc (argv.getD w.env.i []) 0 w))) ∧
      parse_loop argv argc (argc - (e.i + 1))
          (next_token (parse_string argv argc (argv.getD w.env.i []) 0 w)) =
        if (parse_string argv argc (argv.getD (e.i + 1) []) 0
            (next_token (parse_string argv argc (argv.getD w.env.i []) 0 w))).env.result.error
            ≠ PE_NONE then
          parse_string argv argc (argv.getD (e.i + 1) []) 0
            (next_token (parse_string argv argc (argv.getD w.env.i []) 0 w))
        else
          parse_loop argv argc (argc - (e.i + 1) - 1)
            (next_token (parse_string argv argc (argv.getD (e.i + 1) []) 0
              (next_token (parse_string argv argc (argv.getD w.env.i []) 0 w))))) := by
  have hfix := reaches_fixed parser argv argc calls w hr
  simp only [OptionParser.fixed, Prod.mk.injEq] at hfix
  have hstep : parse_string argv argc (argv.getD w.env.i []) 0 w =
      enter_sub_options argv argc k P.mark
        ((w.mark k P).call ⟨parser.handler, P.base.name, P.base.alias_, V, parser.data⟩) := by
    rw [htok, parse_string_intro argv argc intro _ w hintro,
      parse_name_accept argv argc N V w k P (is_option_char_of N hN) hlook hP hdup hval,
      hfix.2.1, hfix.2.2]
  have hsub' : P.mark.sub_options = some sp0 := hsub
  have henv : (parse_string argv argc (argv.getD w.env.i []) 0 w).env =
      (sub_options_end P.base.name sp e).2 := by
    rw [hstep, enter_sub_options_env argv argc k P.mark sp0 _ hsub',
      sub_reaches_eq P.mark.base.name argv argc sp0 _ js sp e hgroup,
      parse_sub_options_stop sp P.mark.base.name argv argc e (Or.inr hend)]
    rfl
  have hcur := sub_reaches_cursor argv argc sp0 _ js sp e hgroup
  have hframe := sub_reaches_frame argv argc sp0 _ js sp e hgroup
  have hcur' : e.i = w.env.i + js.length := hcur
  have hres : e.result = w.env.result := hframe.2.2.2.1
  have hi' : (parse_string argv argc (argv.getD w.env.i []) 0 w).env.i = e.i := by
    rw [henv]; exact sub_options_end_i _ _ _
  refine ⟨by rw [hi', hcur'], hcur', ?_, ?_, ?_⟩
  · rw [henv]
    rcases sub_options_end_env P.base.name sp e with h | ⟨v, h⟩ <;> rw [h]
    rfl
  · rw [henv]
    rcases sub_options_end_env P.base.name sp e with h | ⟨v, h⟩ <;> rw [h]
    · exact Or.inl hres
    · exact Or.inr rfl
  · intro hok
    have hreach := Reaches.step w hr hi hok
    have hni : (next_token (parse_string argv argc (argv.getD w.env.i []) 0 w)).env.i =
        e.i + 1 := by
      simp only [next_token, hi']
    refine ⟨hreach, hni, ?_, ?_⟩
    · rw [reaches_loop parser argv argc calls _ hreach, hni]
    · obtain ⟨f, hf⟩ : ∃ f, argc - (e.i + 1) = f + 1 := ⟨argc - (e.i + 1) - 1, by omega⟩
      rw [hf]
      conv_lhs => unfold parse_loop
      simp only [hni, hnext, if_true, Nat.add_sub_cancel]

/-- C27 (amended) on `advance_registry` and
`[prog, --sub, animal=cow, rest]`: the group of `sub` consumes `animal=cow` and
ends at `rest`, which the loop of `oparser_parse` then collects as a remainder
token. -/
theorem group_end_resumes_driver_witness :
    (parse_string ["prog".toList, "--sub".toList, "animal=cow".toList, "rest".toList] 4
      "--sub".toList 0 (parse_start advance_registry [])).env.i = 2 ∧
    (oparser_parse advance_registry
      ["prog".toList, "--sub".toList, "animal=cow".toList, "rest".toList] 4
      []).parser.remainder = ["rest".toList] :=
  have h := group_end_resumes_driver advance_registry
    ["prog".toList, "--sub".toList, "animal=cow".toList, "rest".toList] 4 []
    (parse_start advance_registry []) ['-', '-'] "sub".toList none 2
    ⟨⟨"sub".toList, "An option with suboptions".toList, 3, char_int 's', OF_NONE⟩,
      some advance_subregistry⟩
    advance_subregistry _ [0] _
    Reaches.start (by decide) (by decide) (by decide) (by decide) (by decide) (by decide)
    (by decide) (by decide) rfl
    (SubReaches.step [] advance_subregistry _ "animal".toList (some "cow".toList) 0
      ⟨⟨"animal".toList, "Sets the name of an animal".toList, 6, char_int 'a',
        OF_REQUIRED ||| OF_VALUE_REQUIRED⟩⟩
      SubReaches.start (by decide) (by decide) (by decide) (by decide) (by decide) (by decide)
      (by decide) (by decide))
    (by decide) (by decide)
  ⟨h.1, by decide⟩

/-- C27 (as stated) fails: on `two_sub_registry` and `[prog, -st, x]` the group
of `sub`, entered from the alias `s`, ends without an error at the token `x`,
which matches no sub-option of `sub`; the alias run goes on with `t`, whose
group consumes `x` as its sub-option, so the loop of `oparser_parse` never
classifies `x`.  After the long form `--sub` the same token is classified by the
loop, as a remainder token. -/
theorem group_end_token_taken_by_later_group :
    (two_sub_registry.options[0]?.bind (fun O => O.sub_options)).map
      (fun sp => scan_for_name "x".toList (sp.options.map SubOption.base)) = some none ∧
    (oparser_parse two_sub_registry ["prog".toList, "-st".toList, "x".toList] 3 []).env.calls =
      [⟨2, "sub".toList, char_int 's', none, 0⟩, ⟨2, "top".toList, char_int 't', none, 0⟩,
       ⟨4, "x".toList, char_int 'x', none, 0⟩] ∧
    (oparser_parse two_sub_registry ["prog".toList, "-st".toList, "x".toList] 3
      []).env.result.error = PE_NONE ∧
    (oparser_parse two_sub_registry ["prog".toList, "-st".toList, "x".toList] 3
      []).parser.remainder = [] ∧
    (oparser_parse two_sub_registry ["prog".toList, "--sub".toList, "x".toList] 3
      []).parser.remainder = ["x".toList] := by
  decide

/-! ### C28 -/

/-- C28: the function `oparser_parse` empties the remainder collection before it
processes the first token: the outcome of a parse is the same as on the registry
with an empty collection, whatever an earlier call has left in it, and every
token of the collection after the call is a token `argv[i]`, `1 ≤ i < argc`, of
this call's argument vector that begins with neither `-` nor `/`. -/
theorem remainder_cleared_at_start (parser : OptionParser) (argv : List (List Char))
    (argc : Nat) (calls : List Call) :
    oparser_parse parser argv argc calls =
      oparser_parse { parser with remainder := [] } argv argc calls ∧
    (∀ t ∈ (oparser_parse parser argv argc calls).parser.remainder,
      ∃ i, 1 ≤ i ∧ i < argc ∧ t = argv.getD i [] ∧ is_remainder_token t = true) ∧
    (∀ (argv0 : List (List Char)) (argc0 : Nat) (calls0 : List Call),
      ∀ t ∈ (oparser_parse (oparser_parse parser argv0 argc0 calls0).parser argv argc
          calls).parser.remainder,
        ∃ i, 1 ≤ i ∧ i < argc ∧ t = argv.getD i [] ∧ is_remainder_token t = true) ∧
    (oparser_parse advance_registry ["prog".toList, "--required".toList, "moo".toList] 3
      []).parser.remainder = ["moo".toList] ∧
    (oparser_parse
      (oparser_parse advance_registry ["prog".toList, "--required".toList, "moo".toList] 3
        []).parser
      ["prog".toList, "baa".toList, "--required".toList] 3 []).parser.remainder =
      ["baa".toList] :=
  ⟨oparser_parse_start _ _ argv argc calls rfl rfl,
    oparser_parse_remainder parser argv argc calls,
    fun argv0 argc0 calls0 => oparser_parse_remainder _ argv argc calls,
    by decide, by decide⟩

/-! ### C29 -/

/-- C29: the function `oparser_remainder` returns NULL, without writing the
count, exactly when the flags of the registry lack `PF_ALLOW_REMAINDER`;
otherwise it returns the collection and sets the count to the number of
collected tokens.  The flags are those given to `oparser_init`: adding options
and parsing leave them as they are. -/
theorem remainder_accessor_contract (parser : OptionParser) (handler flags data : Nat)
    (option_name : List Char) (alias_ : Int) (option_flags : Nat) (doc_string : List Char)
    (argv : List (List Char)) (argc : Nat) (calls : List Call) :
    (oparser_remainder parser = none ↔ check_flag parser.flags PF_ALLOW_REMAINDER = false) ∧
    (check_flag parser.flags PF_ALLOW_REMAINDER = true →
      oparser_remainder parser = some (parser.remainder, parser.remainder.length)) ∧
    (oparser_init handler flags data).flags = flags ∧
    (oparser_add_option parser option_name alias_ option_flags doc_string).2.flags =
      parser.flags ∧
    (oparser_parse parser argv argc calls).parser.flags = parser.flags ∧
    (oparser_remainder (oparser_parse parser argv argc calls).parser = none ↔
      check_flag parser.flags PF_ALLOW_REMAINDER = false) ∧
    (check_flag parser.flags PF_ALLOW_REMAINDER = true →
      oparser_remainder (oparser_parse parser argv argc calls).parser =
        some ((oparser_parse parser argv argc calls).parser.remainder,
          (oparser_parse parser argv argc calls).parser.remainder.length)) := by
  have hacc : ∀ p : OptionParser,
      (oparser_remainder p = none ↔ check_flag p.flags PF_ALLOW_REMAINDER = false) ∧
      (check_flag p.flags PF_ALLOW_REMAINDER = true →
        oparser_remainder p = some (p.remainder, p.remainder.length)) := by
    intro p
    unfold oparser_remainder
    cases check_flag p.flags PF_ALLOW_REMAINDER <;> simp
  have hf := oparser_parse_flags parser argv argc calls
  refine ⟨(hacc parser).1, (hacc parser).2, rfl, ?_, hf, ?_, ?_⟩
  · unfold oparser_add_option
    split <;> rfl
  · rw [← hf]; exact (hacc _).1
  · rw [← hf]; exact (hacc _).2

/-! ### C30 -/

/-- C30 (the code evaluated): the header documents both accessors as returning
NULL if the option did not exist. No option of `simple_registry` has the name
`anyfoo`, yet `oparser_option_docstring` returns the doc string of `any` for
it; no option of `advance_registry` has the name `subway` and no sub-option of
it the name `treehouse`, yet `oparser_suboption_docstring` returns the doc
string of `tree` for them: both accessors find the name with `scan_for_name`,
which compares only the first `name_length` characters and never looks at what
follows them. -/
theorem docstring_found_for_longer_text :
    (∀ O ∈ simple_registry.options, O.base.name ≠ "anyfoo".toList) ∧
    oparser_option_docstring simple_registry "anyfoo".toList =
      some "Gets or sets any value".toList ∧
    (∀ O ∈ advance_registry.options, O.base.name ≠ "subway".toList) ∧
    (∀ O ∈ advance_registry.options, ∀ sp, O.sub_options = some sp →
      ∀ S ∈ sp.options, S.base.name ≠ "treehouse".toList) ∧
    oparser_suboption_docstring advance_registry "subway".toList "treehouse".toList =
      some "Sets the name of a tree".toList := by
  decide

/-! ### C31 -/

/-- C31: with dash-as-full-option unset, let the token `-s` stand under the
cursor of `oparser_parse`, and let all of `s` be an accepted alias run: every
character is alphanumeric and the alias of an option (in order, those at the
indices `ks`) that passes the duplicate check at its turn, does not require a
value and owns no sub-registry.  Then the token makes exactly one handler call
`(name, alias, NULL)` for each character, in order, records no error, adds the
number of characters to `options_parsed`, and the loop goes on to the next
token. -/
theorem alias_run_accepted (parser : OptionParser) (argv : List (List Char)) (argc : Nat)
    (calls : List Call) (w0 : World) (s : List Char) (ks : List Nat) (w : World)
    (hr : Reaches parser argv argc calls w0) (hi : w0.env.i < argc)
    (htok : argv.getD w0.env.i [] = '-' :: s)
    (hflag : check_flag parser.flags PF_TREAT_DASH_AS_FULL_OPTION = false)
    (hrun : AliasReaches argv argc ('-' :: s) w0 ks w)
    (hall : ks.length = s.length)
    (hns : ∀ k ∈ ks, ∀ O, w0.parser.options[k]? = some O → O.sub_options = none) :
    parse_string argv argc (argv.getD w0.env.i []) 0 w0 = w ∧
    w.env.result.error = PE_NONE ∧
    w.env.calls = w0.env.calls ++ ks.filterMap (option_call w0.parser) ∧
    (ks.filterMap (option_call w0.parser)).length = s.length ∧
    w.env.result.options_parsed = w0.env.result.options_parsed + s.length ∧
    Reaches parser argv argc calls (next_token w) := by
  have hfix := reaches_fixed parser argv argc calls w0 hr
  simp only [OptionParser.fixed, Prod.mk.injEq] at hfix
  have h1 : char_at ('-' :: s) 1 ≠ '-' := by
    by_cases hks : ks = []
    · subst hks
      have hs : s = [] := List.eq_nil_of_length_eq_zero hall.symm
      subst hs
      decide
    · exact isalnum_ne_dash _ (alias_reaches_first argv argc _ w0 ks w hrun hks)
  have hend : char_at ('-' :: s) (1 + ks.length) = NUL := by
    have := char_at_length ('-' :: s)
    rw [List.length_cons, Nat.add_comm, ← hall] at this
    exact this
  have hstep : parse_string argv argc (argv.getD w0.env.i []) 0 w0 = w := by
    rw [htok, parse_string_alias argv argc ('-' :: s) w0 rfl h1 (by rw [hfix.1]; exact hflag),
      alias_reaches_loop argv argc _ w0 ks w hrun,
      parse_alias_loop_stop argv argc _ _ 1 ks.length w (by rw [hend]; decide)]
    unfold parse_alias_end
    rw [if_pos hend]
  obtain ⟨hcalls, hlen, hres, _, _, _, _⟩ := alias_reaches_plain argv argc _ w0 ks w hrun hns
  have herr0 := reaches_error parser argv argc calls w0 hr
  have herr : w.env.result.error = PE_NONE := by rw [hres]; exact herr0
  refine ⟨hstep, herr, hcalls, by rw [hlen, hall], by rw [hres, hall], ?_⟩
  have h := Reaches.step w0 hr hi (by rw [hstep]; exact herr)
  rw [hstep] at h
  exact h

/-- C31 at `-at` on `simple_registry`: the handler is called for `any`, then
for `time`. -/
theorem alias_run_accepted_witness :
    (parse_string ["prog".toList, "-at".toList] 2 "-at".toList 0
      (parse_start simple_registry [])).env.calls =
      [⟨1, "any".toList, char_int 'a', none, 0⟩, ⟨1, "time".toList, char_int 't', none, 0⟩] ∧
    (parse_string ["prog".toList, "-at".toList] 2 "-at".toList 0
      (parse_start simple_registry [])).env.result.options_parsed = 2 :=
  have h := alias_run_accepted simple_registry ["prog".toList, "-at".toList] 2 []
    (parse_start simple_registry []) "at".toList [2, 1] _
    Reaches.start (by decide) (by decide) (by decide)
    (AliasReaches.step [2] _ 1
      ⟨⟨"time".toList, "Gets the time".toList, 4, char_int 't', OF_VALUE_NOT_ALLOWED⟩, none⟩
      (AliasReaches.step [] (parse_start simple_registry []) 2
        ⟨⟨"any".toList, "Gets or sets any value".toList, 3, char_int 'a', OF_NONE⟩, none⟩
        AliasReaches.start (by decide) (by decide) (by decide) (by decide) (by decide)
        (by decide))
      (by decide) (by decide) (by decide) (by decide) (by decide) (by decide))
    (by decide) (by decide)
  ⟨(congrArg (fun x => x.env.calls) h.1).trans (h.2.2.1.trans (by decide)),
    (congrArg (fun x => x.env.result.options_parsed) h.1).trans
      (h.2.2.2.2.1.trans (by decide))⟩

/-! ### C32 -/

/-- C32 (amended): the function `verify_required_options`, on the top-level
registry and on a sub-registry alike: when it returns no definition, every
definition is left with its encountered bit clear; when it returns a definition
`S`, the definitions before `S` are left with their bit clear, none of them
being a required definition without the bit, and `S` and every definition after
`S` are left exactly as they were, encountered bits included. -/
theorem required_scan_clears_up_to_missing (options : List OptionDef)
    (suboptions : List SubOption) :
    ((verify_required_options OptionDef.base OptionDef.with_base options).1 = none →
      (verify_required_options OptionDef.base OptionDef.with_base options).2 =
        options.map OptionDef.unmark ∧
      ∀ O ∈ (verify_required_options OptionDef.base OptionDef.with_base options).2,
        encountered O.base = false) ∧
    (∀ invalid,
      (verify_required_options OptionDef.base OptionDef.with_base options).1 = some invalid →
      ∃ pre S post, options = pre ++ S :: post ∧ S.base = invalid ∧
        required_missing S.base = true ∧
        (∀ O ∈ pre, required_missing O.base = false) ∧
        (verify_required_options OptionDef.base OptionDef.with_base options).2 =
          pre.map OptionDef.unmark ++ S :: post ∧
        ∀ O ∈ pre.map OptionDef.unmark, encountered O.base = false) ∧
    ((verify_required_options SubOption.base SubOption.with_base suboptions).1 = none →
      (verify_required_options SubOption.base SubOption.with_base suboptions).2 =
        suboptions.map SubOption.unmark ∧
      ∀ O ∈ (verify_required_options SubOption.base SubOption.with_base suboptions).2,
        encountered O.base = false) ∧
    (∀ invalid,
      (verify_required_options SubOption.base SubOption.with_base suboptions).1 =
        some invalid →
      ∃ pre S post, suboptions = pre ++ S :: post ∧ S.base = invalid ∧
        required_missing S.base = true ∧
        (∀ O ∈ pre, required_missing O.base = false) ∧
        (verify_required_options SubOption.base SubOption.with_base suboptions).2 =
          pre.map SubOption.unmark ++ S :: post ∧
        ∀ O ∈ pre.map SubOption.unmark, encountered O.base = false) := by
  have hclear : ∀ l : List OptionDef, ∀ O ∈ l.map OptionDef.unmark,
      encountered O.base = false := by
    intro l O hO
    rw [List.mem_map] at hO
    obtain ⟨O', _, rfl⟩ := hO
    simp only [OptionDef.unmark, OptionDef.with_base, clear_encountered, encountered]
    exact check_flag_clear_encountered _
  have hclear' : ∀ l : List SubOption, ∀ O ∈ l.map SubOption.unmark,
      encountered O.base = false := by
    intro l O hO
    rw [List.mem_map] at hO
    obtain ⟨O', _, rfl⟩ := hO
    simp only [SubOption.unmark, SubOption.with_base, clear_encountered, encountered]
    exact check_flag_clear_encountered _
  refine ⟨?_, ?_, ?_, ?_⟩
  · intro h
    have h2 := verify_required_options_none OptionDef.base OptionDef.with_base options h
    refine ⟨h2, ?_⟩
    rw [h2]
    exact hclear options
  · intro invalid h
    obtain ⟨pre, S, post, hl, hS, hreq, hpre, hres⟩ :=
      verify_required_options_some OptionDef.base OptionDef.with_base options invalid h
    exact ⟨pre, S, post, hl, hS, hreq, hpre, hres, hclear pre⟩
  · intro h
    have h2 := verify_required_options_none SubOption.base SubOption.with_base suboptions h
    refine ⟨h2, ?_⟩
    rw [h2]
    exact hclear' suboptions
  · intro invalid h
    obtain ⟨pre, S, post, hl, hS, hreq, hpre, hres⟩ :=
      verify_required_options_some SubOption.base SubOption.with_base suboptions invalid h
    exact ⟨pre, S, post, hl, hS, hreq, hpre, hres, hclear' pre⟩

/-- C32 (as stated) fails: on `advance_registry` the parse of
`[prog, --duplicate]` ends in `verify_required_options`, which reports the
missing `required` and returns at once: the encountered bit of `duplicate`, which
comes after it, is left set. -/
theorem required_scan_leaves_later_bits :
    (oparser_parse advance_registry ["prog".toList, "--duplicate".toList] 2
      []).env.result.error = PE_REQUIRED_MISSING ∧
    ((oparser_parse advance_registry ["prog".toList, "--duplicate".toList] 2
      []).parser.options.map (fun O => encountered O.base)) = [false, true, false] ∧
    ((verify_required_options OptionDef.base OptionDef.with_base
      [⟨⟨"required".toList, [], 8, char_int 'r', OF_REQUIRED⟩, none⟩,
       ⟨⟨"duplicate".toList, [], 9, char_int 'd',
         OF_DUPLICATES_ALLOWED ||| ___OF_ENCOUNTERED⟩, none⟩]).2.map
      (fun O => encountered O.base)) = [false, true] := by
  decide

/-! ### C33 -/

/-- C33: resolution returns the first match in registration order.  The function
`scan_for_alias` returns the index `k` exactly when the definition at `k` has
the alias and no earlier one has it, and `-1` exactly when none has it.  In a
registry whose stored name lengths are the lengths of the names,
`scan_for_name` returns `k` exactly when the stored name at `k` is the
beginning of the candidate text and no earlier stored name is, and `-1` exactly
when none is.  So of two matching definitions the later one is never returned. -/
theorem first_match_resolution (c : Char) (cand : List Char) (bases : List OptionBase)
    (hlen : ∀ o ∈ bases, o.name_length = o.name.length) :
    (∀ k, scan_for_alias c bases = some k ↔
      (∃ o, bases[k]? = some o ∧ o.alias_ = char_int c) ∧
      ∀ j, j < k → ∀ o, bases[j]? = some o → o.alias_ ≠ char_int c) ∧
    (scan_for_alias c bases = none ↔ ∀ o ∈ bases, o.alias_ ≠ char_int c) ∧
    (∀ k, scan_for_name cand bases = some k ↔
      (∃ o, bases[k]? = some o ∧ cand.take o.name.length = o.name) ∧
      ∀ j, j < k → ∀ o, bases[j]? = some o → cand.take o.name.length ≠ o.name) ∧
    (scan_for_name cand bases = none ↔ ∀ o ∈ bases, cand.take o.name.length ≠ o.name) ∧
    (∀ j k o, j < k → bases[j]? = some o → o.alias_ = char_int c →
      scan_for_alias c bases ≠ some k) ∧
    (∀ j k o, j < k → bases[j]? = some o → cand.take o.name.length = o.name →
      scan_for_name cand bases ≠ some k) := by
  refine ⟨scan_for_alias_some_iff c bases, scan_for_alias_none_iff c bases,
    scan_for_name_some_iff cand bases hlen, scan_for_name_none_iff cand bases hlen, ?_, ?_⟩
  · intro j k o hjk ho hm h
    exact ((scan_for_alias_some_iff c bases k).1 h).2 j hjk o ho hm
  · intro j k o hjk ho hm h
    exact ((scan_for_name_some_iff cand bases hlen k).1 h).2 j hjk o ho hm

/-- C33 on the options of `simple_registry`: the alias `t` and the text `time`
resolve to index 1, and with the option `time` registered twice the second one
is not returned. -/
theorem first_match_resolution_witness :
    scan_for_alias 't' (simple_registry.options.map OptionDef.base) = some 1 ∧
    scan_for_name "time".toList (simple_registry.options.map OptionDef.base) = some 1 ∧
    scan_for_name "time".toList
      ((simple_registry.options ++ simple_registry.options).map OptionDef.base) ≠ some 4 :=
  have h := first_match_resolution 't' "time".toList
    (simple_registry.options.map OptionDef.base) (by decide)
  have h2 := first_match_resolution 't' "time".toList
    ((simple_registry.options ++ simple_registry.options).map OptionDef.base) (by decide)
  ⟨(h.1 1).2 (by decide), (h.2.2.1 1).2 (by decide),
    h2.2.2.2.2.2 1 4 ⟨"time".toList, "Gets the time".toList, 4, char_int 't',
      OF_VALUE_NOT_ALLOWED⟩ (by decide) (by decide) (by decide)⟩

/-! ### C34 -/

/-- C34: the loops of `oparser_parse`, `parse_sub_options` and `parse_alias`
end by their own tests: a bound on the iterations larger than the one computed
at entry gives the same result, and a parse without error ends with the cursor
at `argc` or beyond.  The cursor only moves forward: an iteration of the loop
of `oparser_parse` moves it by at least one; `parse_sub_options` never moves it
back and, entered below `argc`, leaves it at most at `argc - 1`; every consumed
sub-option token moves it by exactly one; and the number of tokens dispatched,
top-level and sub-option, is the cursor minus one in every state of the loop,
at most `argc - 1`, also counting a last iteration that ends with an error. -/
theorem parse_terminates_cursor_forward (parser : OptionParser) (argv : List (List Char))
    (argc : Nat) (calls : List Call) :
    (∀ fuel, argc - 1 ≤ fuel →
      parse_finish (parse_loop argv argc fuel (parse_start parser calls)) =
        oparser_parse parser argv argc calls) ∧
    (∀ parent_name sp e fuel, argc - (e.i + 1) ≤ fuel →
      parse_sub_options_loop parent_name argv argc fuel sp e =
        parse_sub_options sp parent_name argv argc e) ∧
    (∀ s start w fuel, s.length - start ≤ fuel →
      parse_alias_loop argv argc s fuel start 0 w = parse_alias argv argc s start w) ∧
    ((oparser_parse parser argv argc calls).env.result.error = PE_NONE →
      argc ≤ (oparser_parse parser argv argc calls).env.i) ∧
    (∀ w : World,
      w.env.i + 1 ≤ (next_token (parse_string argv argc (argv.getD w.env.i []) 0 w)).env.i) ∧
    (∀ parent_name sp e,
      e.i ≤ (parse_sub_options sp parent_name argv argc e).2.i ∧
      (e.i < argc → (parse_sub_options sp parent_name argv argc e).2.i ≤ argc - 1)) ∧
    (∀ sp0 e0 js sp e, SubReaches argv argc sp0 e0 js sp e → e.i = e0.i + js.length) ∧
    (∀ n w, Dispatched parser argv argc calls n w →
      Reaches parser argv argc calls w ∧ n + 1 = w.env.i ∧ n ≤ argc - 1 ∧
      (w.env.i < argc →
        n + 1 + ((parse_string argv argc (argv.getD w.env.i []) 0 w).env.i - w.env.i) ≤
          argc - 1)) := by
  refine ⟨?_, ?_, ?_, ?_, ?_, ?_, ?_, ?_⟩
  · intro fuel hf
    have hs : (parse_start parser calls).env.i = 1 := by rw [parse_start_eq]
    rw [← parse_loop_fuel argv argc (argc - 1) fuel (parse_start parser calls)
      (by rw [hs]) hf]
    rfl
  · intro parent_name sp e fuel hf
    unfold parse_sub_options
    exact (parse_sub_options_loop_fuel parent_name argv argc _ fuel sp e (le_refl _) hf).symm
  · intro s start w fuel hf
    unfold parse_alias
    exact (parse_alias_loop_fuel argv argc s _ fuel start 0 w (by simp) hf).symm
  · intro hok
    rcases parse_outcome parser argv argc calls with ⟨w, hr, hdone, he⟩ | ⟨w, hr, _, hne, he⟩
    · rw [he]
      have henv : (parse_end w).env.i = w.env.i := by
        unfold parse_end
        simp only
        split <;> rfl
      rw [henv]
      omega
    · rw [he] at hok
      exact absurd hok hne
  · intro w
    exact Nat.succ_le_succ (parse_string_i argv argc _ 0 w)
  · intro parent_name sp e
    refine ⟨parse_sub_options_loop_i _ _ _ _ _ _, ?_⟩
    intro h
    have := parse_sub_options_loop_lt parent_name argv argc (argc - (e.i + 1)) sp e h
    unfold parse_sub_options
    omega
  · intro sp0 e0 js sp e h
    exact sub_reaches_cursor argv argc sp0 e0 js sp e h
  · intro n w h
    have hc := dispatched_cursor parser argv argc calls n w h
    refine ⟨dispatched_reaches parser argv argc calls n w h, hc.1, hc.2, ?_⟩
    intro hi
    have h1 := parse_string_i argv argc (argv.getD w.env.i []) 0 w
    have h2 := parse_string_lt argv argc (argv.getD w.env.i []) 0 w hi
    omega

/-! ### C35 -/

/-- C35 (amended): with dash-as-full-option unset, let the token `-s` stand
under the cursor of `oparser_parse`, with or without settable-flags, let the
first `j` characters of `s` be an accepted alias run, and let `s[j]` be
alphanumeric and the alias of an option `O` that requires a value and passes the
duplicate check; then, whatever follows `s[j]` in the token (also `=value` after
the first character), `oparser_parse` returns `PE_VALUE_MISSING`, the context is
the first 255 characters of `O`'s name (the name itself when it is shorter than
the 256-byte buffer), and no handler call is made for `O`. -/
theorem value_required_in_alias_run (parser : OptionParser) (argv : List (List Char))
    (argc : Nat) (calls : List Call) (w0 : World) (s : List Char) (ks : List Nat) (w : World)
    (k : Nat) (O : OptionDef)
    (hr : Reaches parser argv argc calls w0) (hi : w0.env.i < argc)
    (htok : argv.getD w0.env.i [] = '-' :: s)
    (hflag : check_flag parser.flags PF_TREAT_DASH_AS_FULL_OPTION = false)
    (hrun : AliasReaches argv argc ('-' :: s) w0 ks w)
    (hal : isalnum (char_at s ks.length) = true)
    (hscan : scan_for_alias (char_at s ks.length) (w.parser.options.map OptionDef.base) =
      some k)
    (hO : w.parser.options[k]? = some O)
    (hdup : encountered O.base = false ∨ check_flag O.base.flags OF_DUPLICATES_ALLOWED = true)
    (hreq : check_flag O.base.flags OF_VALUE_REQUIRED = true) :
    (oparser_parse parser argv argc calls).env.result.error = PE_VALUE_MISSING ∧
    (oparser_parse parser argv argc calls).env.result.error_value = O.base.name.take 255 ∧
    (O.base.name.length < 256 →
      (oparser_parse parser argv argc calls).env.result.error_value = O.base.name) ∧
    (oparser_parse parser argv argc calls).env.calls = w.env.calls := by
  have hfix := reaches_fixed parser argv argc calls w0 hr
  simp only [OptionParser.fixed, Prod.mk.injEq] at hfix
  have hc : char_at ('-' :: s) (1 + ks.length) = char_at s ks.length := by
    rw [Nat.add_comm]; exact char_at_succ_cons _ _ _
  have hal' : isalnum (char_at ('-' :: s) (1 + ks.length)) = true := by rw [hc]; exact hal
  have h1 : char_at ('-' :: s) 1 ≠ '-' := by
    apply isalnum_ne_dash
    by_cases hks : ks = []
    · subst hks; exact hal'
    · exact alias_reaches_first argv argc _ w0 ks w hrun hks
  have hlt := isalnum_lt _ _ hal'
  obtain ⟨f, hf⟩ : ∃ f, ('-' :: s).length - (1 + ks.length) = f + 1 :=
    ⟨('-' :: s).length - (1 + ks.length) - 1, by omega⟩
  have hstep : parse_string argv argc (argv.getD w0.env.i []) 0 w0 =
      (w.mark k O).fail PE_VALUE_MISSING (snprintf ERROR_BUFFER_SIZE O.base.name) := by
    rw [htok, parse_string_alias argv argc ('-' :: s) w0 rfl h1 (by rw [hfix.1]; exact hflag),
      alias_reaches_loop argv argc _ w0 ks w hrun, hf,
      parse_alias_loop_value_missing argv argc _ f ks.length w k O hal'
        (by rw [hc]; exact hscan) hO hdup hreq]
  have hp := reaches_fail parser argv argc calls w0 hr hi
    (by rw [hstep]; simp [World.fail, Env.fail])
  rw [hp, hstep]
  refine ⟨rfl, rfl, ?_, rfl⟩
  intro hlen
  exact snprintf_short _ hlen

/-- C35 (amended) at `-n=Moo` on `settable_registry`: the option `name` requires
a value, and the alias form does not pass it one. -/
theorem value_required_in_alias_run_witness :
    (oparser_parse settable_registry ["prog".toList, "-n=Moo".toList] 2 []).env.result.error =
      PE_VALUE_MISSING ∧
    (oparser_parse settable_registry ["prog".toList, "-n=Moo".toList] 2
      []).env.result.error_value = "name".toList ∧
    (oparser_parse settable_registry ["prog".toList, "-n=Moo".toList] 2 []).env.calls = [] :=
  have h := value_required_in_alias_run settable_registry ["prog".toList, "-n=Moo".toList] 2 []
    (parse_start settable_registry []) "n=Moo".toList [] (parse_start settable_registry []) 0
    ⟨⟨"name".toList, "Sets the name".toList, 4, char_int 'n', OF_VALUE_REQUIRED⟩, none⟩
    Reaches.start (by decide) (by decide) (by decide) AliasReaches.start (by decide)
    (by decide) (by decide) (by decide) (by decide)
  ⟨h.1, h.2.2.1 (by decide), h.2.2.2⟩

/-- C35 (as stated) fails: for the option `long_name` (256 characters, value
required, alias `n`) the token `-n` gives `PE_VALUE_MISSING` with a context that
is not the option's name. -/
theorem alias_value_missing_context_cut :
    (oparser_parse (long_name_registry OF_VALUE_REQUIRED) [[], "-n".toList] 2
      []).env.result.error = PE_VALUE_MISSING ∧
    (oparser_parse (long_name_registry OF_VALUE_REQUIRED) [[], "-n".toList] 2
      []).env.result.error_value ≠ long_name := by
  decide

/-! ### C36 -/

/-- C36: with dash-as-full-option unset, the token `-` leaves the state of the
parse exactly as it was: no error, no handler call, no encountered bit, the
count `options_parsed` and the remainder collection unchanged; under the cursor
of `oparser_parse` the loop just goes on to the next token. -/
theorem single_dash_ignored (parser : OptionParser) (argv : List (List Char)) (argc : Nat)
    (calls : List Call) (w : World)
    (hr : Reaches parser argv argc calls w) (hi : w.env.i < argc)
    (htok : argv.getD w.env.i [] = ['-'])
    (hflag : check_flag parser.flags PF_TREAT_DASH_AS_FULL_OPTION = false) :
    parse_string argv argc (argv.getD w.env.i []) 0 w = w ∧
    Reaches parser argv argc calls (next_token w) := by
  have hfix := reaches_fixed parser argv argc calls w hr
  simp only [OptionParser.fixed, Prod.mk.injEq] at hfix
  have hstep : parse_string argv argc (argv.getD w.env.i []) 0 w = w := by
    rw [htok, parse_string_alias argv argc ['-'] w rfl (by decide)
      (by rw [hfix.1]; exact hflag)]
    rfl
  refine ⟨hstep, ?_⟩
  have h := Reaches.step w hr hi (by rw [hstep]; exact reaches_error parser argv argc calls w hr)
  rw [hstep] at h
  exact h

/-- C36 on `simple_registry`, and on the same registry with allow-remainder as
its flags: the token is not collected. -/
theorem single_dash_ignored_witness :
    parse_string ["prog".toList, "-".toList] 2 "-".toList 0 (parse_start simple_registry []) =
      parse_start simple_registry [] ∧
    (oparser_parse { simple_registry with flags := PF_ALLOW_REMAINDER }
      ["prog".toList, "-".toList] 2 []).parser.remainder = [] :=
  ⟨(single_dash_ignored simple_registry ["prog".toList, "-".toList] 2 []
      (parse_start simple_registry []) Reaches.start (by decide) (by decide) (by decide)).1,
    by decide⟩

end OptionsParser
